import Mathlib

/-!
Verification development for the on-disk file-system core of the sv6 research
operating system (kernel/fs.cc, include/scalefs.hh, include/file.hh).

The development is a shallow embedding: the C++ functions of kernel/fs.cc are
translated into executable Lean functions over an explicit state.  Machine
integers (u32) are modelled as Nat together with explicit `% 2^32` wherever the
source code's arithmetic can wrap.  Code that can panic or throw the
out_of_blocks exception is modelled with Option / an explicit result type.

The filesystem header (fs.h) with the layout constants, and the in-memory
free-bit-vector behind rootfs_interface, are not part of the source tree here;
those pieces are modelled from the specification and are marked
"Modelled from the spec:" in their doc comments.  Everything else follows
kernel/fs.cc and include/scalefs.hh directly.

The buffer cache (buf::get / writeback / add_to_transaction) is an external
collaborator of the core; following the specification's contract it is
collapsed into the disk image: a buffer write is a write to the disk image and
add_to_transaction logs the buffer's block number into the transaction.
-/

/-- Modelled from the spec: block size in bytes (glossary: typically 4096);
fs.h is absent from the source tree. -/
def BSIZE : Nat := 4096

/-- Modelled from the spec: number of direct block pointers in an inode
(fs.h absent; the xv6-family value 10 is used — no claim depends on the exact
value). -/
def NDIRECT : Nat := 10

/-- Modelled from the spec: number of block pointers per indirect block,
BSIZE / sizeof(u32). -/
def NINDIRECT : Nat := BSIZE / 4

/-- Modelled from the spec: MAXFILE = NDIRECT + NINDIRECT + NINDIRECT^2.
Treated as mathematical (unwrapped) arithmetic; note MAXFILE * BSIZE exceeds
2^32, so a u32 offset can never reach it. -/
def MAXFILE : Nat := NDIRECT + NINDIRECT + NINDIRECT * NINDIRECT

/-- Modelled from the spec: maximum length of a directory-entry name (fs.h
absent).  The value 12 makes sizeof(dirent) = 4 + 12 = 16 divide BSIZE, which
dir_init's dense-offset assertion (assert(dir_offset == off) at each block
boundary) requires. -/
def DIRSIZ : Nat := 12

/-- Modelled from the spec: sizeof(struct dirent) = sizeof(u32) + DIRSIZ. -/
def DIRENTSZ : Nat := 4 + DIRSIZ

/-- Modelled from the spec: inode type tags T_FREE(0), T_DIR, T_FILE, T_DEV. -/
def T_FREE : Nat := 0

/-- Modelled from the spec: directory inode type. -/
def T_DIR : Nat := 1

/-- Modelled from the spec: regular-file inode type. -/
def T_FILE : Nat := 2

/-- Modelled from the spec: device inode type. -/
def T_DEV : Nat := 3

/-- One past the largest u32 value; u32 arithmetic wraps modulo this. -/
def U32 : Nat := 4294967296

/-- Modelled from the spec: inodes per inode-table block (BSIZE /
sizeof(dinode); sizeof(dinode) = 64 with 12 block pointers). -/
def IPB : Nat := 64

/-- Modelled from the spec: disk block holding inode inum,
IBLOCK(inum) = 2 + inum / IPB. -/
def IBLOCK (inum : Nat) : Nat := 2 + inum / IPB

/-- Modelled from the spec: bits per free-bitmap block, BSIZE * 8. -/
def BPB : Nat := BSIZE * 8

/-- Modelled from the spec: the free-bitmap block that holds the bit of data
block b, BBLOCK(b, ninodes) = inode_end + b / BPB, with the bitmap placed
right after the inode table. -/
def BBLOCK (b : Nat) (ninodes : Nat) : Nat := 2 + ninodes / IPB + 1 + b / BPB

/-- BLOCKROUNDUP(off) from kernel/fs.cc:
(((off)%BSIZE) ? (off)/BSIZE+1 : (off)/BSIZE). -/
def BLOCKROUNDUP (off : Nat) : Nat :=
  if off % BSIZE ≠ 0 then off / BSIZE + 1 else off / BSIZE

/-- A disk block's payload: byte index (0 ≤ i < BSIZE) to byte value. -/
def Blk : Type := Nat → Nat

/-- The all-zero block (memset(data, 0, BSIZE)). -/
def zeroBlk : Blk := fun _ => 0

/-- Point update of a Nat-indexed function. -/
def updf {α : Type} (f : Nat → α) (k : Nat) (v : α) : Nat → α :=
  fun x => if x = k then v else f x

/-- Read entry j of a block interpreted as an array of little-endian u32
values ((u32 *)data in the source). -/
def u32At (blk : Blk) (j : Nat) : Nat :=
  blk (4 * j) % 256 + 256 * (blk (4 * j + 1) % 256) +
    65536 * (blk (4 * j + 2) % 256) + 16777216 * (blk (4 * j + 3) % 256)

/-- Store v as entry j of a block interpreted as an array of little-endian
u32 values. -/
def setU32 (blk : Blk) (j : Nat) (v : Nat) : Blk :=
  fun i =>
    if i = 4 * j then v % 256
    else if i = 4 * j + 1 then v / 256 % 256
    else if i = 4 * j + 2 then v / 65536 % 256
    else if i = 4 * j + 3 then v / 16777216 % 256
    else blk i

/-- In-memory copy of the on-disk inode metadata (struct dinode), used for the
inode-table image (the byte layout of the inode table is in the absent fs.h,
so the table is modelled at record granularity). -/
structure DInode where
  typ : Nat
  major : Nat
  minor : Nat
  nlink : Int
  size : Nat
  gen : Nat
  addrs : Nat → Nat

/-- A directory-index entry: dir_entry_info(inum_, offset_). -/
structure DirEntryInfo where
  inum_ : Nat
  offset_ : Nat
deriving DecidableEq

/-- The in-memory hashed directory index (dir_entries), modelled as an
association list from (DIRSIZ-truncated) names to dir_entry_info.  insert
fails when the key is present; remove fails when it is absent. -/
def DirIdx : Type := List (List Nat × DirEntryInfo)

/-- Hash-style lookup: first binding of the key, if any. -/
def dirLookupIdx (d : DirIdx) (k : List Nat) : Option DirEntryInfo :=
  match d with
  | [] => none
  | (k', v) :: rest => if k' = k then some v else dirLookupIdx rest k

/-- Hash-style insert: fails (none) when the key is already present. -/
def dirInsertIdx (d : DirIdx) (k : List Nat) (v : DirEntryInfo) :
    Option DirIdx :=
  match dirLookupIdx d k with
  | some _ => none
  | none => some ((k, v) :: d)

/-- Hash-style remove: fails (none) when the key is absent. -/
def dirRemoveIdx (d : DirIdx) (k : List Nat) : Option DirIdx :=
  match dirLookupIdx d k with
  | none => none
  | some _ => some (d.filter (fun p => p.1 ≠ k))

/-- The in-memory inode object (struct inode of file.hh): metadata fields,
the block-pointer array addrs[NDIRECT+2], and the directory layer's index and
next-insertion offset. -/
structure Ino where
  inum : Nat
  typ : Nat
  major : Nat
  minor : Nat
  nlink : Int
  size : Nat
  gen : Nat
  addrs : Nat → Nat
  dir : Option DirIdx
  dirOffset : Nat

/-- The filesystem state a single cached inode operates against: the inode
itself, the disk image (buffer cache collapsed onto it), the in-memory
free-bit-vector of the block allocator, the superblock size, the inode-table
image, the nlink counts of the other cached inodes (reached through iget in
dirlink/dirunlink), and the current transaction's logged block numbers,
allocated-block intents and freed-block intents. -/
structure St where
  ip : Ino
  disk : Nat → Blk
  freemap : Nat → Bool
  sbSize : Nat
  ninodes : Nat
  itable : Nat → DInode
  onlink : Nat → Int
  tlogged : List Nat
  tallocated : List Nat
  tfreed : List Nat

/-- State with one disk block's image replaced (a buffer write under the
collapsed buffer-cache model). -/
def diskUpd (σ : St) (p : Nat) (blk : Blk) : St :=
  { σ with disk := updf σ.disk p blk }

/-- The positions ("roles") a physical block number can occupy in one inode's
block map: direct slot, indirect root, indirect entry, doubly-indirect root,
first-level doubly-indirect entry, second-level doubly-indirect entry. -/
inductive Role where
  | dir (i : Nat)
  | iroot
  | ind (j : Nat)
  | droot
  | d1 (i : Nat)
  | d2 (i j : Nat)
deriving DecidableEq

/-- The physical block currently stored at a role (0 = absent). -/
def blockOfRole (σ : St) : Role → Nat
  | .dir i => if i < NDIRECT then σ.ip.addrs i else 0
  | .iroot => σ.ip.addrs NDIRECT
  | .ind j =>
      if σ.ip.addrs NDIRECT ≠ 0 ∧ j < NINDIRECT then
        u32At (σ.disk (σ.ip.addrs NDIRECT)) j
      else 0
  | .droot => σ.ip.addrs (NDIRECT + 1)
  | .d1 i =>
      if σ.ip.addrs (NDIRECT + 1) ≠ 0 ∧ i < NINDIRECT then
        u32At (σ.disk (σ.ip.addrs (NDIRECT + 1))) i
      else 0
  | .d2 i j =>
      if σ.ip.addrs (NDIRECT + 1) ≠ 0 ∧ i < NINDIRECT ∧ j < NINDIRECT then
        (if u32At (σ.disk (σ.ip.addrs (NDIRECT + 1))) i ≠ 0 then
          u32At (σ.disk (u32At (σ.disk (σ.ip.addrs (NDIRECT + 1))) i)) j
        else 0)
      else 0

/-- Well-formedness of one inode's block map against the allocator state:
distinct roles hold distinct physical blocks, every block held by a role is
marked allocated in the in-memory free-bit-vector, block 0 is never free
(it is the boot block), and the device size fits in u32. -/
structure WF (σ : St) : Prop where
  inj : ∀ r1 r2, blockOfRole σ r1 ≠ 0 → blockOfRole σ r1 = blockOfRole σ r2 →
    r1 = r2
  marked : ∀ r, blockOfRole σ r ≠ 0 → σ.freemap (blockOfRole σ r) = true
  zeroUsed : σ.freemap 0 = true
  sbLe : σ.sbSize ≤ U32

/-- The physical block backing logical block bn of the inode (0 = hole),
read-only rendering of the three-tier map that bmap maintains. -/
def logicalMap (σ : St) (bn : Nat) : Nat :=
  if bn < NDIRECT then blockOfRole σ (.dir bn)
  else if bn - NDIRECT < NINDIRECT then blockOfRole σ (.ind (bn - NDIRECT))
  else if bn - NDIRECT - NINDIRECT < NINDIRECT * NINDIRECT then
    blockOfRole σ (.d2 ((bn - NDIRECT - NINDIRECT) / NINDIRECT)
      ((bn - NDIRECT - NINDIRECT) % NINDIRECT))
  else 0

/-- The leaf role backing logical block bn. -/
def leafRole (bn : Nat) : Role :=
  if bn < NDIRECT then .dir bn
  else if bn - NDIRECT < NINDIRECT then .ind (bn - NDIRECT)
  else .d2 ((bn - NDIRECT - NINDIRECT) / NINDIRECT)
    ((bn - NDIRECT - NINDIRECT) % NINDIRECT)

/-- Byte k of the inode's logical contents; holes read as zero. -/
def fileByte (σ : St) (k : Nat) : Nat :=
  let pb := logicalMap σ (k / BSIZE)
  if pb = 0 then 0 else σ.disk pb (k % BSIZE)

/-- Zero the buffer-cache block of a disk block (bzero in kernel/fs.cc; the
writeback flag only forces I/O and has no effect on the collapsed image). -/
def bzero (σ : St) (bno : Nat) : St :=
  { σ with disk := updf σ.disk bno zeroBlk }

/-- Allocate a disk block (balloc in kernel/fs.cc).  Modelled from the spec:
rootfs_interface->alloc_block() removes a free bit from the in-memory
free-bit-vector; the model picks the least free block below sb_root.size.
Returns none when no block is available (throw_out_of_blocks).  Records the
block as allocated in the transaction when one is given, and zeroes the block
image when zero_on_alloc is set. -/
def balloc (σ : St) (useTrans : Bool) (zeroOnAlloc : Bool) :
    Option (Nat × St) :=
  match (List.range σ.sbSize).find? (fun b => ! σ.freemap b) with
  | none => none
  | some b =>
      let σ₁ : St :=
        { σ with
          freemap := fun x => if x = b then true else σ.freemap x,
          tallocated := if useTrans then σ.tallocated ++ [b] else σ.tallocated }
      some (b, if zeroOnAlloc then bzero σ₁ b else σ₁)

/-- Free a disk block (bfree in kernel/fs.cc): marks the bit free in the
in-memory free-bit-vector unless the free is delayed to transaction commit,
and records the freed-block intent in the transaction when one is given. -/
def bfree (σ : St) (b : Nat) (useTrans : Bool) (delayedFree : Bool) : St :=
  { σ with
    freemap := if delayedFree then σ.freemap
      else fun x => if x = b then false else σ.freemap x,
    tfreed := if useTrans then σ.tfreed ++ [b] else σ.tfreed }

/-- Result of bmap: the physical block plus the updated state, or the
out_of_blocks exception (carrying the state mutated so far), or the
panic("bmap: out of range"). -/
inductive BRes where
  | ok (pb : Nat) (σ : St)
  | noblocks (σ : St)
  | badrange

/-- Return the disk block of logical block bn of the inode, allocating any
missing direct / indirect / doubly-indirect blocks along the way (bmap in
kernel/fs.cc).  Indirect-root allocations always zero on alloc; leaf
allocations honour the caller's flag.  Entry updates to indirect blocks are
logged into the transaction when one is given. -/
def bmap (σ : St) (bn : Nat) (useTrans : Bool) (zeroOnAlloc : Bool) : BRes :=
  if bn < NDIRECT then
    (if σ.ip.addrs bn = 0 then
      match balloc σ useTrans zeroOnAlloc with
      | none => .noblocks σ
      | some (b, σ₁) =>
          .ok b { σ₁ with ip := { σ₁.ip with addrs := updf σ₁.ip.addrs bn b } }
    else .ok (σ.ip.addrs bn) σ)
  else
    let bn1 := bn - NDIRECT
    if bn1 < NINDIRECT then
      -- singly-indirect tier
      let rootStep : Option (Nat × St) :=
        if σ.ip.addrs NDIRECT = 0 then
          match balloc σ useTrans true with
          | none => none
          | some (b, σ₁) =>
              some (b,
                { σ₁ with ip := { σ₁.ip with addrs := updf σ₁.ip.addrs NDIRECT b } })
        else some (σ.ip.addrs NDIRECT, σ)
      match rootStep with
      | none => .noblocks σ
      | some (root, σ₁) =>
          if u32At (σ₁.disk root) bn1 = 0 then
            match balloc σ₁ useTrans zeroOnAlloc with
            | none => .noblocks σ₁
            | some (b, σ₂) =>
                .ok b
                  { σ₂ with
                    disk := updf σ₂.disk root (setU32 (σ₂.disk root) bn1 b),
                    tlogged := if useTrans then σ₂.tlogged ++ [root]
                      else σ₂.tlogged }
          else .ok (u32At (σ₁.disk root) bn1) σ₁
    else
      let bn2 := bn1 - NINDIRECT
      if bn2 ≥ NINDIRECT * NINDIRECT then .badrange
      else
        -- doubly-indirect tier: first the root
        let rootStep : Option (Nat × St) :=
          if σ.ip.addrs (NDIRECT + 1) = 0 then
            match balloc σ useTrans true with
            | none => none
            | some (b, σ₁) =>
                some (b,
                  { σ₁ with
                    ip := { σ₁.ip with addrs := updf σ₁.ip.addrs (NDIRECT + 1) b } })
          else some (σ.ip.addrs (NDIRECT + 1), σ)
        match rootStep with
        | none => .noblocks σ
        | some (droot, σ₁) =>
            -- first-level doubly-indirect block
            let l1Step : Option (Nat × St) :=
              if u32At (σ₁.disk droot) (bn2 / NINDIRECT) = 0 then
                match balloc σ₁ useTrans true with
                | none => none
                | some (b, σ₂) =>
                    some (b,
                      { σ₂ with
                        disk := updf σ₂.disk droot
                          (setU32 (σ₂.disk droot) (bn2 / NINDIRECT) b),
                        tlogged := if useTrans then σ₂.tlogged ++ [droot]
                          else σ₂.tlogged })
              else some (u32At (σ₁.disk droot) (bn2 / NINDIRECT), σ₁)
            match l1Step with
            | none => .noblocks σ₁
            | some (l1, σ₂) =>
                -- second-level doubly-indirect block
                if u32At (σ₂.disk l1) (bn2 % NINDIRECT) = 0 then
                  match balloc σ₂ useTrans zeroOnAlloc with
                  | none => .noblocks σ₂
                  | some (b, σ₃) =>
                      .ok b
                        { σ₃ with
                          disk := updf σ₃.disk l1
                            (setU32 (σ₃.disk l1) (bn2 % NINDIRECT) b),
                          tlogged := if useTrans then σ₃.tlogged ++ [l1]
                            else σ₃.tlogged }
                else .ok (u32At (σ₂.disk l1) (bn2 % NINDIRECT)) σ₂

/-- First n bytes of the source buffer; a C caller's buffer always has n
readable bytes, so positions beyond the modelled list read as 0. -/
def takePad (n : Nat) (l : List Nat) : List Nat :=
  (List.range n).map (fun i => l.getD i 0)

/-- One writei loop body plus the loop's continuation (the for-loop of writei
in kernel/fs.cc, with cur the still-unwritten byte suffix).  Returns the
number of bytes written by this and the remaining iterations, the final
state, and whether the loop ran to completion (false = broke on
out_of_blocks).  none models a panic (bmap out of range). -/
def writeLoop (σ : St) (cur : List Nat) (off : Nat)
    (useTrans writeback : Bool) : Option (Nat × St × Bool) :=
  match hc : cur with
  | [] => some (0, σ, true)
  | _ :: _ =>
      let m := min cur.length (BSIZE - off % BSIZE)
      let skipDiskRead := off % BSIZE = 0 ∧ m = BSIZE
      match bmap σ (off / BSIZE) useTrans (! decide skipDiskRead) with
      | .badrange => none
      | .noblocks σ₁ => some (0, σ₁, false)
      | .ok pb σ₁ =>
          let base := if skipDiskRead then zeroBlk else σ₁.disk pb
          let blk' : Blk := fun i =>
            if off % BSIZE ≤ i ∧ i < off % BSIZE + m then
              cur.getD (i - off % BSIZE) 0
            else base i
          let σ₂ : St :=
            { σ₁ with
              disk := updf σ₁.disk pb blk',
              tlogged := if !writeback && useTrans then σ₁.tlogged ++ [pb]
                else σ₁.tlogged }
          match writeLoop σ₂ (cur.drop m) (off + m) useTrans writeback with
          | none => none
          | some (k, σ₃, ok) => some (m + k, σ₃, ok)
termination_by cur.length
decreasing_by
  have hb : off % BSIZE < BSIZE := Nat.mod_lt off (by decide)
  simp [hc]
  omega

/-- Write n bytes from src to the inode at byte offset off (writei in
kernel/fs.cc).  Returns -1 for a device inode or u32 overflow of off+n;
returns the number of bytes written (-1 when out_of_blocks struck before any
byte was written).  The inode size is not touched.  The clamp against
MAXFILE*BSIZE is kept from the source although a u32 offset can never
reach it. -/
def writei (σ : St) (src : List Nat) (off n : Nat)
    (useTrans writeback : Bool) : Option (Int × St) :=
  if σ.ip.typ = T_DEV then some (-1, σ)
  else if (off + n) % U32 < off then some (-1, σ)
  else
    let n' := if off + n > MAXFILE * BSIZE then MAXFILE * BSIZE - off else n
    match writeLoop σ (takePad n' src) off useTrans writeback with
    | none => none
    | some (k, σ', ok) =>
        some (if !ok ∧ k = 0 then (-1 : Int) else (k : Int), σ')

/-- One readi loop body plus the loop's continuation (the for-loop of readi in
kernel/fs.cc).  bmap is called with no transaction and zero_on_alloc = true,
so reading a hole allocates a fresh zeroed block.  none models the
panic("readi: out of blocks") and the bmap range panic. -/
def readLoop (σ : St) (off n : Nat) : Option (List Nat × St) :=
  if hn : n = 0 then some ([], σ)
  else
    match bmap σ (off / BSIZE) false true with
    | .badrange => none
    | .noblocks _ => none
    | .ok pb σ₁ =>
        let m := min n (BSIZE - off % BSIZE)
        let bytes := (List.range m).map (fun i => σ₁.disk pb (off % BSIZE + i))
        match readLoop σ₁ (off + m) (n - m) with
        | none => none
        | some (rest, σ₂) => some (bytes ++ rest, σ₂)
termination_by n
decreasing_by
  have hb : 0 < BSIZE - off % BSIZE := by
    have := Nat.mod_lt off (by decide : 0 < BSIZE)
    omega
  omega

/-- Read n bytes at byte offset off from the inode (readi in kernel/fs.cc).
Returns -1 for a device inode, when off is past the size, or on u32 overflow
of off+n; otherwise the read length is clamped to the inode size and the
loop runs.  The returned Int is the clamped byte count and the list is the
data copied to dst. -/
def readi (σ : St) (off n : Nat) : Option (Int × List Nat × St) :=
  if σ.ip.typ = T_DEV then some (-1, [], σ)
  else if off > σ.ip.size ∨ (off + n) % U32 < off then some (-1, [], σ)
  else
    let n' := if off + n > σ.ip.size then σ.ip.size - off else n
    match readLoop σ off n' with
    | none => none
    | some (dst, σ') => some ((n' : Int), dst, σ')

/-- Copy the in-memory inode metadata into its inode-table slot and log the
holding block into the transaction (iupdate in kernel/fs.cc; the inode
table's byte layout lives in the absent fs.h, so the table image is kept at
record granularity). -/
def iupdate (σ : St) (useTrans : Bool) : St :=
  { σ with
    itable := updf σ.itable σ.ip.inum
      { typ := σ.ip.typ, major := σ.ip.major, minor := σ.ip.minor,
        nlink := σ.ip.nlink, size := σ.ip.size, gen := σ.ip.gen,
        addrs := σ.ip.addrs },
    tlogged := if useTrans then σ.tlogged ++ [IBLOCK σ.ip.inum]
      else σ.tlogged }

/-- Set the inode size and flush the inode (update_size in kernel/fs.cc). -/
def update_size (σ : St) (size : Nat) (useTrans : Bool) : St :=
  iupdate { σ with ip := { σ.ip with size := size } } useTrans

/-- Stage 1 of itrunc: free direct blocks from slot i upward, stopping at the
first empty slot. -/
def truncDirect (σ : St) (useTrans : Bool) (i : Nat) : St :=
  if _h : i < NDIRECT then
    if σ.ip.addrs i = 0 then σ
    else
      truncDirect
        { (bfree σ (σ.ip.addrs i) useTrans true) with
          ip := { σ.ip with addrs := updf σ.ip.addrs i 0 } }
        useTrans (i + 1)
  else σ
termination_by NDIRECT - i

/-- Free the entries of one indirect block from index j upward, stopping at
the first zero entry (the entry loops of itrunc's stages 2 and 3). -/
def truncEntries (σ : St) (useTrans : Bool) (root : Nat) (j : Nat) : St :=
  if _h : j < NINDIRECT then
    let e := u32At (σ.disk root) j
    if e = 0 then σ
    else
      truncEntries
        { (bfree σ e useTrans true) with
          disk := updf σ.disk root (setU32 (σ.disk root) j 0) }
        useTrans root (j + 1)
  else σ
termination_by NINDIRECT - j

/-- Stage 2 of itrunc: the singly-indirect tier starting at entry startIdx.
Returns the state plus true when the stage hit the "no more blocks to
delete" break (which skips stage 3). -/
def truncIndirect (σ : St) (useTrans : Bool) (startIdx : Nat) : St × Bool :=
  if σ.ip.addrs NDIRECT = 0 then (σ, true)
  else
    let root := σ.ip.addrs NDIRECT
    let σ₁ := truncEntries σ useTrans root startIdx
    let σ₂ := if startIdx ≠ 0 then { σ₁ with tlogged := σ₁.tlogged ++ [root] }
      else σ₁
    let σ₃ :=
      if startIdx = 0 then
        { (bfree σ₂ root useTrans true) with
          ip := { σ₂.ip with addrs := updf σ₂.ip.addrs NDIRECT 0 } }
      else σ₂
    (σ₃, false)

/-- The outer loop of itrunc's doubly-indirect stage: walk first-level
entries from index i, recursing into each second-level block; begin carries
the original start index for the first iteration (begin % NINDIRECT starts
the inner loop; the first-level entry is freed only when begin % NINDIRECT
is 0), and is reset to 0 afterwards. -/
def truncD1 (σ : St) (useTrans : Bool) (droot : Nat) (i : Nat) (begin_ : Nat) :
    St :=
  if _h : i < NINDIRECT then
    let e := u32At (σ.disk droot) i
    if e = 0 then σ
    else
      let σ₁ := truncEntries σ useTrans e (begin_ % NINDIRECT)
      let σ₂ := if u32At (σ₁.disk e) 0 = 0 then
          { σ₁ with tlogged := σ₁.tlogged ++ [e] }
        else σ₁
      let σ₃ :=
        if begin_ % NINDIRECT = 0 then
          { (bfree σ₂ e useTrans true) with
            disk := updf σ₂.disk droot (setU32 (σ₂.disk droot) i 0) }
        else σ₂
      truncD1 σ₃ useTrans droot (i + 1) 0
  else σ
termination_by NINDIRECT - i

/-- Stage 3 of itrunc: the doubly-indirect tier starting at flat index
startIdx (relative to the start of the doubly-indirect range). -/
def truncDbl (σ : St) (useTrans : Bool) (startIdx : Nat) : St :=
  if σ.ip.addrs (NDIRECT + 1) = 0 then σ
  else
    let droot := σ.ip.addrs (NDIRECT + 1)
    let σ₁ := truncD1 σ useTrans droot (startIdx / NINDIRECT) startIdx
    let σ₂ := if startIdx ≠ 0 then { σ₁ with tlogged := σ₁.tlogged ++ [droot] }
      else σ₁
    if startIdx = 0 then
      { (bfree σ₂ droot useTrans true) with
        ip := { σ₂.ip with addrs := updf σ₂.ip.addrs (NDIRECT + 1) 0 } }
    else σ₂

/-- Truncate the inode's contents to offset (itrunc in kernel/fs.cc): free
all data blocks from logical block BLOCKROUNDUP(offset) upward in three
fall-through stages, then (when offset is 0) assert that the whole address
array is empty, and finally set size = offset.  Returns immediately when the
size is already ≤ offset or offset is out of range; returns none when the
final assertion panics. -/
def itrunc (σ : St) (offset : Nat) (useTrans : Bool) : Option St :=
  if σ.ip.size ≤ offset ∨ offset ≥ MAXFILE * BSIZE then some σ
  else
    let bn := BLOCKROUNDUP offset
    let stage : Nat :=
      if bn < NDIRECT then 1
      else if bn < NDIRECT + NINDIRECT then 2
      else if bn < NDIRECT + NINDIRECT + NINDIRECT * NINDIRECT then 3
      else 1
    let idx : Nat :=
      if bn < NDIRECT then bn
      else if bn < NDIRECT + NINDIRECT then bn - NDIRECT
      else if bn < NDIRECT + NINDIRECT + NINDIRECT * NINDIRECT then
        bn - NDIRECT - NINDIRECT
      else 0
    let σ₁ := if stage = 1 then truncDirect σ useTrans idx else σ
    let p₂ := if stage ≤ 2 then
        truncIndirect σ₁ useTrans (if stage = 2 then idx else 0)
      else (σ₁, false)
    let σ₃ := if ! p₂.2 then
        truncDbl p₂.1 useTrans (if stage = 3 then idx else 0)
      else p₂.1
    if offset = 0 ∧ ¬ (∀ i < NDIRECT + 2, σ₃.ip.addrs i = 0) then none
    else some { σ₃ with ip := { σ₃.ip with size := offset } }

/-- Truncation of a name to a DIRSIZ-byte key (strbuf<DIRSIZ>). -/
def nameKey (name : List Nat) : List Nat := name.take DIRSIZ

/-- Little-endian u32 read at an arbitrary byte base of a block (used for the
inum field of an on-disk dirent). -/
def byteU32 (blk : Blk) (base : Nat) : Nat :=
  blk base % 256 + 256 * (blk (base + 1) % 256) +
    65536 * (blk (base + 2) % 256) + 16777216 * (blk (base + 3) % 256)

/-- Name field of an on-disk dirent at byte base: up to DIRSIZ bytes,
terminated early by a NUL (names of exactly DIRSIZ bytes have none). -/
def direntName (blk : Blk) (base : Nat) : List Nat :=
  ((List.range DIRSIZ).map (fun i => blk (base + 4 + i))).takeWhile (· ≠ 0)

/-- Serialize a dirent record {inum : u32, name[DIRSIZ]}: strncpy NUL-pads a
short name to DIRSIZ bytes. -/
def direntBytes (inum : Nat) (name : List Nat) : List Nat :=
  [inum % 256, inum / 256 % 256, inum / 65536 % 256, inum / 16777216 % 256] ++
    (List.range DIRSIZ).map (fun i => name.getD i 0)

/-- Scan one directory data block, inserting the non-tombstone entries into
the index; the byte offset counter advances by sizeof(dirent) for every slot,
tombstones included.  Insert failures (duplicate names on disk) are ignored,
as the source ignores insert's return value here. -/
def scanBlk (blk : Blk) (start : DirIdx × Nat) : DirIdx × Nat :=
  (List.range (BSIZE / DIRENTSZ)).foldl
    (fun p sl =>
      let base := sl * DIRENTSZ
      let inum := byteU32 blk base
      let idx' :=
        if inum ≠ 0 then
          match dirInsertIdx p.1 (nameKey (direntName blk base))
              ⟨inum, p.2 + sl * DIRENTSZ⟩ with
          | some d => d
          | none => p.1
        else p.1
      (idx', p.2))
    start
  |> fun p => (p.1, p.2 + BSIZE)

/-- The block loop of dir_init: walk the directory file one block at a time,
asserting the dense-offset invariant (dir_offset == off) at each block
boundary; none models that assertion's panic and the out-of-blocks panic of
the read path. -/
def dirInitLoop (σ : St) (size : Nat) (off : Nat) (idx : DirIdx) (acc : Nat) :
    Option (St × DirIdx × Nat) :=
  if _h : off < size then
    if acc ≠ off then none
    else
      match bmap σ (off / BSIZE) false true with
      | .badrange => none
      | .noblocks _ => none
      | .ok pb σ₁ =>
          let p := scanBlk (σ₁.disk pb) (idx, acc)
          dirInitLoop σ₁ size (off + BSIZE) p.1 p.2
  else some (σ, idx, acc)
termination_by size - off
decreasing_by
  have : 0 < BSIZE := by decide
  omega

/-- Build the in-memory directory index from the on-disk pages on first
access (dir_init in kernel/fs.cc); a no-op when the index already exists;
panics (none) when the inode is not a directory. -/
def dir_init (σ : St) : Option St :=
  match σ.ip.dir with
  | some _ => some σ
  | none =>
      if σ.ip.typ ≠ T_DIR then none
      else
        match dirInitLoop σ σ.ip.size 0 [] 0 with
        | none => none
        | some (σ', idx, acc) =>
            some { σ' with ip := { σ'.ip with dir := some idx, dirOffset := acc } }

/-- Write exactly one dirent record at its stored offset, growing dp.size and
flushing the inode when the write extended the directory (dir_flush_entry in
kernel/fs.cc).  The lookup default ⟨0, 0⟩ models the default-initialized
dir_entry_info when the name is absent.  none models the
panic("dir_flush_entry") on a short write. -/
def dir_flush_entry (σ : St) (name : List Nat) (useTrans : Bool) : Option St :=
  match σ.ip.dir with
  | none => some σ
  | some idx =>
      let de_info := (dirLookupIdx idx (nameKey name)).getD ⟨0, 0⟩
      match writei σ (direntBytes de_info.inum_ name) de_info.offset_ DIRENTSZ
          useTrans false with
      | none => none
      | some (w, σ₁) =>
          if w ≠ (DIRENTSZ : Int) then none
          else
            let σ₂ :=
              if σ₁.ip.size < de_info.offset_ + DIRENTSZ then
                { σ₁ with ip := { σ₁.ip with size := de_info.offset_ + DIRENTSZ } }
              else σ₁
            some (iupdate σ₂ useTrans)

/-- Write a new directory entry (name, inum) into the directory (dirlink in
kernel/fs.cc).  The source reads

  if (!dp->dir->insert(strbuf<DIRSIZ>(name), de_info));
    return -1;

so the insert is executed, the condition guards an accidental empty
statement, and return -1 runs unconditionally: everything after it
(advancing dir_offset, the nlink updates, dir_flush_entry, return 0) is dead
code.  The model reproduces that behaviour. -/
def dirlink (σ : St) (name : List Nat) (inum : Nat) (incLink : Bool)
    (useTrans : Bool) : Option (Int × St) :=
  match dir_init σ with
  | none => none
  | some σ₁ =>
      match dirInsertIdx (σ₁.ip.dir.getD []) (nameKey name)
          ⟨inum, σ₁.ip.dirOffset⟩ with
      | none => some (-1, σ₁)
      | some idx' => some (-1, { σ₁ with ip := { σ₁.ip with dir := some idx' } })

/-- Remove a directory entry (name, inum) from the directory (dirunlink in
kernel/fs.cc): replace the index entry by a tombstone (inum 0) at the same
offset, update link counts unless the name is "..", flush the tombstone to
disk, and finally drop the tombstone from the index.  The target inode's
unlink() is modelled on the onlink table. -/
def dirunlink (σ : St) (name : List Nat) (inum : Nat) (decLink : Bool)
    (useTrans : Bool) : Option (Int × St) :=
  match dir_init σ with
  | none => none
  | some σ₁ =>
      let key := nameKey name
      let idx := σ₁.ip.dir.getD []
      let de_info := (dirLookupIdx idx key).getD ⟨0, 0⟩
      match dirRemoveIdx idx key with
      | none => some (-1, σ₁)
      | some idx₂ =>
          match dirInsertIdx idx₂ key ⟨0, de_info.offset_⟩ with
          | none => some (-1, { σ₁ with ip := { σ₁.ip with dir := some idx₂ } })
          | some idx₃ =>
              let σ₂ := { σ₁ with ip := { σ₁.ip with dir := some idx₃ } }
              let σ₃ :=
                if name ≠ [46, 46] then
                  let σa :=
                    { σ₂ with onlink := updf σ₂.onlink inum (σ₂.onlink inum - 1) }
                  if decLink then
                    { σa with ip := { σa.ip with nlink := σa.ip.nlink - 1 } }
                  else σa
                else σ₂
              match dir_flush_entry σ₃ name useTrans with
              | none => none
              | some σ₄ =>
                  let σ₅ :=
                    match dirRemoveIdx (σ₄.ip.dir.getD []) key with
                    | none => σ₄
                    | some idx' =>
                        { σ₄ with ip := { σ₄.ip with dir := some idx' } }
                  some (0, σ₅)

/-- Character test used by the path lexer. -/
def isSlash (c : Char) : Bool := c = '/'

/-- Negation of isSlash (the lexer's "read up to the next slash or end"). -/
def notSlash (c : Char) : Bool := ! isSlash c

/-- Copy the next path element into name (skipelem in kernel/fs.cc).  Returns
(1, rest-of-path, the element) on success, (0, path, none) when there is no
element left, and (-1, path, none) when the element is longer than DIRSIZ;
on 0 and -1 the path pointer is not advanced. -/
def skipelem (path : List Char) : Int × List Char × Option (List Char) :=
  let p1 := path.dropWhile isSlash
  if p1 = [] then (0, path, none)
  else
    let c := p1.takeWhile notSlash
    let p2 := p1.dropWhile notSlash
    if c.length > DIRSIZ then (-1, path, none)
    else (1, p2.dropWhile isSlash, some c)

/-- A successful skipelem strictly shortens the path (each component is
nonempty), which bounds the namex loop. -/
theorem skipelem_shrinks (path path' : List Char) (nm : Option (List Char))
    (h : skipelem path = (1, path', nm)) : path'.length < path.length := by
  unfold skipelem at h
  by_cases h1 : path.dropWhile isSlash = []
  · rw [if_pos h1] at h
    exact absurd h (by simp)
  · rw [if_neg h1] at h
    by_cases h2 : ((path.dropWhile isSlash).takeWhile notSlash).length > DIRSIZ
    · rw [if_pos h2] at h
      exact absurd h (by simp)
    · rw [if_neg h2] at h
      simp only [Prod.mk.injEq] at h
      obtain ⟨-, hp, -⟩ := h
      have hd1 : (path.dropWhile isSlash).length ≤ path.length :=
        (List.dropWhile_sublist isSlash).length_le
      have hsplit :
          ((path.dropWhile isSlash).takeWhile notSlash).length +
            ((path.dropWhile isSlash).dropWhile notSlash).length =
            (path.dropWhile isSlash).length := by
        conv_rhs => rw [← List.takeWhile_append_dropWhile
          (p := notSlash) (l := path.dropWhile isSlash)]
        rw [List.length_append]
      have hc1 : ((path.dropWhile isSlash).takeWhile notSlash).length ≥ 1 := by
        cases hds : path.dropWhile isSlash with
        | nil => exact absurd hds h1
        | cons a l =>
            have ha : isSlash a = false := by
              have hne : path.dropWhile isSlash ≠ [] := by rw [hds]; simp
              have hh := List.head_dropWhile_not isSlash path hne
              have : (path.dropWhile isSlash).head hne = a := by
                simp [List.head_eq_iff_head?_eq_some, hds]
              rwa [this] at hh
            simp [List.takeWhile_cons, notSlash, ha]
      have hd3 : path'.length ≤
          ((path.dropWhile isSlash).dropWhile notSlash).length := by
        rw [← hp]
        exact (List.dropWhile_sublist isSlash).length_le
      omega

/-- The recursive loop of namex (kernel/fs.cc): consume one component per
step; panic (none) when the current inode's type is FREE, fail (some none)
when it is not a directory or the lookup misses; stop one level early for
nameiparent.  The directory-lookup side effect of dirlookup on the global
inode table is abstracted by the oracle look, and inode types by typeOf
(the inode cache is shared global state outside the single-inode St). -/
def namexGo (look : Nat → List Char → Option Nat) (typeOf : Nat → Nat)
    (ip : Nat) (path : List Char) (parent : Bool) : Option (Option Nat) :=
  match hsk : skipelem path with
  | (1, path', some nm) =>
      if typeOf ip = T_FREE then none
      else if typeOf ip ≠ T_DIR then some none
      else if parent ∧ path' = [] then some (some ip)
      else
        match look ip nm with
        | none => some none
        | some nxt => namexGo look typeOf nxt path' parent
  | (r, _, _) => if r = -1 ∨ parent then some none else some (some ip)
termination_by path.length
decreasing_by
  exact skipelem_shrinks path path' (some nm) hsk

/-- Look up the inode for a path name (namex in kernel/fs.cc): start from the
root for absolute paths and from cwd otherwise, then run the component
loop. -/
def namex (look : Nat → List Char → Option Nat) (typeOf : Nat → Nat)
    (root cwd : Nat) (path : List Char) (parent : Bool) : Option (Option Nat) :=
  namexGo look typeOf (if path.head? = some '/' then root else cwd) path parent

/-- namei(cwd, path) = namex(cwd, path, 0, name). -/
def namei (look : Nat → List Char → Option Nat) (typeOf : Nat → Nat)
    (root cwd : Nat) (path : List Char) : Option (Option Nat) :=
  namex look typeOf root cwd path false

/-- nameiparent(cwd, path, name) = namex(cwd, path, 1, name). -/
def nameiparent (look : Nat → List Char → Option Nat) (typeOf : Nat → Nat)
    (root cwd : Nat) (path : List Char) : Option (Option Nat) :=
  namex look typeOf root cwd path true

/-- Dropping one component (with its surrounding slashes) strictly shortens a
path that still has a component. -/
theorem drop_comp_lt (path : List Char) (h1 : path.dropWhile isSlash ≠ []) :
    ((path.dropWhile isSlash).dropWhile notSlash).length < path.length := by
  have hd1 : (path.dropWhile isSlash).length ≤ path.length :=
    (List.dropWhile_sublist isSlash).length_le
  have hsplit :
      ((path.dropWhile isSlash).takeWhile notSlash).length +
        ((path.dropWhile isSlash).dropWhile notSlash).length =
        (path.dropWhile isSlash).length := by
    conv_rhs => rw [← List.takeWhile_append_dropWhile
      (p := notSlash) (l := path.dropWhile isSlash)]
    rw [List.length_append]
  have hc1 : ((path.dropWhile isSlash).takeWhile notSlash).length ≥ 1 := by
    cases hds : path.dropWhile isSlash with
    | nil => exact absurd hds h1
    | cons a l =>
        have ha : isSlash a = false := by
          have hne : path.dropWhile isSlash ≠ [] := by rw [hds]; simp
          have hh := List.head_dropWhile_not isSlash path hne
          have : (path.dropWhile isSlash).head hne = a := by
            simp [List.head_eq_iff_head?_eq_some, hds]
          rwa [this] at hh
        simp [List.takeWhile_cons, notSlash, ha]
  omega

/-- The '/'-separated components of a path (empty components dropped) — the
reference decomposition that the claims about the lexer are stated
against. -/
def components (path : List Char) : List (List Char) :=
  if h1 : path.dropWhile isSlash = [] then []
  else
    (path.dropWhile isSlash).takeWhile notSlash ::
      components ((path.dropWhile isSlash).dropWhile notSlash)
termination_by path.length
decreasing_by
  exact drop_comp_lt path h1

/-- Set or clear one bit of a free-bitmap block held at bit index bi
(0 ≤ bi < BPB), with the source's panics on a double set / double clear;
the C byte operation data[bi/8] &= ~m is the 8-bit masked and, written here
with the mask 255 - m (bitmap bytes are 8-bit values). -/
def ballocFlip (blk : Blk) (bi : Nat) (alloc : Bool) : Option Blk :=
  let m := 2 ^ (bi % 8)
  let byte := blk (bi / 8)
  if alloc then
    if byte &&& m ≠ 0 then none
    else some (updf blk (bi / 8) (byte ||| m))
  else
    if byte &&& m = 0 then none
    else some (updf blk (bi / 8) (byte &&& (255 - m)))

/-- The do-while of balloc_free_on_disk: flip the bits of one run of block
numbers that all live in the same bitmap block. -/
def flipRun (blk : Blk) (l : List Nat) (alloc : Bool) : Option Blk :=
  match l with
  | [] => some blk
  | b :: rest =>
      match ballocFlip blk (b % BPB) alloc with
      | none => none
      | some blk' => flipRun blk' rest alloc

/-- The outer loop of balloc_free_on_disk over the sorted block list: take the
maximal run sharing the first element's bitmap block (bounded by
max_bno = *bno | (BPB - 1)), apply all its bit flips to that bitmap block,
log the bitmap block into the transaction once, and continue. -/
def ballocOnDiskGo (σ : St) (l : List Nat) (alloc : Bool) : Option St :=
  match l with
  | [] => some σ
  | b :: rest₀ =>
      let maxb := b ||| (BPB - 1)
      let run := b :: rest₀.takeWhile (· ≤ maxb)
      let rest := rest₀.dropWhile (· ≤ maxb)
      let bb := BBLOCK b σ.ninodes
      match flipRun (σ.disk bb) run alloc with
      | none => none
      | some blk' =>
          ballocOnDiskGo
            { σ with disk := updf σ.disk bb blk',
                     tlogged := σ.tlogged ++ [bb] }
            rest alloc
termination_by l.length
decreasing_by
  simp only [List.length_cons]
  exact Nat.lt_succ_of_le ((List.dropWhile_sublist _).length_le)

/-- Mark a list of blocks allocated (alloc = true) or freed in the on-disk
free bitmap image (balloc_free_on_disk in kernel/fs.cc): sort the blocks,
group the updates by bitmap block, write each affected bitmap block once and
log it into the transaction once; panic (none) when asked to set a bit
already set or clear a bit already clear. -/
def balloc_free_on_disk (σ : St) (blocks : List Nat) (alloc : Bool) :
    Option St :=
  ballocOnDiskGo σ (List.insertionSort (· ≤ ·) blocks) alloc

/-- One dirty-block snapshot of a transaction (transaction_diskblock in
include/scalefs.hh). -/
structure TransactionDiskblock where
  blocknum : Nat
  blockdata : Blk
  timestamp : Nat

/-- A transaction (class transaction in include/scalefs.hh): an ordered list
of dirty-block snapshots plus the new-file intents. -/
structure Transaction where
  timestamp_ : Nat
  blocks : List TransactionDiskblock
  new_files : List Nat

/-- transaction::add_block: append the snapshot to the blocks vector
(push_back under the write lock; no merging by blocknum happens). -/
def Transaction.add_block (t : Transaction) (b : TransactionDiskblock) :
    Transaction :=
  { t with blocks := t.blocks ++ [b] }

/-- transaction::log_new_file: record an inode creation. -/
def Transaction.log_new_file (t : Transaction) (inum : Nat) : Transaction :=
  { t with new_files := t.new_files ++ [inum] }

/-- The loop of transaction::commit_transaction over a buffer cache modelled
by its dirty bits: for each snapshot, fetch the buffer of its blocknum and
write it back iff it is dirty; writeback clears the dirty bit (the
buffer-cache contract).  Returns the block numbers written back, in order,
together with the final dirty-bit state. -/
def commitGo (blocks : List TransactionDiskblock) (dirty : Nat → Bool) :
    List Nat × (Nat → Bool) :=
  match blocks with
  | [] => ([], dirty)
  | b :: rest =>
      if dirty b.blocknum then
        let p := commitGo rest (updf dirty b.blocknum false)
        (b.blocknum :: p.1, p.2)
      else commitGo rest dirty

/-- transaction::commit_transaction (include/scalefs.hh): write back the
buffer of every snapshot's blocknum that is still dirty.  The snapshots'
payloads are not consulted; the current buffer-cache contents are written. -/
def Transaction.commit_transaction (t : Transaction) (dirty : Nat → Bool) :
    List Nat × (Nat → Bool) :=
  commitGo t.blocks dirty

/-- A minimal state for concrete runs: an empty regular file (all block
pointers zero), a 32-block device with only the boot block allocated,
zeroed disk and inode table. -/
def σ0 : St :=
  { ip :=
      { inum := 1, typ := T_FILE, major := 0, minor := 0, nlink := 1,
        size := 0, gen := 0, addrs := fun _ => 0, dir := none,
        dirOffset := 0 },
    disk := fun _ => zeroBlk,
    freemap := fun x => x == 0,
    sbSize := 32, ninodes := 8,
    itable := fun _ =>
      { typ := T_FREE, major := 0, minor := 0, nlink := 0,
        size := 0, gen := 0, addrs := fun _ => 0 },
    onlink := fun _ => 0,
    tlogged := [], tallocated := [], tfreed := [] }

/-- σ0 with every block marked allocated: balloc cannot find a free block. -/
def σfull : St := { σ0 with freemap := fun _ => true }

/-- σ0 as a device inode. -/
def σdev : St := { σ0 with ip := { σ0.ip with typ := T_DEV } }

/-- σ0 with a nonzero size, so logical block 0 of [0, size) is a hole. -/
def σhole : St := { σ0 with ip := { σ0.ip with size := 5 } }

/-- Final state of a concrete one-byte write on σ0. -/
def c8σ : St :=
  match writei σ0 [7] 0 1 true false with
  | some p => p.2
  | none => σ0

/-- Final state of a concrete three-byte write on σ0 at offset 5. -/
def c2σ : St :=
  match writei σ0 [3, 1, 4] 5 3 true false with
  | some p => p.2
  | none => σ0

/-- Final state of a concrete readi over the hole of σhole. -/
def c10σ : St :=
  match readi σhole 0 1 with
  | some p => p.2.2
  | none => σhole

/-- σ0 as a directory inode whose (empty) in-memory index is built. -/
def σdir : St := { σ0 with ip := { σ0.ip with typ := T_DIR, dir := some [] } }

/-- Result triple of a concrete clamped readi on σhole. -/
def c6p : Int × List Nat × St := (readi σhole 2 10).getD (0, [], σhole)

/-- Final state of a concrete full truncation of σhole. -/
def c3σ : St := (itrunc σhole 0 true).getD σhole

/-- Final state of a concrete two-block bitmap update on σ0. -/
def c7σ : St := (balloc_free_on_disk σ0 [4, 5] true).getD σ0

/-- Metadata fields that none of the block-level operations change:
used as the common frame of the bmap / writei / readi lemmas. -/
structure Quiet (σ σ' : St) : Prop where
  inum_eq : σ'.ip.inum = σ.ip.inum
  typ_eq : σ'.ip.typ = σ.ip.typ
  size_eq : σ'.ip.size = σ.ip.size
  nlink_eq : σ'.ip.nlink = σ.ip.nlink
  dir_eq : σ'.ip.dir = σ.ip.dir
  dirOffset_eq : σ'.ip.dirOffset = σ.ip.dirOffset
  itable_eq : σ'.itable = σ.itable
  onlink_eq : σ'.onlink = σ.onlink
  sb_eq : σ'.sbSize = σ.sbSize
  nin_eq : σ'.ninodes = σ.ninodes

/-- Postcondition of a successful bmap: the logical block is mapped to the
returned nonzero physical block, the rest of the block map and the logical
file contents are untouched, well-formedness is preserved, and a fresh block
is really fresh (and zeroed when zero_on_alloc was set). -/
structure BmapOk (σ : St) (zero : Bool) (bn pb : Nat) (σ' : St) : Prop where
  pbne : pb ≠ 0
  mapped : logicalMap σ' bn = pb
  wf : WF σ'
  mapFrame : ∀ bn', bn' ≠ bn → logicalMap σ' bn' = logicalMap σ bn'
  oldSame : logicalMap σ bn ≠ 0 → σ' = σ ∧ pb = logicalMap σ bn
  leafFrame : ∀ q, logicalMap σ q ≠ 0 →
    σ'.disk (logicalMap σ q) = σ.disk (logicalMap σ q)
  holeZero : logicalMap σ bn = 0 → zero = true → σ'.disk pb = zeroBlk
  freshFree : logicalMap σ bn = 0 → σ.freemap pb = false
  mono : ∀ x, σ.freemap x = true → σ'.freemap x = true
  quiet : Quiet σ σ'
  tfr : σ'.tfreed = σ.tfreed

theorem Quiet.refl (σ : St) : Quiet σ σ :=
  ⟨rfl, rfl, rfl, rfl, rfl, rfl, rfl, rfl, rfl, rfl⟩

theorem Quiet.trans {σ₁ σ₂ σ₃ : St} (h1 : Quiet σ₁ σ₂) (h2 : Quiet σ₂ σ₃) :
    Quiet σ₁ σ₃ :=
  ⟨h2.inum_eq.trans h1.inum_eq, h2.typ_eq.trans h1.typ_eq,
   h2.size_eq.trans h1.size_eq, h2.nlink_eq.trans h1.nlink_eq,
   h2.dir_eq.trans h1.dir_eq, h2.dirOffset_eq.trans h1.dirOffset_eq,
   h2.itable_eq.trans h1.itable_eq, h2.onlink_eq.trans h1.onlink_eq,
   h2.sb_eq.trans h1.sb_eq, h2.nin_eq.trans h1.nin_eq⟩

theorem updf_self {α : Type} (f : Nat → α) (k : Nat) (v : α) :
    updf f k v k = v := by
  simp [updf]

theorem updf_ne {α : Type} (f : Nat → α) (k : Nat) (v : α) (x : Nat)
    (h : x ≠ k) : updf f k v x = f x := by
  simp [updf, h]

theorem u32At_lt (blk : Blk) (j : Nat) : u32At blk j < U32 := by
  have h0 : blk (4 * j) % 256 < 256 := Nat.mod_lt _ (by decide)
  have h1 : blk (4 * j + 1) % 256 < 256 := Nat.mod_lt _ (by decide)
  have h2 : blk (4 * j + 2) % 256 < 256 := Nat.mod_lt _ (by decide)
  have h3 : blk (4 * j + 3) % 256 < 256 := Nat.mod_lt _ (by decide)
  unfold u32At U32
  omega

theorem u32At_setU32_self (blk : Blk) (j : Nat) (v : Nat) (hv : v < U32) :
    u32At (setU32 blk j v) j = v := by
  unfold u32At setU32
  have e0 : 4 * j + 1 ≠ 4 * j := by omega
  have e1 : 4 * j + 2 ≠ 4 * j := by omega
  have e2 : 4 * j + 3 ≠ 4 * j := by omega
  have e3 : 4 * j + 2 ≠ 4 * j + 1 := by omega
  have e4 : 4 * j + 3 ≠ 4 * j + 1 := by omega
  have e5 : 4 * j + 3 ≠ 4 * j + 2 := by omega
  simp only [if_pos rfl, e0, e1, e2, e3, e4, e5, if_neg, reduceIte]
  unfold U32 at hv
  omega

theorem u32At_setU32_ne (blk : Blk) (j j' : Nat) (v : Nat) (h : j' ≠ j) :
    u32At (setU32 blk j v) j' = u32At blk j' := by
  unfold u32At setU32
  have e0 : 4 * j' ≠ 4 * j := by omega
  have e1 : 4 * j' ≠ 4 * j + 1 := by omega
  have e2 : 4 * j' ≠ 4 * j + 2 := by omega
  have e3 : 4 * j' ≠ 4 * j + 3 := by omega
  have f0 : 4 * j' + 1 ≠ 4 * j := by omega
  have f1 : 4 * j' + 1 ≠ 4 * j + 1 := by omega
  have f2 : 4 * j' + 1 ≠ 4 * j + 2 := by omega
  have f3 : 4 * j' + 1 ≠ 4 * j + 3 := by omega
  have g0 : 4 * j' + 2 ≠ 4 * j := by omega
  have g1 : 4 * j' + 2 ≠ 4 * j + 1 := by omega
  have g2 : 4 * j' + 2 ≠ 4 * j + 2 := by omega
  have g3 : 4 * j' + 2 ≠ 4 * j + 3 := by omega
  have i0 : 4 * j' + 3 ≠ 4 * j := by omega
  have i1 : 4 * j' + 3 ≠ 4 * j + 1 := by omega
  have i2 : 4 * j' + 3 ≠ 4 * j + 2 := by omega
  have i3 : 4 * j' + 3 ≠ 4 * j + 3 := by omega
  simp only [e0, e1, e2, e3, f0, f1, f2, f3, g0, g1, g2, g3, i0, i1, i2, i3,
    if_neg, reduceIte]

theorem u32At_zeroBlk (j : Nat) : u32At zeroBlk j = 0 := by
  simp [u32At, zeroBlk]

theorem roles_ne_of_free (σ : St) (pb : Nat) (hw : WF σ)
    (hfree : σ.freemap pb = false) :
    pb ≠ 0 ∧ ∀ r, blockOfRole σ r ≠ pb := by
  have h0 : pb ≠ 0 := by
    intro he
    rw [he, hw.zeroUsed] at hfree
    exact absurd hfree (by simp)
  refine ⟨h0, fun r he => ?_⟩
  have := hw.marked r (by rw [he]; exact h0)
  rw [he] at this
  rw [this] at hfree
  exact absurd hfree (by simp)

theorem blockOfRole_diskupd (σ : St) (pb : Nat) (blk : Blk)
    (h0 : pb ≠ 0)
    (h1 : blockOfRole σ .iroot ≠ pb) (h2 : blockOfRole σ .droot ≠ pb)
    (h3 : ∀ i, blockOfRole σ (.d1 i) ≠ pb) :
    ∀ r, blockOfRole { σ with disk := updf σ.disk pb blk } r =
      blockOfRole σ r := by
  intro r
  have h1' : σ.ip.addrs NDIRECT ≠ pb := h1
  have h2' : σ.ip.addrs (NDIRECT + 1) ≠ pb := h2
  cases r with
  | dir i => rfl
  | iroot => rfl
  | ind j =>
      simp only [blockOfRole]
      by_cases hg : σ.ip.addrs NDIRECT ≠ 0 ∧ j < NINDIRECT
      · rw [if_pos hg, if_pos hg, updf_ne _ _ _ _ h1']
      · rw [if_neg hg, if_neg hg]
  | droot => rfl
  | d1 i =>
      simp only [blockOfRole]
      by_cases hg : σ.ip.addrs (NDIRECT + 1) ≠ 0 ∧ i < NINDIRECT
      · rw [if_pos hg, if_pos hg, updf_ne _ _ _ _ h2']
      · rw [if_neg hg, if_neg hg]
  | d2 i j =>
      simp only [blockOfRole]
      by_cases hg : σ.ip.addrs (NDIRECT + 1) ≠ 0 ∧ i < NINDIRECT ∧ j < NINDIRECT
      · rw [if_pos hg, if_pos hg, updf_ne _ _ _ _ h2']
        have hl1 : u32At (σ.disk (σ.ip.addrs (NDIRECT + 1))) i ≠ pb := by
          intro he
          apply h3 i
          simp only [blockOfRole]
          rw [if_pos ⟨hg.1, hg.2.1⟩]
          exact he
        by_cases hz : u32At (σ.disk (σ.ip.addrs (NDIRECT + 1))) i ≠ 0
        · rw [if_pos hz, if_pos hz, updf_ne _ _ _ _ hl1]
        · rw [if_neg hz, if_neg hz]
      · rw [if_neg hg, if_neg hg]

theorem logicalMap_congr (σ σ' : St)
    (h : ∀ r, blockOfRole σ' r = blockOfRole σ r) :
    ∀ bn, logicalMap σ' bn = logicalMap σ bn := by
  intro bn
  unfold logicalMap
  simp only [h]

theorem WF_of (σ σ' : St) (hw : WF σ)
    (hr : ∀ r, blockOfRole σ' r = blockOfRole σ r)
    (hf : ∀ x, σ.freemap x = true → σ'.freemap x = true)
    (hz : σ'.freemap 0 = true) (hsb : σ'.sbSize ≤ U32) : WF σ' := by
  refine ⟨?_, ?_, hz, hsb⟩
  · intro r1 r2 hne heq
    rw [hr, hr] at heq
    rw [hr] at hne
    exact hw.inj r1 r2 hne heq
  · intro r hne
    rw [hr] at hne ⊢
    exact hf _ (hw.marked r hne)

theorem balloc_spec (σ : St) (u z : Bool) (b : Nat) (σ₁ : St)
    (h : balloc σ u z = some (b, σ₁)) :
    σ.freemap b = false ∧ b < σ.sbSize ∧
    σ₁.ip = σ.ip ∧
    σ₁.freemap = (fun x => if x = b then true else σ.freemap x) ∧
    σ₁.disk = (if z then updf σ.disk b zeroBlk else σ.disk) ∧
    Quiet σ σ₁ ∧ σ₁.tfreed = σ.tfreed := by
  unfold balloc at h
  cases hf : (List.range σ.sbSize).find? (fun x => ! σ.freemap x) with
  | none => rw [hf] at h; exact absurd h (by simp)
  | some b' =>
      rw [hf] at h
      have hp : σ.freemap b' = false := by
        have := List.find?_some hf
        simpa using this
      have hm : b' < σ.sbSize := List.mem_range.mp (List.mem_of_find?_eq_some hf)
      simp only [Option.some.injEq, Prod.mk.injEq] at h
      obtain ⟨hb, hσ⟩ := h
      subst hb
      subst hσ
      cases z
      · exact ⟨hp, hm, rfl, rfl, by simp,
          ⟨rfl, rfl, rfl, rfl, rfl, rfl, rfl, rfl, rfl, rfl⟩, rfl⟩
      · exact ⟨hp, hm, rfl, rfl, by simp [bzero],
          ⟨rfl, rfl, rfl, rfl, rfl, rfl, rfl, rfl, rfl, rfl⟩, rfl⟩

theorem blockOfRole_congr (σ σ' : St) (ha : σ'.ip.addrs = σ.ip.addrs)
    (hd : σ'.disk = σ.disk) :
    ∀ r, blockOfRole σ' r = blockOfRole σ r := by
  intro r
  cases r <;> simp only [blockOfRole, ha, hd]

theorem logicalMap_eq_leafRole (σ : St) (bn : Nat) (h : bn < MAXFILE) :
    logicalMap σ bn = blockOfRole σ (leafRole bn) := by
  have hND : NDIRECT = 10 := rfl
  have hNI : NINDIRECT = 1024 := rfl
  have hNN : NINDIRECT * NINDIRECT = 1048576 := rfl
  have hMF : MAXFILE = 1049610 := rfl
  unfold logicalMap leafRole
  by_cases h1 : bn < NDIRECT
  · rw [if_pos h1, if_pos h1]
  · rw [if_neg h1, if_neg h1]
    by_cases h2 : bn - NDIRECT < NINDIRECT
    · rw [if_pos h2, if_pos h2]
    · rw [if_neg h2, if_neg h2]
      rw [if_pos (by omega)]

theorem logicalMap_zero_of_ge (σ : St) (bn : Nat) (h : ¬ bn < MAXFILE) :
    logicalMap σ bn = 0 := by
  have hND : NDIRECT = 10 := rfl
  have hNI : NINDIRECT = 1024 := rfl
  have hNN : NINDIRECT * NINDIRECT = 1048576 := rfl
  have hMF : MAXFILE = 1049610 := rfl
  unfold logicalMap
  rw [if_neg (by omega), if_neg (by omega), if_neg (by omega)]

theorem leafRole_inj (bn bn' : Nat) (h : bn < MAXFILE) (h' : bn' < MAXFILE)
    (he : leafRole bn = leafRole bn') : bn = bn' := by
  have hND : NDIRECT = 10 := rfl
  have hNI : NINDIRECT = 1024 := rfl
  have hNN : NINDIRECT * NINDIRECT = 1048576 := rfl
  have hMF : MAXFILE = 1049610 := rfl
  unfold leafRole at he
  by_cases h1 : bn < NDIRECT <;> by_cases h1' : bn' < NDIRECT <;>
    simp only [h1, h1', if_pos, if_neg, reduceIte] at he
  · exact (Role.dir.injEq _ _).mp he
  · by_cases h2' : bn' - NDIRECT < NINDIRECT <;>
      simp only [h2', reduceIte] at he <;> simp at he
  · by_cases h2 : bn - NDIRECT < NINDIRECT <;>
      simp only [h2, reduceIte] at he <;> simp at he
  · by_cases h2 : bn - NDIRECT < NINDIRECT <;>
      by_cases h2' : bn' - NDIRECT < NINDIRECT <;>
      simp only [h2, h2', reduceIte] at he
    · have := (Role.ind.injEq _ _).mp he
      omega
    · simp at he
    · simp at he
    · have := (Role.d2.injEq _ _ _ _).mp he
      obtain ⟨ha, hb⟩ := this
      have ha' : (bn - NDIRECT - NINDIRECT) / NINDIRECT =
        (bn' - NDIRECT - NINDIRECT) / NINDIRECT := ha
      have hb' : (bn - NDIRECT - NINDIRECT) % NINDIRECT =
        (bn' - NDIRECT - NINDIRECT) % NINDIRECT := hb
      rw [hNI] at ha' hb'
      omega

/-- Combined effect of a successful balloc: the allocated block is fresh and
nonzero, and the inode's block map, the logical contents and well-formedness
are all untouched. -/
theorem balloc_wf (σ : St) (u z : Bool) (b : Nat) (σ₁ : St) (hw : WF σ)
    (h : balloc σ u z = some (b, σ₁)) :
    b ≠ 0 ∧ σ.freemap b = false ∧ WF σ₁ ∧
    (∀ r, blockOfRole σ₁ r = blockOfRole σ r) ∧
    (∀ bn, logicalMap σ₁ bn = logicalMap σ bn) ∧
    (∀ q, logicalMap σ q ≠ 0 → σ₁.disk (logicalMap σ q) = σ.disk (logicalMap σ q)) ∧
    (∀ k, fileByte σ₁ k = fileByte σ k) ∧
    (∀ x, σ.freemap x = true → σ₁.freemap x = true) ∧
    σ₁.ip = σ.ip ∧ Quiet σ σ₁ ∧ σ₁.freemap b = true ∧ σ₁.tfreed = σ.tfreed := by
  obtain ⟨hfree, hm, hip, hfm, hdisk, hq, htf⟩ := balloc_spec σ u z b σ₁ h
  have hfm' : ∀ x, σ₁.freemap x = if x = b then true else σ.freemap x :=
    fun x => by rw [hfm]
  obtain ⟨h0, hroles⟩ := roles_ne_of_free σ b hw hfree
  have hrole : ∀ r, blockOfRole σ₁ r = blockOfRole σ r := by
    cases hz : z
    · rw [hz] at hdisk
      simp only [Bool.false_eq_true, if_neg, reduceIte] at hdisk
      exact blockOfRole_congr σ σ₁ (by rw [hip]) hdisk
    · rw [hz] at hdisk
      simp only [reduceIte] at hdisk
      intro r
      have step1 : blockOfRole σ₁ r =
          blockOfRole { σ with disk := updf σ.disk b zeroBlk } r :=
        blockOfRole_congr _ σ₁ (by rw [hip]) hdisk r
      rw [step1]
      exact blockOfRole_diskupd σ b zeroBlk h0 (hroles .iroot) (hroles .droot)
        (fun i => hroles (.d1 i)) r
  have hlm : ∀ bn, logicalMap σ₁ bn = logicalMap σ bn := logicalMap_congr _ _ hrole
  have hdiskleaf : ∀ q, logicalMap σ q ≠ 0 →
      σ₁.disk (logicalMap σ q) = σ.disk (logicalMap σ q) := by
    intro q hne
    have hqlt : q < MAXFILE := by
      by_contra hge
      exact hne (logicalMap_zero_of_ge σ q hge)
    have hval : logicalMap σ q = blockOfRole σ (leafRole q) :=
      logicalMap_eq_leafRole σ q hqlt
    have hnb : logicalMap σ q ≠ b := by
      rw [hval]
      exact hroles _
    cases hz : z
    · rw [hz] at hdisk
      simp only [Bool.false_eq_true, if_neg, reduceIte] at hdisk
      rw [hdisk]
    · rw [hz] at hdisk
      simp only [reduceIte] at hdisk
      rw [hdisk, updf_ne _ _ _ _ hnb]
  have hfb : ∀ k, fileByte σ₁ k = fileByte σ k := by
    intro k
    unfold fileByte
    rw [hlm]
    by_cases hz : logicalMap σ (k / BSIZE) = 0
    · rw [hz]
      simp
    · simp only [if_neg hz]
      rw [hdiskleaf _ hz]
  have hmono : ∀ x, σ.freemap x = true → σ₁.freemap x = true := by
    intro x hx
    rw [hfm']
    by_cases hxb : x = b <;> simp [hxb, hx]
  have hwf : WF σ₁ := WF_of σ σ₁ hw hrole hmono
    (by rw [hfm']; rw [if_neg (fun he => h0 he.symm)]; exact hw.zeroUsed)
    (by rw [hq.sb_eq]; exact hw.sbLe)
  have hb1 : σ₁.freemap b = true := by rw [hfm']; simp
  exact ⟨h0, hfree, hwf, hrole, hlm, hdiskleaf, hfb, hmono, hip, hq, hb1, htf⟩

theorem roles_addrs_dir (σ : St) (s : Nat) (hs : s < NDIRECT) (b : Nat) :
    blockOfRole { σ with ip := { σ.ip with addrs := updf σ.ip.addrs s b } }
      (.dir s) = b ∧
    ∀ r, r ≠ .dir s →
      blockOfRole { σ with ip := { σ.ip with addrs := updf σ.ip.addrs s b } } r =
      blockOfRole σ r := by
  have hND : NDIRECT = 10 := rfl
  constructor
  · simp only [blockOfRole, if_pos hs, updf_self]
  · intro r hr
    cases r with
    | dir i =>
        have hi : i ≠ s := by
          intro he
          exact hr (by rw [he])
        simp only [blockOfRole]
        by_cases hilt : i < NDIRECT
        · rw [if_pos hilt, if_pos hilt, updf_ne _ _ _ _ hi]
        · rw [if_neg hilt, if_neg hilt]
    | iroot =>
        simp only [blockOfRole]
        rw [updf_ne _ _ _ _ (by omega)]
    | ind j =>
        simp only [blockOfRole]
        rw [updf_ne _ _ _ _ (by omega)]
    | droot =>
        simp only [blockOfRole]
        rw [updf_ne _ _ _ _ (by omega)]
    | d1 i =>
        simp only [blockOfRole]
        rw [updf_ne _ _ _ _ (by omega)]
    | d2 i j =>
        simp only [blockOfRole]
        rw [updf_ne _ _ _ _ (by omega)]

theorem roles_addrs_iroot (σ : St) (b1 : Nat) (hold : σ.ip.addrs NDIRECT = 0)
    (hb1 : b1 ≠ 0) (hzero : σ.disk b1 = zeroBlk) :
    blockOfRole { σ with ip := { σ.ip with addrs := updf σ.ip.addrs NDIRECT b1 } }
      .iroot = b1 ∧
    ∀ r, r ≠ .iroot →
      blockOfRole
        { σ with ip := { σ.ip with addrs := updf σ.ip.addrs NDIRECT b1 } } r =
      blockOfRole σ r := by
  have hND : NDIRECT = 10 := rfl
  constructor
  · simp only [blockOfRole, updf_self]
  · intro r hr
    cases r with
    | dir i =>
        simp only [blockOfRole]
        by_cases hilt : i < NDIRECT
        · rw [if_pos hilt, if_pos hilt, updf_ne _ _ _ _ (by omega)]
        · rw [if_neg hilt, if_neg hilt]
    | iroot => exact absurd rfl hr
    | ind j =>
        simp only [blockOfRole, updf_self]
        have hrhs : (if σ.ip.addrs NDIRECT ≠ 0 ∧ j < NINDIRECT then
            u32At (σ.disk (σ.ip.addrs NDIRECT)) j else 0) = 0 := by
          rw [if_neg (by simp [hold])]
        rw [hrhs]
        by_cases hj : j < NINDIRECT
        · rw [if_pos ⟨hb1, hj⟩, hzero, u32At_zeroBlk]
        · rw [if_neg (by simp [hj])]
    | droot =>
        simp only [blockOfRole]
        rw [updf_ne _ _ _ _ (by omega)]
    | d1 i =>
        simp only [blockOfRole]
        rw [updf_ne _ _ _ _ (by omega)]
    | d2 i j =>
        simp only [blockOfRole]
        rw [updf_ne _ _ _ _ (by omega)]

theorem roles_addrs_droot (σ : St) (b1 : Nat)
    (hold : σ.ip.addrs (NDIRECT + 1) = 0)
    (hb1 : b1 ≠ 0) (hzero : σ.disk b1 = zeroBlk) :
    blockOfRole
      { σ with ip := { σ.ip with addrs := updf σ.ip.addrs (NDIRECT + 1) b1 } }
      .droot = b1 ∧
    ∀ r, r ≠ .droot →
      blockOfRole
        { σ with ip := { σ.ip with addrs := updf σ.ip.addrs (NDIRECT + 1) b1 } } r =
      blockOfRole σ r := by
  have hND : NDIRECT = 10 := rfl
  constructor
  · simp only [blockOfRole, updf_self]
  · intro r hr
    cases r with
    | dir i =>
        simp only [blockOfRole]
        by_cases hilt : i < NDIRECT
        · rw [if_pos hilt, if_pos hilt, updf_ne _ _ _ _ (by omega)]
        · rw [if_neg hilt, if_neg hilt]
    | iroot =>
        simp only [blockOfRole]
        rw [updf_ne _ _ _ _ (by omega)]
    | ind j =>
        simp only [blockOfRole]
        rw [updf_ne _ _ _ _ (by omega)]
    | droot => exact absurd rfl hr
    | d1 i =>
        simp only [blockOfRole, updf_self]
        have hrhs : (if σ.ip.addrs (NDIRECT + 1) ≠ 0 ∧ i < NINDIRECT then
            u32At (σ.disk (σ.ip.addrs (NDIRECT + 1))) i else 0) = 0 := by
          rw [if_neg (by simp [hold])]
        rw [hrhs]
        by_cases hj : i < NINDIRECT
        · rw [if_pos ⟨hb1, hj⟩, hzero, u32At_zeroBlk]
        · rw [if_neg (by simp [hj])]
    | d2 i j =>
        simp only [blockOfRole, updf_self]
        have hrhs : (if σ.ip.addrs (NDIRECT + 1) ≠ 0 ∧ i < NINDIRECT ∧
              j < NINDIRECT then
            (if u32At (σ.disk (σ.ip.addrs (NDIRECT + 1))) i ≠ 0 then
              u32At (σ.disk (u32At (σ.disk (σ.ip.addrs (NDIRECT + 1))) i)) j
            else 0) else 0) = 0 := by
          rw [if_neg (by simp [hold])]
        rw [hrhs]
        by_cases hj : i < NINDIRECT ∧ j < NINDIRECT
        · rw [if_pos ⟨hb1, hj.1, hj.2⟩, hzero, u32At_zeroBlk]
          simp
        · rw [if_neg (by
            intro hcon
            exact hj ⟨hcon.2.1, hcon.2.2⟩)]

theorem roleval_ne (σ : St) (hw : WF σ) (r1 r2 : Role)
    (h1 : blockOfRole σ r1 ≠ 0) (hne : r1 ≠ r2) :
    blockOfRole σ r1 ≠ blockOfRole σ r2 :=
  fun he => hne (hw.inj r1 r2 h1 he)

theorem roles_setU32_iroot (σ : St) (hw : WF σ) (j v : Nat)
    (hrne : σ.ip.addrs NDIRECT ≠ 0) (hv : v < U32) :
    (j < NINDIRECT →
      blockOfRole (diskUpd σ (σ.ip.addrs NDIRECT)
        (setU32 (σ.disk (σ.ip.addrs NDIRECT)) j v)) (.ind j) = v) ∧
    ∀ r, r ≠ .ind j →
      blockOfRole (diskUpd σ (σ.ip.addrs NDIRECT)
        (setU32 (σ.disk (σ.ip.addrs NDIRECT)) j v)) r =
      blockOfRole σ r := by
  constructor
  · intro hj
    simp only [blockOfRole, diskUpd]
    rw [if_pos ⟨hrne, hj⟩, updf_self, u32At_setU32_self _ _ _ hv]
  · intro r hr
    cases r with
    | dir i => rfl
    | iroot => rfl
    | ind j' =>
        have hj' : j' ≠ j := by
          intro he
          exact hr (by rw [he])
        simp only [blockOfRole, diskUpd]
        by_cases hg : σ.ip.addrs NDIRECT ≠ 0 ∧ j' < NINDIRECT
        · rw [if_pos hg, if_pos hg, updf_self, u32At_setU32_ne _ _ _ _ hj']
        · rw [if_neg hg, if_neg hg]
    | droot => rfl
    | d1 i =>
        simp only [blockOfRole, diskUpd]
        by_cases hg : σ.ip.addrs (NDIRECT + 1) ≠ 0 ∧ i < NINDIRECT
        · have hdne : σ.ip.addrs (NDIRECT + 1) ≠ σ.ip.addrs NDIRECT :=
            roleval_ne σ hw .droot .iroot hg.1 (by simp)
          rw [if_pos hg, if_pos hg, updf_ne _ _ _ _ hdne]
        · rw [if_neg hg, if_neg hg]
    | d2 i j2 =>
        simp only [blockOfRole, diskUpd]
        by_cases hg : σ.ip.addrs (NDIRECT + 1) ≠ 0 ∧ i < NINDIRECT ∧
            j2 < NINDIRECT
        · have hdne : σ.ip.addrs (NDIRECT + 1) ≠ σ.ip.addrs NDIRECT :=
            roleval_ne σ hw .droot .iroot hg.1 (by simp)
          rw [if_pos hg, if_pos hg, updf_ne _ _ _ _ hdne]
          by_cases hl : u32At (σ.disk (σ.ip.addrs (NDIRECT + 1))) i ≠ 0
          · have hlrole : blockOfRole σ (.d1 i) =
                u32At (σ.disk (σ.ip.addrs (NDIRECT + 1))) i := by
              simp only [blockOfRole]
              rw [if_pos ⟨hg.1, hg.2.1⟩]
            have hlne : u32At (σ.disk (σ.ip.addrs (NDIRECT + 1))) i ≠
                σ.ip.addrs NDIRECT := by
              have := roleval_ne σ hw (.d1 i) .iroot
                (by rw [hlrole]; exact hl) (by simp)
              rwa [hlrole] at this
            rw [if_pos hl, if_pos hl, updf_ne _ _ _ _ hlne]
          · rw [if_neg hl, if_neg hl]
        · rw [if_neg hg, if_neg hg]

theorem roles_setU32_droot (σ : St) (hw : WF σ) (j v : Nat)
    (hdr : σ.ip.addrs (NDIRECT + 1) ≠ 0) (hv : v < U32) (hv0 : v ≠ 0)
    (hentry : u32At (σ.disk (σ.ip.addrs (NDIRECT + 1))) j = 0)
    (hvzero : σ.disk v = zeroBlk)
    (hvne : v ≠ σ.ip.addrs (NDIRECT + 1)) :
    (j < NINDIRECT →
      blockOfRole (diskUpd σ (σ.ip.addrs (NDIRECT + 1))
        (setU32 (σ.disk (σ.ip.addrs (NDIRECT + 1))) j v)) (.d1 j) = v) ∧
    ∀ r, r ≠ .d1 j →
      blockOfRole (diskUpd σ (σ.ip.addrs (NDIRECT + 1))
        (setU32 (σ.disk (σ.ip.addrs (NDIRECT + 1))) j v)) r =
      blockOfRole σ r := by
  constructor
  · intro hj
    simp only [blockOfRole, diskUpd]
    rw [if_pos ⟨hdr, hj⟩, updf_self, u32At_setU32_self _ _ _ hv]
  · intro r hr
    cases r with
    | dir i => rfl
    | iroot => rfl
    | ind j' =>
        simp only [blockOfRole, diskUpd]
        by_cases hg : σ.ip.addrs NDIRECT ≠ 0 ∧ j' < NINDIRECT
        · have hine : σ.ip.addrs NDIRECT ≠ σ.ip.addrs (NDIRECT + 1) :=
            roleval_ne σ hw .iroot .droot hg.1 (by simp)
          rw [if_pos hg, if_pos hg, updf_ne _ _ _ _ hine]
        · rw [if_neg hg, if_neg hg]
    | droot => rfl
    | d1 i =>
        have hi : i ≠ j := by
          intro he
          exact hr (by rw [he])
        simp only [blockOfRole, diskUpd]
        by_cases hg : σ.ip.addrs (NDIRECT + 1) ≠ 0 ∧ i < NINDIRECT
        · rw [if_pos hg, if_pos hg, updf_self, u32At_setU32_ne _ _ _ _ hi]
        · rw [if_neg hg, if_neg hg]
    | d2 i j2 =>
        simp only [blockOfRole, diskUpd]
        by_cases hg : σ.ip.addrs (NDIRECT + 1) ≠ 0 ∧ i < NINDIRECT ∧
            j2 < NINDIRECT
        · rw [if_pos hg, if_pos hg, updf_self]
          by_cases hi : i = j
          · subst hi
            rw [u32At_setU32_self _ _ _ hv, hentry]
            rw [if_pos hv0, if_neg (by simp)]
            rw [updf_ne _ _ _ _ hvne, hvzero, u32At_zeroBlk]
          · rw [u32At_setU32_ne _ _ _ _ hi]
            by_cases hl : u32At (σ.disk (σ.ip.addrs (NDIRECT + 1))) i ≠ 0
            · have hlrole : blockOfRole σ (.d1 i) =
                  u32At (σ.disk (σ.ip.addrs (NDIRECT + 1))) i := by
                simp only [blockOfRole]
                rw [if_pos ⟨hg.1, hg.2.1⟩]
              have hlne : u32At (σ.disk (σ.ip.addrs (NDIRECT + 1))) i ≠
                  σ.ip.addrs (NDIRECT + 1) := by
                have := roleval_ne σ hw (.d1 i) .droot
                  (by rw [hlrole]; exact hl) (by simp)
                rwa [hlrole] at this
              rw [if_pos hl, if_pos hl, updf_ne _ _ _ _ hlne]
            · rw [if_neg hl, if_neg hl]
        · rw [if_neg hg, if_neg hg]

theorem roles_setU32_l1 (σ : St) (hw : WF σ) (i0 j2 v : Nat)
    (hdr : σ.ip.addrs (NDIRECT + 1) ≠ 0) (hi0 : i0 < NINDIRECT)
    (hL0 : u32At (σ.disk (σ.ip.addrs (NDIRECT + 1))) i0 ≠ 0) (hv : v < U32) :
    (j2 < NINDIRECT →
      blockOfRole (diskUpd σ (u32At (σ.disk (σ.ip.addrs (NDIRECT + 1))) i0)
        (setU32 (σ.disk (u32At (σ.disk (σ.ip.addrs (NDIRECT + 1))) i0)) j2 v))
        (.d2 i0 j2) = v) ∧
    ∀ r, r ≠ .d2 i0 j2 →
      blockOfRole (diskUpd σ (u32At (σ.disk (σ.ip.addrs (NDIRECT + 1))) i0)
        (setU32 (σ.disk (u32At (σ.disk (σ.ip.addrs (NDIRECT + 1))) i0)) j2 v)) r =
      blockOfRole σ r := by
  have hLrole : blockOfRole σ (.d1 i0) =
      u32At (σ.disk (σ.ip.addrs (NDIRECT + 1))) i0 := by
    simp only [blockOfRole]
    rw [if_pos ⟨hdr, hi0⟩]
  have hdrL : σ.ip.addrs (NDIRECT + 1) ≠
      u32At (σ.disk (σ.ip.addrs (NDIRECT + 1))) i0 := by
    have := roleval_ne σ hw .droot (.d1 i0) hdr (by simp)
    rwa [hLrole] at this
  constructor
  · intro hj
    simp only [blockOfRole, diskUpd]
    rw [if_pos ⟨hdr, hi0, hj⟩, updf_ne _ _ _ _ hdrL]
    rw [if_pos hL0, updf_self, u32At_setU32_self _ _ _ hv]
  · intro r hr
    cases r with
    | dir i => rfl
    | iroot => rfl
    | ind j' =>
        simp only [blockOfRole, diskUpd]
        by_cases hg : σ.ip.addrs NDIRECT ≠ 0 ∧ j' < NINDIRECT
        · have hine : σ.ip.addrs NDIRECT ≠
              u32At (σ.disk (σ.ip.addrs (NDIRECT + 1))) i0 := by
            have := roleval_ne σ hw .iroot (.d1 i0) hg.1 (by simp)
            rwa [hLrole] at this
          rw [if_pos hg, if_pos hg, updf_ne _ _ _ _ hine]
        · rw [if_neg hg, if_neg hg]
    | droot => rfl
    | d1 i =>
        simp only [blockOfRole, diskUpd]
        by_cases hg : σ.ip.addrs (NDIRECT + 1) ≠ 0 ∧ i < NINDIRECT
        · rw [if_pos hg, if_pos hg, updf_ne _ _ _ _ hdrL]
        · rw [if_neg hg, if_neg hg]
    | d2 i j' =>
        simp only [blockOfRole, diskUpd]
        by_cases hg : σ.ip.addrs (NDIRECT + 1) ≠ 0 ∧ i < NINDIRECT ∧
            j' < NINDIRECT
        · rw [if_pos hg, if_pos hg, updf_ne _ _ _ _ hdrL]
          by_cases hi : i = i0
          · subst hi
            have hj' : j' ≠ j2 := by
              intro he
              exact hr (by rw [he])
            rw [if_pos hL0, if_pos hL0, updf_self, u32At_setU32_ne _ _ _ _ hj']
          · by_cases hl : u32At (σ.disk (σ.ip.addrs (NDIRECT + 1))) i ≠ 0
            · have hlrole : blockOfRole σ (.d1 i) =
                  u32At (σ.disk (σ.ip.addrs (NDIRECT + 1))) i := by
                simp only [blockOfRole]
                rw [if_pos ⟨hg.1, hg.2.1⟩]
              have hlne : u32At (σ.disk (σ.ip.addrs (NDIRECT + 1))) i ≠
                  u32At (σ.disk (σ.ip.addrs (NDIRECT + 1))) i0 := by
                have := roleval_ne σ hw (.d1 i) (.d1 i0)
                  (by rw [hlrole]; exact hl) (by simp [hi])
                rwa [hlrole, hLrole] at this
              rw [if_pos hl, if_pos hl, updf_ne _ _ _ _ hlne]
            · rw [if_neg hl, if_neg hl]
        · rw [if_neg hg, if_neg hg]

theorem logicalMap_dir (σ : St) (bn : Nat) (h : bn < NDIRECT) :
    logicalMap σ bn = σ.ip.addrs bn := by
  unfold logicalMap
  rw [if_pos h]
  simp only [blockOfRole]
  rw [if_pos h]

theorem logicalMap_ind (σ : St) (bn : Nat) (h1 : ¬ bn < NDIRECT)
    (h2 : bn - NDIRECT < NINDIRECT) :
    logicalMap σ bn = (if σ.ip.addrs NDIRECT ≠ 0 then
      u32At (σ.disk (σ.ip.addrs NDIRECT)) (bn - NDIRECT) else 0) := by
  unfold logicalMap
  rw [if_neg h1, if_pos h2]
  simp only [blockOfRole]
  by_cases hg : σ.ip.addrs NDIRECT ≠ 0
  · rw [if_pos ⟨hg, h2⟩, if_pos hg]
  · rw [if_neg (by simp [hg]), if_neg hg]

theorem logicalMap_dbl (σ : St) (bn : Nat) (h1 : ¬ bn < NDIRECT)
    (h2 : ¬ bn - NDIRECT < NINDIRECT)
    (h3 : bn - NDIRECT - NINDIRECT < NINDIRECT * NINDIRECT) :
    logicalMap σ bn = blockOfRole σ
      (.d2 ((bn - NDIRECT - NINDIRECT) / NINDIRECT)
        ((bn - NDIRECT - NINDIRECT) % NINDIRECT)) := by
  unfold logicalMap
  rw [if_neg h1, if_neg h2, if_pos h3]

theorem leafRole_not_root (bn : Nat) :
    leafRole bn ≠ .iroot ∧ leafRole bn ≠ .droot ∧ ∀ i, leafRole bn ≠ .d1 i := by
  unfold leafRole
  split_ifs <;> simp

theorem leafRole_dir (bn : Nat) (h : bn < NDIRECT) : leafRole bn = .dir bn := by
  unfold leafRole
  rw [if_pos h]

theorem leafRole_ind (bn : Nat) (h1 : ¬ bn < NDIRECT)
    (h2 : bn - NDIRECT < NINDIRECT) : leafRole bn = .ind (bn - NDIRECT) := by
  unfold leafRole
  rw [if_neg h1, if_pos h2]

theorem leafRole_dbl (bn : Nat) (h1 : ¬ bn < NDIRECT)
    (h2 : ¬ bn - NDIRECT < NINDIRECT) :
    leafRole bn = .d2 ((bn - NDIRECT - NINDIRECT) / NINDIRECT)
      ((bn - NDIRECT - NINDIRECT) % NINDIRECT) := by
  unfold leafRole
  rw [if_neg h1, if_neg h2]

/-- Well-formedness is preserved when exactly one role is redirected to a
fresh (previously unheld, now marked) nonzero block. -/
theorem WF_setRole (σ σ' : St) (hw : WF σ) (r0 : Role) (v : Nat)
    (hv0 : v ≠ 0) (hfresh : ∀ r, blockOfRole σ r ≠ v)
    (hmark : σ'.freemap v = true)
    (hchg : blockOfRole σ' r0 = v)
    (hfr : ∀ r, r ≠ r0 → blockOfRole σ' r = blockOfRole σ r)
    (hfm : ∀ x, σ.freemap x = true → σ'.freemap x = true)
    (hz' : σ'.freemap 0 = true) (hsb : σ'.sbSize ≤ U32) : WF σ' := by
  refine ⟨?_, ?_, hz', hsb⟩
  · intro r1 r2 hne heq
    by_cases h1 : r1 = r0 <;> by_cases h2 : r2 = r0
    · rw [h1, h2]
    · exfalso
      subst h1
      rw [hchg, hfr r2 h2] at heq
      exact hfresh r2 heq.symm
    · exfalso
      subst h2
      rw [hchg, hfr r1 h1] at heq
      rw [hfr r1 h1] at hne
      exact hfresh r1 heq
    · rw [hfr r1 h1, hfr r2 h2] at heq
      rw [hfr r1 h1] at hne
      exact hw.inj r1 r2 hne heq
  · intro r hne
    by_cases h1 : r = r0
    · rw [h1, hchg]
      exact hmark
    · rw [hfr r h1] at hne ⊢
      exact hfm _ (hw.marked r hne)

/-- A mapped leaf block is never one of the indirect-root blocks. -/
theorem lm_ne_rootval (σ : St) (hw : WF σ) (q : Nat)
    (hq : logicalMap σ q ≠ 0) (rR : Role)
    (hRr : ∀ bn, leafRole bn ≠ rR) (hR0 : blockOfRole σ rR ≠ 0) :
    logicalMap σ q ≠ blockOfRole σ rR := by
  have hqlt : q < MAXFILE := by
    by_contra hge
    exact hq (logicalMap_zero_of_ge σ q hge)
  rw [logicalMap_eq_leafRole σ q hqlt] at hq ⊢
  exact roleval_ne σ hw (leafRole q) rR hq (hRr q)

set_option maxRecDepth 8000 in
theorem bmap_ok_direct (σ : St) (bn : Nat) (u z : Bool) (pb : Nat) (σ' : St)
    (hw : WF σ) (hbn : bn < NDIRECT)
    (h : bmap σ bn u z = .ok pb σ') : BmapOk σ z bn pb σ' := by
  have hbnMF : bn < MAXFILE := by
    have h1 : NDIRECT = 10 := rfl
    have h2 : MAXFILE = 1049610 := rfl
    omega
  unfold bmap at h
  rw [if_pos hbn] at h
  by_cases ha : σ.ip.addrs bn = 0
  · rw [if_pos ha] at h
    cases hb : balloc σ u z with
    | none => rw [hb] at h; exact absurd h (by simp)
    | some p =>
        obtain ⟨b, σa⟩ := p
        rw [hb] at h
        simp only [BRes.ok.injEq] at h
        obtain ⟨hpb, hσ'⟩ := h
        rw [hpb] at hb
        subst hσ'
        rw [hpb]
        obtain ⟨hb0, hfree, hwa, hrolea, hlma, hdiskleafa, hfba, hmonoa, hip,
          hqa, hmarka, htfa⟩ := balloc_wf σ u z pb σa hw hb
        obtain ⟨hfree', hlt, -, -, hdiska, -, -⟩ := balloc_spec σ u z pb σa hb
        obtain ⟨hchg, hfr⟩ := roles_addrs_dir σa bn hbn pb
        set σf := { σa with ip := { σa.ip with addrs := updf σa.ip.addrs bn pb } }
          with hσf
        have hfr' : ∀ r, r ≠ .dir bn → blockOfRole σf r = blockOfRole σ r :=
          fun r hr => (hfr r hr).trans (hrolea r)
        have hlmdone : logicalMap σf bn = pb := by
          rw [logicalMap_eq_leafRole σf bn hbnMF, leafRole_dir bn hbn]
          exact hchg
        have hfreshσ : ∀ r, blockOfRole σ r ≠ pb :=
          (roles_ne_of_free σ pb hw hfree).2
        have hwf : WF σf := by
          refine WF_setRole σ σf hw (.dir bn) pb hb0 hfreshσ ?_ hchg hfr'
            (fun x hx => hmonoa x hx) ?_ ?_
          · exact hmarka
          · exact hmonoa 0 hw.zeroUsed
          · exact hqa.sb_eq ▸ hw.sbLe
        have hlmold : logicalMap σ bn = 0 := by
          rw [logicalMap_dir σ bn hbn]
          exact ha
        refine ⟨hb0, hlmdone, hwf, ?_, ?_, ?_, ?_, ?_, ?_, ?_, ?_⟩
        · intro bn' hne
          by_cases hlt' : bn' < MAXFILE
          · rw [logicalMap_eq_leafRole σf bn' hlt',
              logicalMap_eq_leafRole σ bn' hlt']
            refine hfr' _ ?_
            rw [← leafRole_dir bn hbn]
            intro he
            exact hne (leafRole_inj bn' bn hlt' hbnMF he)
          · rw [logicalMap_zero_of_ge σf bn' hlt', logicalMap_zero_of_ge σ bn' hlt']
        · intro hcon
          exact absurd hlmold hcon
        · intro q hq
          exact hdiskleafa q hq
        · intro _ hz
          show σa.disk pb = zeroBlk
          rw [hdiska, hz]
          simp only [reduceIte]
          exact updf_self _ _ _
        · intro _
          exact hfree
        · exact hmonoa
        · exact Quiet.trans hqa ⟨rfl, rfl, rfl, rfl, rfl, rfl, rfl, rfl, rfl, rfl⟩
        · exact htfa
  · rw [if_neg ha] at h
    simp only [BRes.ok.injEq] at h
    obtain ⟨hpb, hσ'⟩ := h
    subst hσ'
    have hlm : logicalMap σ bn = σ.ip.addrs bn := logicalMap_dir σ bn hbn
    refine ⟨?_, ?_, hw, fun _ _ => rfl, fun _ => ⟨rfl, ?_⟩, fun _ _ => rfl,
      ?_, ?_, fun _ hx => hx, Quiet.refl σ, rfl⟩
    · rw [← hpb]; exact ha
    · rw [hlm, hpb]
    · rw [hlm, hpb]
    · intro hcon
      rw [hlm] at hcon
      exact absurd hcon ha
    · intro hcon
      rw [hlm] at hcon
      exact absurd hcon ha

theorem lm_preserve_nonleaf (σ σ' : St)
    (h : ∀ bn, bn < MAXFILE → blockOfRole σ' (leafRole bn) =
      blockOfRole σ (leafRole bn)) :
    ∀ q, logicalMap σ' q = logicalMap σ q := by
  intro q
  by_cases hq : q < MAXFILE
  · rw [logicalMap_eq_leafRole _ _ hq, logicalMap_eq_leafRole _ _ hq, h q hq]
  · rw [logicalMap_zero_of_ge _ _ hq, logicalMap_zero_of_ge _ _ hq]

set_option maxRecDepth 8000 in
theorem bmap_ok_ind (σ : St) (bn : Nat) (u z : Bool) (pb : Nat) (σ' : St)
    (hw : WF σ) (hbn1 : ¬ bn < NDIRECT) (hbn2 : bn - NDIRECT < NINDIRECT)
    (h : bmap σ bn u z = .ok pb σ') : BmapOk σ z bn pb σ' := by
  have hND : NDIRECT = 10 := rfl
  have hNI : NINDIRECT = 1024 := rfl
  have hMF : MAXFILE = 1049610 := rfl
  have hbnMF : bn < MAXFILE := by omega
  have hleaf : leafRole bn = .ind (bn - NDIRECT) := leafRole_ind bn hbn1 hbn2
  unfold bmap at h
  rw [if_neg hbn1] at h
  simp only [if_pos hbn2] at h
  by_cases hroot : σ.ip.addrs NDIRECT = 0
  -- fresh indirect root
  · rw [if_pos hroot] at h
    have hlm0 : logicalMap σ bn = 0 := by
      rw [logicalMap_ind σ bn hbn1 hbn2, if_neg (by simp [hroot])]
    cases hb1 : balloc σ u true with
    | none => rw [hb1] at h; exact absurd h (by simp)
    | some p =>
        obtain ⟨b1, σa⟩ := p
        rw [hb1] at h
        simp only [] at h
        obtain ⟨hb01, hfree1, hwa, hrolea, hlma, hdiskleafa, hfba, hmonoa,
          hipa, hqa, hmark1, htfa⟩ := balloc_wf σ u true b1 σa hw hb1
        obtain ⟨-, hlt1, -, hfma, hdiska, -, -⟩ := balloc_spec σ u true b1 σa hb1
        have hfma' : ∀ x, σa.freemap x = if x = b1 then true else σ.freemap x :=
          fun x => by rw [hfma]
        have hdiska' : σa.disk = updf σ.disk b1 zeroBlk := by
          rw [hdiska]; simp
        have hzb1 : σa.disk b1 = zeroBlk := by
          rw [hdiska']; exact updf_self _ _ _
        have hent : u32At (σa.disk b1) (bn - NDIRECT) = 0 := by
          rw [hzb1, u32At_zeroBlk]
        rw [if_pos hent] at h
        set σb : St :=
          { σa with ip := { σa.ip with addrs := updf σa.ip.addrs NDIRECT b1 } }
          with hσb
        have hipb : σb.ip.addrs NDIRECT = b1 := by
          rw [hσb]
          show updf σa.ip.addrs NDIRECT b1 NDIRECT = b1
          exact updf_self _ _ _
        obtain ⟨hchgb, hfrb⟩ := roles_addrs_iroot σa b1
          (by rw [hipa]; exact hroot) hb01 hzb1
        have hfreshb1 : ∀ r, blockOfRole σa r ≠ b1 := fun r => by
          rw [hrolea r]; exact (roles_ne_of_free σ b1 hw hfree1).2 r
        have hwb : WF σb := by
          refine WF_setRole σa σb hwa .iroot b1 hb01 hfreshb1 ?_ hchgb hfrb
            (fun x hx => hx) ?_ ?_
          · exact hmark1
          · exact hmonoa 0 hw.zeroUsed
          · exact hqa.sb_eq ▸ hw.sbLe
        have hlmb : ∀ q, logicalMap σb q = logicalMap σ q := by
          refine lm_preserve_nonleaf σ σb (fun q hq => ?_)
          rw [hfrb _ (leafRole_not_root q).1, hrolea]
        cases hb2 : balloc σb u z with
        | none => rw [hb2] at h; exact absurd h (by simp)
        | some p2 =>
            obtain ⟨b2, σc⟩ := p2
            rw [hb2] at h
            simp only [BRes.ok.injEq] at h
            obtain ⟨hpb, hσ'⟩ := h
            rw [hpb] at hb2
            subst hσ'
            rw [hpb]
            obtain ⟨hb02, hfree2, hwc, hrolec, hlmc, hdiskleafc, hfbc, hmonoc,
              hipc, hqc, hmark2, htfc⟩ := balloc_wf σb u z pb σc hwb hb2
            obtain ⟨-, hlt2, -, hfmc, hdiskc, -, -⟩ := balloc_spec σb u z pb σc hb2
            have hfmc' : ∀ x, σc.freemap x = if x = pb then true else σb.freemap x :=
              fun x => by rw [hfmc]
            have hpbU : pb < U32 := by
              have : σb.sbSize = σ.sbSize := hqa.sb_eq
              have := hw.sbLe
              omega
            have hpbb1 : pb ≠ b1 := by
              intro he
              rw [he] at hfree2
              rw [hmark1] at hfree2
              exact absurd hfree2 (by simp)
            have hc1 : σc.ip.addrs NDIRECT = b1 := by rw [hipc]; exact hipb
            rw [← hc1]
            obtain ⟨hchg2, hfr2⟩ := roles_setU32_iroot σc hwc (bn - NDIRECT) pb
              (by rw [hc1]; exact hb01) hpbU
            set σf : St :=
              { σc with
                disk := updf σc.disk (σc.ip.addrs NDIRECT)
                  (setU32 (σc.disk (σc.ip.addrs NDIRECT)) (bn - NDIRECT) pb),
                tlogged := if u = true then σc.tlogged ++ [σc.ip.addrs NDIRECT]
                  else σc.tlogged } with hσf
            have hcongf : ∀ r, blockOfRole σf r =
                blockOfRole (diskUpd σc (σc.ip.addrs NDIRECT)
                  (setU32 (σc.disk (σc.ip.addrs NDIRECT)) (bn - NDIRECT) pb)) r :=
              blockOfRole_congr _ _ rfl rfl
            have hchgf : blockOfRole σf (.ind (bn - NDIRECT)) = pb := by
              rw [hcongf]; exact hchg2 hbn2
            have hfrf : ∀ r, r ≠ .ind (bn - NDIRECT) →
                blockOfRole σf r = blockOfRole σc r := fun r hr => by
              rw [hcongf]; exact hfr2 r hr
            have hfreshc : ∀ r, blockOfRole σc r ≠ pb := fun r => by
              rw [hrolec r]; exact (roles_ne_of_free σb pb hwb hfree2).2 r
            have hwf : WF σf := by
              refine WF_setRole σc σf hwc (.ind (bn - NDIRECT)) pb hb02 hfreshc
                ?_ hchgf hfrf (fun x hx => hx) ?_ ?_
              · exact hmark2
              · exact hmonoc 0 (hmonoa 0 hw.zeroUsed)
              · exact hqc.sb_eq ▸ hqa.sb_eq ▸ hw.sbLe
            have hrole_chain : ∀ r, r ≠ .ind (bn - NDIRECT) → r ≠ .iroot →
                blockOfRole σf r = blockOfRole σ r := fun r hr1 hr2 => by
              rw [hfrf r hr1, hrolec r, hfrb r hr2, hrolea r]
            refine ⟨hb02, ?_, hwf, ?_, ?_, ?_, ?_, ?_, ?_, ?_, ?_⟩
            · rw [logicalMap_eq_leafRole σf bn hbnMF, hleaf]
              exact hchgf
            · intro bn' hne
              by_cases hlt' : bn' < MAXFILE
              · rw [logicalMap_eq_leafRole σf bn' hlt',
                  logicalMap_eq_leafRole σ bn' hlt']
                refine hrole_chain _ ?_ (leafRole_not_root bn').1
                rw [← hleaf]
                intro he
                exact hne (leafRole_inj bn' bn hlt' hbnMF he)
              · rw [logicalMap_zero_of_ge σf bn' hlt',
                  logicalMap_zero_of_ge σ bn' hlt']
            · intro hcon
              exact absurd hlm0 hcon
            · intro q hq
              have hnb1 : logicalMap σ q ≠ b1 := by
                have hqlt : q < MAXFILE := by
                  by_contra hge
                  exact hq (logicalMap_zero_of_ge σ q hge)
                rw [logicalMap_eq_leafRole σ q hqlt]
                exact (roles_ne_of_free σ b1 hw hfree1).2 _
              show updf σc.disk (σc.ip.addrs NDIRECT) _ (logicalMap σ q) = _
              rw [hc1, updf_ne _ _ _ _ hnb1]
              have h1 : σc.disk (logicalMap σ q) = σb.disk (logicalMap σ q) := by
                have := hdiskleafc q (by rw [hlmb]; exact hq)
                rwa [hlmb] at this
              rw [h1]
              exact hdiskleafa q hq
            · intro _ hz
              subst hz
              show updf σc.disk (σc.ip.addrs NDIRECT) _ pb = zeroBlk
              rw [hc1, updf_ne _ _ _ _ hpbb1]
              rw [hdiskc]
              simp only [reduceIte]
              exact updf_self _ _ _
            · intro _
              have := hfma' pb
              rw [if_neg hpbb1] at this
              rw [← this]
              exact hfree2
            · intro x hx
              exact hmonoc x (hmonoa x hx)
            · exact hqa.trans
                ((⟨rfl, rfl, rfl, rfl, rfl, rfl, rfl, rfl, rfl, rfl⟩ :
                  Quiet σa σb).trans
                  (hqc.trans
                    (⟨rfl, rfl, rfl, rfl, rfl, rfl, rfl, rfl, rfl, rfl⟩ :
                      Quiet σc σf)))
            · rw [show σf.tfreed = σc.tfreed from rfl, htfc,
                show σb.tfreed = σa.tfreed from rfl, htfa]
  -- existing indirect root
  · rw [if_neg hroot] at h
    simp only [] at h
    by_cases hent : u32At (σ.disk (σ.ip.addrs NDIRECT)) (bn - NDIRECT) = 0
    · rw [if_pos hent] at h
      have hlm0 : logicalMap σ bn = 0 := by
        rw [logicalMap_ind σ bn hbn1 hbn2, if_pos hroot]
        exact hent
      cases hb2 : balloc σ u z with
      | none => rw [hb2] at h; exact absurd h (by simp)
      | some p2 =>
          obtain ⟨b2, σc⟩ := p2
          rw [hb2] at h
          simp only [BRes.ok.injEq] at h
          obtain ⟨hpb, hσ'⟩ := h
          rw [hpb] at hb2
          subst hσ'
          rw [hpb]
          obtain ⟨hb02, hfree2, hwc, hrolec, hlmc, hdiskleafc, hfbc, hmonoc,
            hipc, hqc, hmark2, htfc⟩ := balloc_wf σ u z pb σc hw hb2
          obtain ⟨-, hlt2, -, hfmc, hdiskc, -, -⟩ := balloc_spec σ u z pb σc hb2
          have hpbU : pb < U32 := by
            have := hw.sbLe
            omega
          have hc1 : σc.ip.addrs NDIRECT = σ.ip.addrs NDIRECT := by rw [hipc]
          rw [← hc1]
          obtain ⟨hchg2, hfr2⟩ := roles_setU32_iroot σc hwc (bn - NDIRECT) pb
            (by rw [hc1]; exact hroot) hpbU
          set σf : St :=
            { σc with
              disk := updf σc.disk (σc.ip.addrs NDIRECT)
                (setU32 (σc.disk (σc.ip.addrs NDIRECT)) (bn - NDIRECT) pb),
              tlogged := if u = true then σc.tlogged ++ [σc.ip.addrs NDIRECT]
                else σc.tlogged } with hσf
          have hcongf : ∀ r, blockOfRole σf r =
              blockOfRole (diskUpd σc (σc.ip.addrs NDIRECT)
                (setU32 (σc.disk (σc.ip.addrs NDIRECT)) (bn - NDIRECT) pb)) r :=
            blockOfRole_congr _ _ rfl rfl
          have hchgf : blockOfRole σf (.ind (bn - NDIRECT)) = pb := by
            rw [hcongf]; exact hchg2 hbn2
          have hfrf : ∀ r, r ≠ .ind (bn - NDIRECT) →
              blockOfRole σf r = blockOfRole σc r := fun r hr => by
            rw [hcongf]; exact hfr2 r hr
          have hfreshc : ∀ r, blockOfRole σc r ≠ pb := fun r => by
            rw [hrolec r]; exact (roles_ne_of_free σ pb hw hfree2).2 r
          have hwf : WF σf := by
            refine WF_setRole σc σf hwc (.ind (bn - NDIRECT)) pb hb02 hfreshc
              ?_ hchgf hfrf (fun x hx => hx) ?_ ?_
            · exact hmark2
            · exact hmonoc 0 hw.zeroUsed
            · exact hqc.sb_eq ▸ hw.sbLe
          refine ⟨hb02, ?_, hwf, ?_, ?_, ?_, ?_, ?_, ?_, ?_, ?_⟩
          · rw [logicalMap_eq_leafRole σf bn hbnMF, hleaf]
            exact hchgf
          · intro bn' hne
            by_cases hlt' : bn' < MAXFILE
            · rw [logicalMap_eq_leafRole σf bn' hlt',
                logicalMap_eq_leafRole σ bn' hlt']
              rw [hfrf _ ?_, hrolec]
              rw [← hleaf]
              intro he
              exact hne (leafRole_inj bn' bn hlt' hbnMF he)
            · rw [logicalMap_zero_of_ge σf bn' hlt',
                logicalMap_zero_of_ge σ bn' hlt']
          · intro hcon
            exact absurd hlm0 hcon
          · intro q hq
            have hnroot : logicalMap σ q ≠ σ.ip.addrs NDIRECT :=
              lm_ne_rootval σ hw q hq .iroot
                (fun b => (leafRole_not_root b).1) hroot
            show updf σc.disk (σc.ip.addrs NDIRECT) _ (logicalMap σ q) = _
            rw [hc1, updf_ne _ _ _ _ hnroot]
            exact hdiskleafc q hq
          · intro _ hz
            subst hz
            have hpbroot : pb ≠ σ.ip.addrs NDIRECT := by
              intro he
              exact (roles_ne_of_free σ pb hw hfree2).2 .iroot he.symm
            show updf σc.disk (σc.ip.addrs NDIRECT) _ pb = zeroBlk
            rw [hc1, updf_ne _ _ _ _ hpbroot]
            rw [hdiskc]
            simp only [reduceIte]
            exact updf_self _ _ _
          · intro _
            exact hfree2
          · intro x hx
            exact hmonoc x hx
          · exact hqc.trans ⟨rfl, rfl, rfl, rfl, rfl, rfl, rfl, rfl, rfl, rfl⟩
          · rw [show σf.tfreed = σc.tfreed from rfl, htfc]
    · rw [if_neg hent] at h
      simp only [BRes.ok.injEq] at h
      obtain ⟨hpb, hσ'⟩ := h
      subst hσ'
      have hlm : logicalMap σ bn =
          u32At (σ.disk (σ.ip.addrs NDIRECT)) (bn - NDIRECT) := by
        rw [logicalMap_ind σ bn hbn1 hbn2, if_pos hroot]
      refine ⟨?_, ?_, hw, fun _ _ => rfl, fun _ => ⟨rfl, ?_⟩, fun _ _ => rfl,
        ?_, ?_, fun _ hx => hx, Quiet.refl σ, rfl⟩
      · rw [← hpb]; exact hent
      · rw [hlm, hpb]
      · rw [hlm, hpb]
      · intro hcon
        rw [hlm] at hcon
        exact absurd hcon hent
      · intro hcon
        rw [hlm] at hcon
        exact absurd hcon hent

set_option maxRecDepth 8000 in
theorem bmap_ok_dbl (σ : St) (bn : Nat) (u z : Bool) (pb : Nat) (σ' : St)
    (hw : WF σ) (hbn1 : ¬ bn < NDIRECT) (hbn2 : ¬ bn - NDIRECT < NINDIRECT)
    (hbn3 : ¬ bn - NDIRECT - NINDIRECT ≥ NINDIRECT * NINDIRECT)
    (h : bmap σ bn u z = .ok pb σ') : BmapOk σ z bn pb σ' := by
  have hND : NDIRECT = 10 := rfl
  have hNI : NINDIRECT = 1024 := rfl
  have hNN : NINDIRECT * NINDIRECT = 1048576 := rfl
  have hMF : MAXFILE = 1049610 := rfl
  have hbnMF : bn < MAXFILE := by omega
  have hi0 : (bn - NDIRECT - NINDIRECT) / NINDIRECT < NINDIRECT := by
    rw [hNI] at *
    omega
  have hj0 : (bn - NDIRECT - NINDIRECT) % NINDIRECT < NINDIRECT := by
    rw [hNI] at *
    omega
  have hleaf : leafRole bn = .d2 ((bn - NDIRECT - NINDIRECT) / NINDIRECT)
      ((bn - NDIRECT - NINDIRECT) % NINDIRECT) := leafRole_dbl bn hbn1 hbn2
  have hlmval : logicalMap σ bn = blockOfRole σ
      (.d2 ((bn - NDIRECT - NINDIRECT) / NINDIRECT)
        ((bn - NDIRECT - NINDIRECT) % NINDIRECT)) :=
    logicalMap_dbl σ bn hbn1 hbn2 (by omega)
  unfold bmap at h
  rw [if_neg hbn1] at h
  simp only [if_neg hbn2, if_neg hbn3] at h
  by_cases hroot : σ.ip.addrs (NDIRECT + 1) = 0
  -- fresh doubly-indirect root: the whole chain is fresh
  · rw [if_pos hroot] at h
    have hlm0 : logicalMap σ bn = 0 := by
      rw [hlmval]
      simp only [blockOfRole]
      rw [if_neg (by simp [hroot])]
    cases hb1 : balloc σ u true with
    | none => rw [hb1] at h; exact absurd h (by simp)
    | some p =>
        obtain ⟨d, σa⟩ := p
        rw [hb1] at h
        simp only [] at h
        obtain ⟨hd0, hfreed, hwa, hrolea, hlma, hdiskleafa, hfba, hmonoa,
          hipa, hqa, hmarkd, htfa⟩ := balloc_wf σ u true d σa hw hb1
        obtain ⟨-, hltd, -, hfma, hdiska, -, -⟩ := balloc_spec σ u true d σa hb1
        have hfma' : ∀ x, σa.freemap x = if x = d then true else σ.freemap x :=
          fun x => by rw [hfma]
        have hdiska' : σa.disk = updf σ.disk d zeroBlk := by rw [hdiska]; simp
        have hzd : σa.disk d = zeroBlk := by
          rw [hdiska']; exact updf_self _ _ _
        set σb : St :=
          { σa with ip := { σa.ip with addrs := updf σa.ip.addrs (NDIRECT + 1) d } }
          with hσb
        have hipb : σb.ip.addrs (NDIRECT + 1) = d := by
          rw [hσb]
          show updf σa.ip.addrs (NDIRECT + 1) d (NDIRECT + 1) = d
          exact updf_self _ _ _
        obtain ⟨hchgb, hfrb⟩ := roles_addrs_droot σa d
          (by rw [hipa]; exact hroot) hd0 hzd
        have hfreshd : ∀ r, blockOfRole σa r ≠ d := fun r => by
          rw [hrolea r]; exact (roles_ne_of_free σ d hw hfreed).2 r
        have hwb : WF σb := by
          refine WF_setRole σa σb hwa .droot d hd0 hfreshd ?_ hchgb hfrb
            (fun x hx => hx) ?_ ?_
          · exact hmarkd
          · exact hmonoa 0 hw.zeroUsed
          · exact hqa.sb_eq ▸ hw.sbLe
        have hlmb : ∀ q, logicalMap σb q = logicalMap σ q := by
          refine lm_preserve_nonleaf σ σb (fun q hq => ?_)
          rw [hfrb _ (leafRole_not_root q).2.1, hrolea]
        have hent1 : u32At (σb.disk d) ((bn - NDIRECT - NINDIRECT) / NINDIRECT)
            = 0 := by
          show u32At (σa.disk d) _ = 0
          rw [hzd, u32At_zeroBlk]
        rw [if_pos hent1] at h
        cases hb2 : balloc σb u true with
        | none => rw [hb2] at h; exact absurd h (by simp)
        | some p2 =>
            obtain ⟨l1, σc⟩ := p2
            rw [hb2] at h
            simp only [] at h
            obtain ⟨hl10, hfreel1, hwc, hrolec, hlmc, hdiskleafc, hfbc, hmonoc,
              hipc, hqc, hmarkl1, htfc⟩ := balloc_wf σb u true l1 σc hwb hb2
            obtain ⟨-, hltl1, -, hfmc, hdiskc, -, -⟩ :=
              balloc_spec σb u true l1 σc hb2
            have hfmc' : ∀ x, σc.freemap x =
                if x = l1 then true else σb.freemap x := fun x => by rw [hfmc]
            have hdiskc' : σc.disk = updf σb.disk l1 zeroBlk := by
              rw [hdiskc]; simp
            have hzl1 : σc.disk l1 = zeroBlk := by
              rw [hdiskc']; exact updf_self _ _ _
            have hl1d : l1 ≠ d := by
              intro he
              rw [he] at hfreel1
              rw [show σb.freemap d = σa.freemap d from rfl, hmarkd] at hfreel1
              exact absurd hfreel1 (by simp)
            have hl1U : l1 < U32 := by
              have h1 : σb.sbSize = σ.sbSize := hqa.sb_eq
              have := hw.sbLe
              omega
            have hcd : σc.ip.addrs (NDIRECT + 1) = d := by rw [hipc]; exact hipb
            have hcdiskd : σc.disk d = zeroBlk := by
              rw [hdiskc', updf_ne _ _ _ _ (fun he => hl1d he.symm)]
              exact hzd
            have hentc : u32At (σc.disk (σc.ip.addrs (NDIRECT + 1)))
                ((bn - NDIRECT - NINDIRECT) / NINDIRECT) = 0 := by
              rw [hcd, hcdiskd, u32At_zeroBlk]
            rw [← hcd] at h
            set σd : St :=
              { σc with
                disk := updf σc.disk (σc.ip.addrs (NDIRECT + 1))
                  (setU32 (σc.disk (σc.ip.addrs (NDIRECT + 1)))
                    ((bn - NDIRECT - NINDIRECT) / NINDIRECT) l1),
                tlogged := if u = true then
                  σc.tlogged ++ [σc.ip.addrs (NDIRECT + 1)] else σc.tlogged }
              with hσd
            have hcongd : ∀ r, blockOfRole σd r =
                blockOfRole (diskUpd σc (σc.ip.addrs (NDIRECT + 1))
                  (setU32 (σc.disk (σc.ip.addrs (NDIRECT + 1)))
                    ((bn - NDIRECT - NINDIRECT) / NINDIRECT) l1)) r :=
              blockOfRole_congr _ _ rfl rfl
            obtain ⟨hchg3, hfr3⟩ := roles_setU32_droot σc hwc
              ((bn - NDIRECT - NINDIRECT) / NINDIRECT) l1
              (by rw [hcd]; exact hd0) hl1U hl10 hentc hzl1
              (by rw [hcd]; exact hl1d)
            have hchgd : blockOfRole σd
                (.d1 ((bn - NDIRECT - NINDIRECT) / NINDIRECT)) = l1 := by
              rw [hcongd]; exact hchg3 hi0
            have hfrd : ∀ r, r ≠ .d1 ((bn - NDIRECT - NINDIRECT) / NINDIRECT) →
                blockOfRole σd r = blockOfRole σc r := fun r hr => by
              rw [hcongd]; exact hfr3 r hr
            have hfreshc : ∀ r, blockOfRole σc r ≠ l1 := fun r => by
              rw [hrolec r]; exact (roles_ne_of_free σb l1 hwb hfreel1).2 r
            have hwd : WF σd := by
              refine WF_setRole σc σd hwc
                (.d1 ((bn - NDIRECT - NINDIRECT) / NINDIRECT)) l1 hl10 hfreshc
                ?_ hchgd hfrd (fun x hx => hx) ?_ ?_
              · exact hmarkl1
              · exact hmonoc 0 (hmonoa 0 hw.zeroUsed)
              · exact hqc.sb_eq ▸ hqa.sb_eq ▸ hw.sbLe
            have hlmd : ∀ q, logicalMap σd q = logicalMap σ q := by
              refine lm_preserve_nonleaf σ σd (fun q hq => ?_)
              rw [hfrd _ ((leafRole_not_root q).2.2 _), hrolec,
                hfrb _ (leafRole_not_root q).2.1, hrolea]
            have hdd : σd.ip.addrs (NDIRECT + 1) = d := hcd
            have hddiskl1 : σd.disk l1 = zeroBlk := by
              show updf σc.disk (σc.ip.addrs (NDIRECT + 1)) _ l1 = zeroBlk
              rw [updf_ne _ _ _ _ (by rw [hcd]; exact hl1d)]
              exact hzl1
            have hent2 : u32At (σd.disk l1)
                ((bn - NDIRECT - NINDIRECT) % NINDIRECT) = 0 := by
              rw [hddiskl1, u32At_zeroBlk]
            rw [if_pos hent2] at h
            cases hb3 : balloc σd u z with
            | none => rw [hb3] at h; exact absurd h (by simp)
            | some p3 =>
                obtain ⟨b3, σe⟩ := p3
                rw [hb3] at h
                simp only [BRes.ok.injEq] at h
                obtain ⟨hpb, hσ'⟩ := h
                rw [hpb] at hb3
                subst hσ'
                rw [hpb]
                obtain ⟨hb03, hfree3, hwe, hrolee, hlme, hdiskleafe, hfbe,
                  hmonoe, hipe, hqe, hmark3, htfe⟩ :=
                  balloc_wf σd u z pb σe hwd hb3
                obtain ⟨-, hlt3, -, hfme, hdiske, -, -⟩ :=
                  balloc_spec σd u z pb σe hb3
                have hfme' : ∀ x, σe.freemap x =
                    if x = pb then true else σd.freemap x := fun x => by rw [hfme]
                have hpbU : pb < U32 := by
                  have h1 : σd.sbSize = σ.sbSize :=
                    (hqa.trans ((⟨rfl, rfl, rfl, rfl, rfl, rfl, rfl, rfl, rfl,
                      rfl⟩ : Quiet σa σb).trans (hqc.trans
                      (⟨rfl, rfl, rfl, rfl, rfl, rfl, rfl, rfl, rfl, rfl⟩ :
                        Quiet σc σd)))).sb_eq
                  have := hw.sbLe
                  omega
                have hpbl1 : pb ≠ l1 := by
                  intro he
                  rw [he] at hfree3
                  rw [show σd.freemap l1 = σc.freemap l1 from rfl, hmarkl1]
                    at hfree3
                  exact absurd hfree3 (by simp)
                have hed : σe.ip.addrs (NDIRECT + 1) = d := by rw [hipe]; exact hdd
                have hediskd : σe.disk d = σd.disk d := by
                  rw [hdiske]
                  cases z
                  · simp
                  · simp only [reduceIte]
                    rw [updf_ne _ _ _ _ (by
                      intro he
                      rw [← he] at hfree3
                      rw [show σd.freemap d = σc.freemap d from rfl,
                        hfmc' d, if_neg (fun hx => hl1d hx.symm),
                        show σb.freemap d = σa.freemap d from rfl, hmarkd]
                        at hfree3
                      exact absurd hfree3 (by simp))]
                have hLe : u32At (σe.disk (σe.ip.addrs (NDIRECT + 1)))
                    ((bn - NDIRECT - NINDIRECT) / NINDIRECT) = l1 := by
                  rw [hed, hediskd]
                  show u32At (updf σc.disk (σc.ip.addrs (NDIRECT + 1))
                    (setU32 (σc.disk (σc.ip.addrs (NDIRECT + 1)))
                      ((bn - NDIRECT - NINDIRECT) / NINDIRECT) l1) d) _ = l1
                  rw [show σc.ip.addrs (NDIRECT + 1) = d from hcd, updf_self]
                  exact u32At_setU32_self _ _ _ hl1U
                rw [← hLe]
                obtain ⟨hchg4, hfr4⟩ := roles_setU32_l1 σe hwe
                  ((bn - NDIRECT - NINDIRECT) / NINDIRECT)
                  ((bn - NDIRECT - NINDIRECT) % NINDIRECT) pb
                  (by rw [hed]; exact hd0) hi0 (by rw [hLe]; exact hl10) hpbU
                set σf : St :=
                  { σe with
                    disk := updf σe.disk
                      (u32At (σe.disk (σe.ip.addrs (NDIRECT + 1)))
                        ((bn - NDIRECT - NINDIRECT) / NINDIRECT))
                      (setU32 (σe.disk
                        (u32At (σe.disk (σe.ip.addrs (NDIRECT + 1)))
                          ((bn - NDIRECT - NINDIRECT) / NINDIRECT)))
                        ((bn - NDIRECT - NINDIRECT) % NINDIRECT) pb),
                    tlogged := if u = true then σe.tlogged ++
                      [u32At (σe.disk (σe.ip.addrs (NDIRECT + 1)))
                        ((bn - NDIRECT - NINDIRECT) / NINDIRECT)]
                      else σe.tlogged } with hσf
                have hcongf : ∀ r, blockOfRole σf r =
                    blockOfRole (diskUpd σe
                      (u32At (σe.disk (σe.ip.addrs (NDIRECT + 1)))
                        ((bn - NDIRECT - NINDIRECT) / NINDIRECT))
                      (setU32 (σe.disk
                        (u32At (σe.disk (σe.ip.addrs (NDIRECT + 1)))
                          ((bn - NDIRECT - NINDIRECT) / NINDIRECT)))
                        ((bn - NDIRECT - NINDIRECT) % NINDIRECT) pb)) r :=
                  blockOfRole_congr _ _ rfl rfl
                have hchgf : blockOfRole σf
                    (.d2 ((bn - NDIRECT - NINDIRECT) / NINDIRECT)
                      ((bn - NDIRECT - NINDIRECT) % NINDIRECT)) = pb := by
                  rw [hcongf]; exact hchg4 hj0
                have hfrf : ∀ r,
                    r ≠ .d2 ((bn - NDIRECT - NINDIRECT) / NINDIRECT)
                      ((bn - NDIRECT - NINDIRECT) % NINDIRECT) →
                    blockOfRole σf r = blockOfRole σe r := fun r hr => by
                  rw [hcongf]; exact hfr4 r hr
                have hfreshe : ∀ r, blockOfRole σe r ≠ pb := fun r => by
                  rw [hrolee r]; exact (roles_ne_of_free σd pb hwd hfree3).2 r
                have hwf : WF σf := by
                  refine WF_setRole σe σf hwe
                    (.d2 ((bn - NDIRECT - NINDIRECT) / NINDIRECT)
                      ((bn - NDIRECT - NINDIRECT) % NINDIRECT)) pb hb03 hfreshe
                    ?_ hchgf hfrf (fun x hx => hx) ?_ ?_
                  · exact hmark3
                  · exact hmonoe 0 (hmonoc 0 (hmonoa 0 hw.zeroUsed))
                  · exact hqe.sb_eq ▸ hqc.sb_eq ▸ hqa.sb_eq ▸ hw.sbLe
                have hrole_chain : ∀ bn', bn' < MAXFILE → bn' ≠ bn →
                    blockOfRole σf (leafRole bn') =
                    blockOfRole σ (leafRole bn') := by
                  intro bn' hlt' hne
                  rw [hfrf _ (by
                    rw [← hleaf]
                    intro he
                    exact hne (leafRole_inj bn' bn hlt' hbnMF he)),
                    hrolee, hfrd _ ((leafRole_not_root bn').2.2 _), hrolec,
                    hfrb _ (leafRole_not_root bn').2.1, hrolea]
                refine ⟨hb03, ?_, hwf, ?_, ?_, ?_, ?_, ?_, ?_, ?_, ?_⟩
                · rw [logicalMap_eq_leafRole σf bn hbnMF, hleaf]
                  exact hchgf
                · intro bn' hne
                  by_cases hlt' : bn' < MAXFILE
                  · rw [logicalMap_eq_leafRole σf bn' hlt',
                      logicalMap_eq_leafRole σ bn' hlt']
                    exact hrole_chain bn' hlt' hne
                  · rw [logicalMap_zero_of_ge σf bn' hlt',
                      logicalMap_zero_of_ge σ bn' hlt']
                · intro hcon
                  exact absurd hlm0 hcon
                · intro q hq
                  have hqlt : q < MAXFILE := by
                    by_contra hge
                    exact hq (logicalMap_zero_of_ge σ q hge)
                  have hlmrole : logicalMap σ q = blockOfRole σ (leafRole q) :=
                    logicalMap_eq_leafRole σ q hqlt
                  have hnl1 : logicalMap σ q ≠ l1 := by
                    rw [hlmrole]
                    intro he
                    refine (roles_ne_of_free σb l1 hwb hfreel1).2 (leafRole q) ?_
                    rw [hfrb _ (leafRole_not_root q).2.1, hrolea]
                    exact he
                  have hnd : logicalMap σ q ≠ d := by
                    rw [hlmrole]
                    exact (roles_ne_of_free σ d hw hfreed).2 _
                  have hnpb : logicalMap σ q ≠ pb := by
                    rw [hlmrole]
                    intro he
                    refine (roles_ne_of_free σd pb hwd hfree3).2 (leafRole q) ?_
                    rw [hfrd _ ((leafRole_not_root q).2.2 _), hrolec,
                      hfrb _ (leafRole_not_root q).2.1, hrolea]
                    exact he
                  show updf σe.disk _ _ (logicalMap σ q) = _
                  rw [updf_ne _ _ _ _ (by rw [hLe]; exact hnl1)]
                  have he1 : σe.disk (logicalMap σ q) = σd.disk (logicalMap σ q) := by
                    have := hdiskleafe q (by rw [hlmd]; exact hq)
                    rwa [hlmd] at this
                  rw [he1]
                  have he2 : σd.disk (logicalMap σ q) = σc.disk (logicalMap σ q) := by
                    show updf σc.disk (σc.ip.addrs (NDIRECT + 1)) _ _ = _
                    rw [updf_ne _ _ _ _ (by rw [hcd]; exact hnd)]
                  rw [he2]
                  have he3 : σc.disk (logicalMap σ q) = σb.disk (logicalMap σ q) := by
                    have := hdiskleafc q (by rw [hlmb]; exact hq)
                    rwa [hlmb] at this
                  rw [he3]
                  exact hdiskleafa q hq
                · intro _ hz
                  subst hz
                  show updf σe.disk _ _ pb = zeroBlk
                  rw [updf_ne _ _ _ _ (by rw [hLe]; exact hpbl1)]
                  rw [hdiske]
                  simp only [reduceIte]
                  exact updf_self _ _ _
                · intro _
                  have h1 := hfme' pb
                  have h2 : σd.freemap pb = σc.freemap pb := rfl
                  have h3 := hfmc' pb
                  have h4 : σb.freemap pb = σa.freemap pb := rfl
                  have h5 := hfma' pb
                  have hpbd : pb ≠ d := by
                    intro he
                    rw [he] at hfree3
                    rw [show σd.freemap d = σc.freemap d from rfl,
                      hfmc' d, if_neg (fun hx => hl1d hx.symm),
                      show σb.freemap d = σa.freemap d from rfl, hmarkd] at hfree3
                    exact absurd hfree3 (by simp)
                  rw [h2, h3, if_neg hpbl1, h4, h5, if_neg hpbd] at hfree3
                  exact hfree3
                · intro x hx
                  exact hmonoe x (hmonoc x (hmonoa x hx))
                · exact hqa.trans
                    ((⟨rfl, rfl, rfl, rfl, rfl, rfl, rfl, rfl, rfl, rfl⟩ :
                      Quiet σa σb).trans
                      (hqc.trans
                        ((⟨rfl, rfl, rfl, rfl, rfl, rfl, rfl, rfl, rfl, rfl⟩ :
                          Quiet σc σd).trans
                          (hqe.trans
                            (⟨rfl, rfl, rfl, rfl, rfl, rfl, rfl, rfl, rfl, rfl⟩ :
                              Quiet σe σf)))))
                · rw [show σf.tfreed = σe.tfreed from rfl, htfe,
                    show σd.tfreed = σc.tfreed from rfl, htfc,
                    show σb.tfreed = σa.tfreed from rfl, htfa]
  -- existing doubly-indirect root
  · rw [if_neg hroot] at h
    simp only [] at h
    by_cases hl1e : u32At (σ.disk (σ.ip.addrs (NDIRECT + 1)))
        ((bn - NDIRECT - NINDIRECT) / NINDIRECT) = 0
    -- fresh first-level block
    · rw [if_pos hl1e] at h
      have hlm0 : logicalMap σ bn = 0 := by
        rw [hlmval]
        simp only [blockOfRole]
        rw [if_pos ⟨hroot, hi0, hj0⟩, if_neg (by simp [hl1e])]
      cases hb2 : balloc σ u true with
      | none => rw [hb2] at h; exact absurd h (by simp)
      | some p2 =>
          obtain ⟨l1, σc⟩ := p2
          rw [hb2] at h
          simp only [] at h
          obtain ⟨hl10, hfreel1, hwc, hrolec, hlmc, hdiskleafc, hfbc, hmonoc,
            hipc, hqc, hmarkl1, htfc⟩ := balloc_wf σ u true l1 σc hw hb2
          obtain ⟨-, hltl1, -, hfmc, hdiskc, -, -⟩ :=
            balloc_spec σ u true l1 σc hb2
          have hfmc' : ∀ x, σc.freemap x =
              if x = l1 then true else σ.freemap x := fun x => by rw [hfmc]
          have hdiskc' : σc.disk = updf σ.disk l1 zeroBlk := by
            rw [hdiskc]; simp
          have hzl1 : σc.disk l1 = zeroBlk := by
            rw [hdiskc']; exact updf_self _ _ _
          have hl1droot : l1 ≠ σ.ip.addrs (NDIRECT + 1) := by
            intro he
            exact (roles_ne_of_free σ l1 hw hfreel1).2 .droot he.symm
          have hl1U : l1 < U32 := by
            have := hw.sbLe
            omega
          have hcroot : σc.ip.addrs (NDIRECT + 1) = σ.ip.addrs (NDIRECT + 1) := by
            rw [hipc]
          have hcdiskroot : σc.disk (σ.ip.addrs (NDIRECT + 1)) =
              σ.disk (σ.ip.addrs (NDIRECT + 1)) := by
            rw [hdiskc', updf_ne _ _ _ _ (fun he => hl1droot he.symm)]
          have hentc : u32At (σc.disk (σc.ip.addrs (NDIRECT + 1)))
              ((bn - NDIRECT - NINDIRECT) / NINDIRECT) = 0 := by
            rw [hcroot, hcdiskroot]
            exact hl1e
          rw [← hcroot] at h
          set σd : St :=
            { σc with
              disk := updf σc.disk (σc.ip.addrs (NDIRECT + 1))
                (setU32 (σc.disk (σc.ip.addrs (NDIRECT + 1)))
                  ((bn - NDIRECT - NINDIRECT) / NINDIRECT) l1),
              tlogged := if u = true then
                σc.tlogged ++ [σc.ip.addrs (NDIRECT + 1)] else σc.tlogged }
            with hσd
          have hcongd : ∀ r, blockOfRole σd r =
              blockOfRole (diskUpd σc (σc.ip.addrs (NDIRECT + 1))
                (setU32 (σc.disk (σc.ip.addrs (NDIRECT + 1)))
                  ((bn - NDIRECT - NINDIRECT) / NINDIRECT) l1)) r :=
            blockOfRole_congr _ _ rfl rfl
          obtain ⟨hchg3, hfr3⟩ := roles_setU32_droot σc hwc
            ((bn - NDIRECT - NINDIRECT) / NINDIRECT) l1
            (by rw [hcroot]; exact hroot) hl1U hl10 hentc hzl1
            (by rw [hcroot]; exact hl1droot)
          have hchgd : blockOfRole σd
              (.d1 ((bn - NDIRECT - NINDIRECT) / NINDIRECT)) = l1 := by
            rw [hcongd]; exact hchg3 hi0
          have hfrd : ∀ r, r ≠ .d1 ((bn - NDIRECT - NINDIRECT) / NINDIRECT) →
              blockOfRole σd r = blockOfRole σc r := fun r hr => by
            rw [hcongd]; exact hfr3 r hr
          have hfreshc : ∀ r, blockOfRole σc r ≠ l1 := fun r => by
            rw [hrolec r]; exact (roles_ne_of_free σ l1 hw hfreel1).2 r
          have hwd : WF σd := by
            refine WF_setRole σc σd hwc
              (.d1 ((bn - NDIRECT - NINDIRECT) / NINDIRECT)) l1 hl10 hfreshc
              ?_ hchgd hfrd (fun x hx => hx) ?_ ?_
            · exact hmarkl1
            · exact hmonoc 0 hw.zeroUsed
            · exact hqc.sb_eq ▸ hw.sbLe
          have hlmd : ∀ q, logicalMap σd q = logicalMap σ q := by
            refine lm_preserve_nonleaf σ σd (fun q hq => ?_)
            rw [hfrd _ ((leafRole_not_root q).2.2 _), hrolec]
          have hdd : σd.ip.addrs (NDIRECT + 1) = σ.ip.addrs (NDIRECT + 1) :=
            hcroot
          have hddiskl1 : σd.disk l1 = zeroBlk := by
            show updf σc.disk (σc.ip.addrs (NDIRECT + 1)) _ l1 = zeroBlk
            rw [updf_ne _ _ _ _ (by rw [hcroot]; exact hl1droot)]
            exact hzl1
          have hent2 : u32At (σd.disk l1)
              ((bn - NDIRECT - NINDIRECT) % NINDIRECT) = 0 := by
            rw [hddiskl1, u32At_zeroBlk]
          rw [if_pos hent2] at h
          cases hb3 : balloc σd u z with
          | none => rw [hb3] at h; exact absurd h (by simp)
          | some p3 =>
              obtain ⟨b3, σe⟩ := p3
              rw [hb3] at h
              simp only [BRes.ok.injEq] at h
              obtain ⟨hpb, hσ'⟩ := h
              rw [hpb] at hb3
              subst hσ'
              rw [hpb]
              obtain ⟨hb03, hfree3, hwe, hrolee, hlme, hdiskleafe, hfbe,
                hmonoe, hipe, hqe, hmark3, htfe⟩ :=
                balloc_wf σd u z pb σe hwd hb3
              obtain ⟨-, hlt3, -, hfme, hdiske, -, -⟩ :=
                balloc_spec σd u z pb σe hb3
              have hfme' : ∀ x, σe.freemap x =
                  if x = pb then true else σd.freemap x := fun x => by rw [hfme]
              have hpbU : pb < U32 := by
                have h1 : σd.sbSize = σ.sbSize :=
                  (hqc.trans (⟨rfl, rfl, rfl, rfl, rfl, rfl, rfl, rfl, rfl,
                    rfl⟩ : Quiet σc σd)).sb_eq
                have := hw.sbLe
                omega
              have hpbl1 : pb ≠ l1 := by
                intro he
                rw [he] at hfree3
                rw [show σd.freemap l1 = σc.freemap l1 from rfl, hmarkl1]
                  at hfree3
                exact absurd hfree3 (by simp)
              have hpbroot : pb ≠ σ.ip.addrs (NDIRECT + 1) := by
                intro he
                refine (roles_ne_of_free σd pb hwd hfree3).2 .droot ?_
                rw [hfrd _ (by simp), hrolec]
                exact he.symm
              have hed : σe.ip.addrs (NDIRECT + 1) = σ.ip.addrs (NDIRECT + 1) := by
                rw [hipe]; exact hdd
              have hediskd : σe.disk (σ.ip.addrs (NDIRECT + 1)) =
                  σd.disk (σ.ip.addrs (NDIRECT + 1)) := by
                rw [hdiske]
                cases z
                · simp
                · simp only [reduceIte]
                  rw [updf_ne _ _ _ _ (fun he => hpbroot he.symm)]
              have hLe : u32At (σe.disk (σe.ip.addrs (NDIRECT + 1)))
                  ((bn - NDIRECT - NINDIRECT) / NINDIRECT) = l1 := by
                rw [hed, hediskd]
                show u32At (updf σc.disk (σc.ip.addrs (NDIRECT + 1))
                  (setU32 (σc.disk (σc.ip.addrs (NDIRECT + 1)))
                    ((bn - NDIRECT - NINDIRECT) / NINDIRECT) l1)
                  (σ.ip.addrs (NDIRECT + 1))) _ = l1
                rw [← hcroot, updf_self]
                exact u32At_setU32_self _ _ _ hl1U
              rw [← hLe]
              obtain ⟨hchg4, hfr4⟩ := roles_setU32_l1 σe hwe
                ((bn - NDIRECT - NINDIRECT) / NINDIRECT)
                ((bn - NDIRECT - NINDIRECT) % NINDIRECT) pb
                (by rw [hed]; exact hroot) hi0 (by rw [hLe]; exact hl10) hpbU
              set σf : St :=
                { σe with
                  disk := updf σe.disk
                    (u32At (σe.disk (σe.ip.addrs (NDIRECT + 1)))
                      ((bn - NDIRECT - NINDIRECT) / NINDIRECT))
                    (setU32 (σe.disk
                      (u32At (σe.disk (σe.ip.addrs (NDIRECT + 1)))
                        ((bn - NDIRECT - NINDIRECT) / NINDIRECT)))
                      ((bn - NDIRECT - NINDIRECT) % NINDIRECT) pb),
                  tlogged := if u = true then σe.tlogged ++
                    [u32At (σe.disk (σe.ip.addrs (NDIRECT + 1)))
                      ((bn - NDIRECT - NINDIRECT) / NINDIRECT)]
                    else σe.tlogged } with hσf
              have hcongf : ∀ r, blockOfRole σf r =
                  blockOfRole (diskUpd σe
                    (u32At (σe.disk (σe.ip.addrs (NDIRECT + 1)))
                      ((bn - NDIRECT - NINDIRECT) / NINDIRECT))
                    (setU32 (σe.disk
                      (u32At (σe.disk (σe.ip.addrs (NDIRECT + 1)))
                        ((bn - NDIRECT - NINDIRECT) / NINDIRECT)))
                      ((bn - NDIRECT - NINDIRECT) % NINDIRECT) pb)) r :=
                blockOfRole_congr _ _ rfl rfl
              have hchgf : blockOfRole σf
                  (.d2 ((bn - NDIRECT - NINDIRECT) / NINDIRECT)
                    ((bn - NDIRECT - NINDIRECT) % NINDIRECT)) = pb := by
                rw [hcongf]; exact hchg4 hj0
              have hfrf : ∀ r,
                  r ≠ .d2 ((bn - NDIRECT - NINDIRECT) / NINDIRECT)
                    ((bn - NDIRECT - NINDIRECT) % NINDIRECT) →
                  blockOfRole σf r = blockOfRole σe r := fun r hr => by
                rw [hcongf]; exact hfr4 r hr
              have hfreshe : ∀ r, blockOfRole σe r ≠ pb := fun r => by
                rw [hrolee r]; exact (roles_ne_of_free σd pb hwd hfree3).2 r
              have hwf : WF σf := by
                refine WF_setRole σe σf hwe
                  (.d2 ((bn - NDIRECT - NINDIRECT) / NINDIRECT)
                    ((bn - NDIRECT - NINDIRECT) % NINDIRECT)) pb hb03 hfreshe
                  ?_ hchgf hfrf (fun x hx => hx) ?_ ?_
                · exact hmark3
                · exact hmonoe 0 (hmonoc 0 hw.zeroUsed)
                · exact hqe.sb_eq ▸ hqc.sb_eq ▸ hw.sbLe
              have hrole_chain : ∀ bn', bn' < MAXFILE → bn' ≠ bn →
                  blockOfRole σf (leafRole bn') =
                  blockOfRole σ (leafRole bn') := by
                intro bn' hlt' hne
                rw [hfrf _ (by
                  rw [← hleaf]
                  intro he
                  exact hne (leafRole_inj bn' bn hlt' hbnMF he)),
                  hrolee, hfrd _ ((leafRole_not_root bn').2.2 _), hrolec]
              refine ⟨hb03, ?_, hwf, ?_, ?_, ?_, ?_, ?_, ?_, ?_, ?_⟩
              · rw [logicalMap_eq_leafRole σf bn hbnMF, hleaf]
                exact hchgf
              · intro bn' hne
                by_cases hlt' : bn' < MAXFILE
                · rw [logicalMap_eq_leafRole σf bn' hlt',
                    logicalMap_eq_leafRole σ bn' hlt']
                  exact hrole_chain bn' hlt' hne
                · rw [logicalMap_zero_of_ge σf bn' hlt',
                    logicalMap_zero_of_ge σ bn' hlt']
              · intro hcon
                exact absurd hlm0 hcon
              · intro q hq
                have hqlt : q < MAXFILE := by
                  by_contra hge
                  exact hq (logicalMap_zero_of_ge σ q hge)
                have hlmrole : logicalMap σ q = blockOfRole σ (leafRole q) :=
                  logicalMap_eq_leafRole σ q hqlt
                have hnl1 : logicalMap σ q ≠ l1 := by
                  rw [hlmrole]
                  exact (roles_ne_of_free σ l1 hw hfreel1).2 _
                have hnroot : logicalMap σ q ≠ σ.ip.addrs (NDIRECT + 1) :=
                  lm_ne_rootval σ hw q hq .droot
                    (fun b => (leafRole_not_root b).2.1) hroot
                have hnpb : logicalMap σ q ≠ pb := by
                  rw [hlmrole]
                  intro he
                  refine (roles_ne_of_free σd pb hwd hfree3).2 (leafRole q) ?_
                  rw [hfrd _ ((leafRole_not_root q).2.2 _), hrolec]
                  exact he
                show updf σe.disk _ _ (logicalMap σ q) = _
                rw [updf_ne _ _ _ _ (by rw [hLe]; exact hnl1)]
                have he1 : σe.disk (logicalMap σ q) = σd.disk (logicalMap σ q) := by
                  have := hdiskleafe q (by rw [hlmd]; exact hq)
                  rwa [hlmd] at this
                rw [he1]
                have he2 : σd.disk (logicalMap σ q) = σc.disk (logicalMap σ q) := by
                  show updf σc.disk (σc.ip.addrs (NDIRECT + 1)) _ _ = _
                  rw [updf_ne _ _ _ _ (by rw [hcroot]; exact hnroot)]
                rw [he2]
                exact hdiskleafc q hq
              · intro _ hz
                subst hz
                show updf σe.disk _ _ pb = zeroBlk
                rw [updf_ne _ _ _ _ (by rw [hLe]; exact hpbl1)]
                rw [hdiske]
                simp only [reduceIte]
                exact updf_self _ _ _
              · intro _
                have h1 : σd.freemap pb = σc.freemap pb := rfl
                have h3 := hfmc' pb
                rw [h1, h3, if_neg hpbl1] at hfree3
                exact hfree3
              · intro x hx
                exact hmonoe x (hmonoc x hx)
              · exact hqc.trans
                  ((⟨rfl, rfl, rfl, rfl, rfl, rfl, rfl, rfl, rfl, rfl⟩ :
                    Quiet σc σd).trans
                    (hqe.trans
                      (⟨rfl, rfl, rfl, rfl, rfl, rfl, rfl, rfl, rfl, rfl⟩ :
                        Quiet σe σf)))
              · rw [show σf.tfreed = σe.tfreed from rfl, htfe,
                  show σd.tfreed = σc.tfreed from rfl, htfc]
    -- existing first-level block
    · rw [if_neg hl1e] at h
      simp only [] at h
      by_cases hent : u32At
          (σ.disk (u32At (σ.disk (σ.ip.addrs (NDIRECT + 1)))
            ((bn - NDIRECT - NINDIRECT) / NINDIRECT)))
          ((bn - NDIRECT - NINDIRECT) % NINDIRECT) = 0
      -- fresh leaf under an existing chain
      · rw [if_pos hent] at h
        have hlm0 : logicalMap σ bn = 0 := by
          rw [hlmval]
          simp only [blockOfRole]
          rw [if_pos ⟨hroot, hi0, hj0⟩, if_pos hl1e]
          exact hent
        cases hb3 : balloc σ u z with
        | none => rw [hb3] at h; exact absurd h (by simp)
        | some p3 =>
            obtain ⟨b3, σe⟩ := p3
            rw [hb3] at h
            simp only [BRes.ok.injEq] at h
            obtain ⟨hpb, hσ'⟩ := h
            rw [hpb] at hb3
            subst hσ'
            rw [hpb]
            obtain ⟨hb03, hfree3, hwe, hrolee, hlme, hdiskleafe, hfbe,
              hmonoe, hipe, hqe, hmark3, htfe⟩ :=
              balloc_wf σ u z pb σe hw hb3
            obtain ⟨-, hlt3, -, hfme, hdiske, -, -⟩ :=
              balloc_spec σ u z pb σe hb3
            have hpbU : pb < U32 := by
              have := hw.sbLe
              omega
            have hd1val : blockOfRole σ
                (.d1 ((bn - NDIRECT - NINDIRECT) / NINDIRECT)) =
                u32At (σ.disk (σ.ip.addrs (NDIRECT + 1)))
                  ((bn - NDIRECT - NINDIRECT) / NINDIRECT) := by
              simp only [blockOfRole]
              rw [if_pos ⟨hroot, hi0⟩]
            have hpbl1 : pb ≠ u32At (σ.disk (σ.ip.addrs (NDIRECT + 1)))
                ((bn - NDIRECT - NINDIRECT) / NINDIRECT) := by
              intro he
              refine (roles_ne_of_free σ pb hw hfree3).2
                (.d1 ((bn - NDIRECT - NINDIRECT) / NINDIRECT)) ?_
              rw [hd1val]
              exact he.symm
            have hpbroot : pb ≠ σ.ip.addrs (NDIRECT + 1) := by
              intro he
              exact (roles_ne_of_free σ pb hw hfree3).2 .droot he.symm
            have hed : σe.ip.addrs (NDIRECT + 1) = σ.ip.addrs (NDIRECT + 1) := by
              rw [hipe]
            have hediskd : σe.disk (σ.ip.addrs (NDIRECT + 1)) =
                σ.disk (σ.ip.addrs (NDIRECT + 1)) := by
              rw [hdiske]
              cases z
              · simp
              · simp only [reduceIte]
                rw [updf_ne _ _ _ _ (fun he => hpbroot he.symm)]
            have hLe : u32At (σe.disk (σe.ip.addrs (NDIRECT + 1)))
                ((bn - NDIRECT - NINDIRECT) / NINDIRECT) =
                u32At (σ.disk (σ.ip.addrs (NDIRECT + 1)))
                  ((bn - NDIRECT - NINDIRECT) / NINDIRECT) := by
              rw [hed, hediskd]
            rw [← hLe]
            obtain ⟨hchg4, hfr4⟩ := roles_setU32_l1 σe hwe
              ((bn - NDIRECT - NINDIRECT) / NINDIRECT)
              ((bn - NDIRECT - NINDIRECT) % NINDIRECT) pb
              (by rw [hed]; exact hroot) hi0 (by rw [hLe]; exact hl1e) hpbU
            set σf : St :=
              { σe with
                disk := updf σe.disk
                  (u32At (σe.disk (σe.ip.addrs (NDIRECT + 1)))
                    ((bn - NDIRECT - NINDIRECT) / NINDIRECT))
                  (setU32 (σe.disk
                    (u32At (σe.disk (σe.ip.addrs (NDIRECT + 1)))
                      ((bn - NDIRECT - NINDIRECT) / NINDIRECT)))
                    ((bn - NDIRECT - NINDIRECT) % NINDIRECT) pb),
                tlogged := if u = true then σe.tlogged ++
                  [u32At (σe.disk (σe.ip.addrs (NDIRECT + 1)))
                    ((bn - NDIRECT - NINDIRECT) / NINDIRECT)]
                  else σe.tlogged } with hσf
            have hcongf : ∀ r, blockOfRole σf r =
                blockOfRole (diskUpd σe
                  (u32At (σe.disk (σe.ip.addrs (NDIRECT + 1)))
                    ((bn - NDIRECT - NINDIRECT) / NINDIRECT))
                  (setU32 (σe.disk
                    (u32At (σe.disk (σe.ip.addrs (NDIRECT + 1)))
                      ((bn - NDIRECT - NINDIRECT) / NINDIRECT)))
                    ((bn - NDIRECT - NINDIRECT) % NINDIRECT) pb)) r :=
              blockOfRole_congr _ _ rfl rfl
            have hchgf : blockOfRole σf
                (.d2 ((bn - NDIRECT - NINDIRECT) / NINDIRECT)
                  ((bn - NDIRECT - NINDIRECT) % NINDIRECT)) = pb := by
              rw [hcongf]; exact hchg4 hj0
            have hfrf : ∀ r,
                r ≠ .d2 ((bn - NDIRECT - NINDIRECT) / NINDIRECT)
                  ((bn - NDIRECT - NINDIRECT) % NINDIRECT) →
                blockOfRole σf r = blockOfRole σe r := fun r hr => by
              rw [hcongf]; exact hfr4 r hr
            have hfreshe : ∀ r, blockOfRole σe r ≠ pb := fun r => by
              rw [hrolee r]; exact (roles_ne_of_free σ pb hw hfree3).2 r
            have hwf : WF σf := by
              refine WF_setRole σe σf hwe
                (.d2 ((bn - NDIRECT - NINDIRECT) / NINDIRECT)
                  ((bn - NDIRECT - NINDIRECT) % NINDIRECT)) pb hb03 hfreshe
                ?_ hchgf hfrf (fun x hx => hx) ?_ ?_
              · exact hmark3
              · exact hmonoe 0 hw.zeroUsed
              · exact hqe.sb_eq ▸ hw.sbLe
            refine ⟨hb03, ?_, hwf, ?_, ?_, ?_, ?_, ?_, ?_, ?_, ?_⟩
            · rw [logicalMap_eq_leafRole σf bn hbnMF, hleaf]
              exact hchgf
            · intro bn' hne
              by_cases hlt' : bn' < MAXFILE
              · rw [logicalMap_eq_leafRole σf bn' hlt',
                  logicalMap_eq_leafRole σ bn' hlt']
                rw [hfrf _ (by
                  rw [← hleaf]
                  intro he
                  exact hne (leafRole_inj bn' bn hlt' hbnMF he)), hrolee]
              · rw [logicalMap_zero_of_ge σf bn' hlt',
                  logicalMap_zero_of_ge σ bn' hlt']
            · intro hcon
              exact absurd hlm0 hcon
            · intro q hq
              have hnl1 : logicalMap σ q ≠
                  u32At (σ.disk (σ.ip.addrs (NDIRECT + 1)))
                    ((bn - NDIRECT - NINDIRECT) / NINDIRECT) := by
                rw [← hd1val]
                exact lm_ne_rootval σ hw q hq _
                  (fun b => (leafRole_not_root b).2.2 _) (by rw [hd1val]; exact hl1e)
              show updf σe.disk _ _ (logicalMap σ q) = _
              rw [updf_ne _ _ _ _ (by rw [hLe]; exact hnl1)]
              exact hdiskleafe q hq
            · intro _ hz
              subst hz
              show updf σe.disk _ _ pb = zeroBlk
              rw [updf_ne _ _ _ _ (by rw [hLe]; exact hpbl1)]
              rw [hdiske]
              simp only [reduceIte]
              exact updf_self _ _ _
            · intro _
              exact hfree3
            · intro x hx
              exact hmonoe x hx
            · exact hqe.trans
                (⟨rfl, rfl, rfl, rfl, rfl, rfl, rfl, rfl, rfl, rfl⟩ :
                  Quiet σe σf)
            · rw [show σf.tfreed = σe.tfreed from rfl, htfe]
      -- fully mapped already
      · rw [if_neg hent] at h
        simp only [BRes.ok.injEq] at h
        obtain ⟨hpb, hσ'⟩ := h
        subst hσ'
        have hlm : logicalMap σ bn = u32At
            (σ.disk (u32At (σ.disk (σ.ip.addrs (NDIRECT + 1)))
              ((bn - NDIRECT - NINDIRECT) / NINDIRECT)))
            ((bn - NDIRECT - NINDIRECT) % NINDIRECT) := by
          rw [hlmval]
          simp only [blockOfRole]
          rw [if_pos ⟨hroot, hi0, hj0⟩, if_pos hl1e]
        refine ⟨?_, ?_, hw, fun _ _ => rfl, fun _ => ⟨rfl, ?_⟩, fun _ _ => rfl,
          ?_, ?_, fun _ hx => hx, Quiet.refl σ, rfl⟩
        · rw [← hpb]; exact hent
        · rw [hlm, hpb]
        · rw [hlm, hpb]
        · intro hcon
          rw [hlm] at hcon
          exact absurd hcon hent
        · intro hcon
          rw [hlm] at hcon
          exact absurd hcon hent

theorem bmap_ok (σ : St) (bn : Nat) (u z : Bool) (pb : Nat) (σ' : St)
    (hw : WF σ) (h : bmap σ bn u z = .ok pb σ') : BmapOk σ z bn pb σ' := by
  by_cases h1 : bn < NDIRECT
  · exact bmap_ok_direct σ bn u z pb σ' hw h1 h
  · by_cases h2 : bn - NDIRECT < NINDIRECT
    · exact bmap_ok_ind σ bn u z pb σ' hw h1 h2 h
    · by_cases h3 : bn - NDIRECT - NINDIRECT ≥ NINDIRECT * NINDIRECT
      · exfalso
        unfold bmap at h
        rw [if_neg h1] at h
        simp only [if_neg h2, if_pos h3] at h
        exact absurd h (by simp)
      · exact bmap_ok_dbl σ bn u z pb σ' hw h1 h2 h3 h

theorem bmap_noblocks_quiet (σ : St) (bn : Nat) (u z : Bool) (σ₁ : St)
    (h : bmap σ bn u z = .noblocks σ₁) :
    Quiet σ σ₁ ∧ σ₁.tfreed = σ.tfreed := by
  unfold bmap at h
  by_cases h1 : bn < NDIRECT
  · rw [if_pos h1] at h
    split at h
    · split at h
      · injection h with h2
        subst h2
        exact ⟨Quiet.refl σ, rfl⟩
      · simp at h
    · simp at h
  · rw [if_neg h1] at h
    by_cases h2 : bn - NDIRECT < NINDIRECT
    · simp only [if_pos h2] at h
      split at h
      · injection h with h2'
        subst h2'
        exact ⟨Quiet.refl σ, rfl⟩
      · rename_i x root σX heq
        have hqX : Quiet σ σX ∧ σX.tfreed = σ.tfreed := by
          split at heq
          · split at heq
            · simp at heq
            · rename_i p b σa heq2
              simp only [Option.some.injEq, Prod.mk.injEq] at heq
              obtain ⟨-, h4⟩ := heq
              subst h4
              obtain ⟨-, -, -, -, -, hqa, htfa⟩ :=
                balloc_spec σ u true b σa heq2
              exact ⟨hqa.trans ⟨rfl, rfl, rfl, rfl, rfl, rfl, rfl, rfl, rfl,
                rfl⟩, htfa⟩
          · simp only [Option.some.injEq, Prod.mk.injEq] at heq
            obtain ⟨-, h4⟩ := heq
            subst h4
            exact ⟨Quiet.refl σ, rfl⟩
        split at h
        · split at h
          · injection h with h2'
            subst h2'
            exact hqX
          · simp at h
        · simp at h
    · simp only [if_neg h2] at h
      by_cases h3 : bn - NDIRECT - NINDIRECT ≥ NINDIRECT * NINDIRECT
      · simp only [if_pos h3] at h
        simp at h
      · simp only [if_neg h3] at h
        split at h
        · injection h with h2'
          subst h2'
          exact ⟨Quiet.refl σ, rfl⟩
        · rename_i x droot σX heq
          have hqX : Quiet σ σX ∧ σX.tfreed = σ.tfreed := by
            split at heq
            · split at heq
              · simp at heq
              · rename_i p b σa heq2
                simp only [Option.some.injEq, Prod.mk.injEq] at heq
                obtain ⟨-, h4⟩ := heq
                subst h4
                obtain ⟨-, -, -, -, -, hqa, htfa⟩ :=
                  balloc_spec σ u true b σa heq2
                exact ⟨hqa.trans ⟨rfl, rfl, rfl, rfl, rfl, rfl, rfl, rfl,
                  rfl, rfl⟩, htfa⟩
            · simp only [Option.some.injEq, Prod.mk.injEq] at heq
              obtain ⟨-, h4⟩ := heq
              subst h4
              exact ⟨Quiet.refl σ, rfl⟩
          split at h
          · injection h with h2'
            subst h2'
            exact hqX
          · rename_i y l1 σY heq3
            have hqY : Quiet σX σY ∧ σY.tfreed = σX.tfreed := by
              split at heq3
              · split at heq3
                · simp at heq3
                · rename_i p2 c σc heq4
                  simp only [Option.some.injEq, Prod.mk.injEq] at heq3
                  obtain ⟨-, h4⟩ := heq3
                  subst h4
                  obtain ⟨-, -, -, -, -, hqc, htfc⟩ :=
                    balloc_spec σX u true c σc heq4
                  exact ⟨hqc.trans ⟨rfl, rfl, rfl, rfl, rfl, rfl, rfl, rfl,
                    rfl, rfl⟩, htfc⟩
              · simp only [Option.some.injEq, Prod.mk.injEq] at heq3
                obtain ⟨-, h4⟩ := heq3
                subst h4
                exact ⟨Quiet.refl σX, rfl⟩
            split at h
            · split at h
              · injection h with h2'
                subst h2'
                exact ⟨hqX.1.trans hqY.1, hqY.2.trans hqX.2⟩
              · simp at h
            · simp at h

theorem BmapOk.fb_out {σ : St} {z : Bool} {bn pb : Nat} {σ' : St}
    (B : BmapOk σ z bn pb σ') :
    ∀ j, j / BSIZE ≠ bn → fileByte σ' j = fileByte σ j := by
  intro j hj
  unfold fileByte
  rw [B.mapFrame _ hj]
  by_cases hz : logicalMap σ (j / BSIZE) = 0
  · rw [hz]; rfl
  · simp only [if_neg hz]
    rw [B.leafFrame _ hz]

theorem BmapOk.fb_all {σ : St} {z : Bool} {bn pb : Nat} {σ' : St}
    (B : BmapOk σ z bn pb σ') (hz : z = true) :
    ∀ j, fileByte σ' j = fileByte σ j := by
  intro j
  by_cases hj : j / BSIZE = bn
  · by_cases hold : logicalMap σ bn ≠ 0
    · rw [(B.oldSame hold).1]
    · push_neg at hold
      unfold fileByte
      rw [hj, B.mapped, hold]
      simp only [if_neg B.pbne, if_pos rfl]
      rw [B.holeZero hold hz]
      simp [zeroBlk]
  · exact B.fb_out j hj

theorem rootvals_ne_leafval (σ : St) (hw : WF σ) (bn : Nat)
    (hbn : bn < MAXFILE) (hval : logicalMap σ bn ≠ 0) :
    blockOfRole σ .iroot ≠ logicalMap σ bn ∧
    blockOfRole σ .droot ≠ logicalMap σ bn ∧
    ∀ i, blockOfRole σ (.d1 i) ≠ logicalMap σ bn := by
  rw [logicalMap_eq_leafRole σ bn hbn] at hval ⊢
  have hni := leafRole_not_root bn
  refine ⟨?_, ?_, fun i => ?_⟩
  · by_cases h0 : blockOfRole σ .iroot = 0
    · rw [h0]; exact fun he => hval he.symm
    · exact roleval_ne σ hw .iroot (leafRole bn) h0 (fun he => hni.1 he.symm)
  · by_cases h0 : blockOfRole σ .droot = 0
    · rw [h0]; exact fun he => hval he.symm
    · exact roleval_ne σ hw .droot (leafRole bn) h0 (fun he => hni.2.1 he.symm)
  · by_cases h0 : blockOfRole σ (.d1 i) = 0
    · rw [h0]; exact fun he => hval he.symm
    · exact roleval_ne σ hw (.d1 i) (leafRole bn) h0
        (fun he => hni.2.2 i he.symm)

/-- Writing the data block that backs logical block bn (as writei's loop
body does) leaves the block map, the allocator and the other logical blocks
untouched. -/
theorem leafwrite_preserve (σ₁ σ₂ : St) (hw₁ : WF σ₁) (bn : Nat)
    (hbn : bn < MAXFILE) (hpb : logicalMap σ₁ bn ≠ 0) (blk : Blk)
    (hip2 : σ₂.ip = σ₁.ip)
    (hdisk2 : σ₂.disk = updf σ₁.disk (logicalMap σ₁ bn) blk)
    (hfm2 : σ₂.freemap = σ₁.freemap) (hsb2 : σ₂.sbSize = σ₁.sbSize) :
    (∀ r, blockOfRole σ₂ r = blockOfRole σ₁ r) ∧ WF σ₂ ∧
    (∀ q, logicalMap σ₂ q = logicalMap σ₁ q) ∧
    (∀ j, j / BSIZE ≠ bn → fileByte σ₂ j = fileByte σ₁ j) ∧
    (∀ j, j / BSIZE = bn → fileByte σ₂ j = blk (j % BSIZE)) := by
  obtain ⟨hir, hdr, hd1⟩ := rootvals_ne_leafval σ₁ hw₁ bn hbn hpb
  have hroles : ∀ r, blockOfRole σ₂ r = blockOfRole σ₁ r := by
    intro r
    have step1 : blockOfRole σ₂ r =
        blockOfRole (diskUpd σ₁ (logicalMap σ₁ bn) blk) r :=
      blockOfRole_congr _ _ (by rw [hip2]; rfl) (by rw [hdisk2]; rfl) r
    rw [step1]
    exact blockOfRole_diskupd σ₁ (logicalMap σ₁ bn) blk hpb hir hdr hd1 r
  have hwf : WF σ₂ := WF_of σ₁ σ₂ hw₁ hroles
    (fun x hx => by rw [hfm2]; exact hx)
    (by rw [hfm2]; exact hw₁.zeroUsed) (by rw [hsb2]; exact hw₁.sbLe)
  have hlm : ∀ q, logicalMap σ₂ q = logicalMap σ₁ q := logicalMap_congr _ _ hroles
  refine ⟨hroles, hwf, hlm, ?_, ?_⟩
  · intro j hj
    unfold fileByte
    rw [hlm]
    by_cases hz : logicalMap σ₁ (j / BSIZE) = 0
    · rw [hz]; rfl
    · simp only [if_neg hz]
      have hqlt : j / BSIZE < MAXFILE := by
        by_contra hge
        exact hz (logicalMap_zero_of_ge σ₁ _ hge)
      have hne : logicalMap σ₁ (j / BSIZE) ≠ logicalMap σ₁ bn := by
        rw [logicalMap_eq_leafRole σ₁ _ hqlt] at hz ⊢
        rw [logicalMap_eq_leafRole σ₁ _ hbn]
        refine roleval_ne σ₁ hw₁ _ _ hz ?_
        intro he
        exact hj (leafRole_inj _ _ hqlt hbn he)
      rw [hdisk2, updf_ne _ _ _ _ hne]
  · intro j hj
    unfold fileByte
    rw [hlm, hj]
    simp only [if_neg hpb]
    rw [hdisk2, updf_self]

theorem BmapOk.bnlt {σ : St} {z : Bool} {bn pb : Nat} {σ' : St}
    (B : BmapOk σ z bn pb σ') : bn < MAXFILE := by
  by_contra hge
  exact B.pbne (B.mapped.symm.trans (logicalMap_zero_of_ge σ' bn hge))

theorem writeLoop_nil (σ : St) (off : Nat) (ut wb : Bool) :
    writeLoop σ [] off ut wb = some (0, σ, true) := by
  rw [writeLoop]

theorem fileByte_eq (σ : St) (k : Nat) :
    fileByte σ k = if logicalMap σ (k / BSIZE) = 0 then 0
      else σ.disk (logicalMap σ (k / BSIZE)) (k % BSIZE) := rfl

/-- Full specification of the writei loop: it never touches the inode
metadata, writes at most the requested bytes, and on a complete run writes
exactly the source bytes at [off, off+len) leaving every other logical byte
unchanged. -/
theorem writeLoop_spec (N : Nat) : ∀ (σ : St) (cur : List Nat) (off : Nat)
    (ut wb : Bool) (k : Nat) (σ' : St) (ok : Bool),
    cur.length ≤ N → WF σ →
    writeLoop σ cur off ut wb = some (k, σ', ok) →
    (Quiet σ σ' ∧ σ'.tfreed = σ.tfreed) ∧ k ≤ cur.length ∧
    (ok = true → k = cur.length) ∧
    (k = cur.length → WF σ' ∧
      (∀ x, σ.freemap x = true → σ'.freemap x = true) ∧
      (∀ j, j < off ∨ off + k ≤ j → fileByte σ' j = fileByte σ j) ∧
      (∀ i, i < k → fileByte σ' (off + i) = cur.getD i 0) ∧
      (∀ q, logicalMap σ q ≠ 0 → logicalMap σ' q ≠ 0) ∧
      (∀ i, i < k → logicalMap σ' ((off + i) / BSIZE) ≠ 0)) := by
  induction N with
  | zero =>
      intro σ cur off ut wb k σ' ok hlen hw h
      have hc : cur = [] := List.length_eq_zero.mp (Nat.le_zero.mp hlen)
      subst hc
      rw [writeLoop_nil] at h
      simp only [Option.some.injEq, Prod.mk.injEq] at h
      obtain ⟨hk, hσ, hok⟩ := h
      subst hk; subst hσ; subst hok
      exact ⟨⟨Quiet.refl σ, rfl⟩, Nat.le_refl _, fun _ => rfl,
        fun _ => ⟨hw, fun x hx => hx, fun j _ => rfl,
          fun i hi => absurd hi (by omega), fun q hq => hq,
          fun i hi => absurd hi (by omega)⟩⟩
  | succ n ih =>
      intro σ cur off ut wb k σ' ok hlen hw h
      cases cur with
      | nil =>
          rw [writeLoop_nil] at h
          simp only [Option.some.injEq, Prod.mk.injEq] at h
          obtain ⟨hk, hσ, hok⟩ := h
          subst hk; subst hσ; subst hok
          exact ⟨⟨Quiet.refl σ, rfl⟩, Nat.le_refl _, fun _ => rfl,
            fun _ => ⟨hw, fun x hx => hx, fun j _ => rfl,
              fun i hi => absurd hi (by omega), fun q hq => hq,
              fun i hi => absurd hi (by omega)⟩⟩
      | cons a as =>
          rw [writeLoop] at h
          split at h
          · simp at h
          · -- out of blocks: the loop stops with zero bytes from here on
            rename_i σ₁ heq
            simp only [Option.some.injEq, Prod.mk.injEq] at h
            obtain ⟨hk, hσ, hok⟩ := h
            subst hk; subst hσ; subst hok
            obtain ⟨hq, ht⟩ := bmap_noblocks_quiet σ (off / BSIZE) ut _ _ heq
            exact ⟨⟨hq, ht⟩, Nat.zero_le _,
              fun hff => absurd hff (by decide),
              fun hff => absurd hff (by simp)⟩
          · -- bmap succeeded: one block is (re)written, then the loop recurses
            rename_i pb σ₁ heq
            simp only [] at h
            split at h
            · simp at h
            · rename_i k2 σ₃ ok2 heq2
              simp only [Option.some.injEq, Prod.mk.injEq] at h
              obtain ⟨hk, hσ, hok⟩ := h
              subst hk; subst hσ; subst hok
              have B := bmap_ok σ (off / BSIZE) ut _ pb σ₁ hw heq
              have hB : BSIZE = 4096 := rfl
              have hmodB : off % BSIZE < BSIZE := Nat.mod_lt _ (by decide)
              have hmle : min (a :: as).length (BSIZE - off % BSIZE) ≤
                  (a :: as).length := min_le_left _ _
              have hmle2 : min (a :: as).length (BSIZE - off % BSIZE) ≤
                  BSIZE - off % BSIZE := min_le_right _ _
              have hbn : off / BSIZE < MAXFILE := B.bnlt
              have hpb : logicalMap σ₁ (off / BSIZE) ≠ 0 := by
                rw [B.mapped]; exact B.pbne
              obtain ⟨hroles2, hwf2, hlm2, hout2, hin2⟩ :=
                leafwrite_preserve σ₁
                  { ip := σ₁.ip,
                    disk := updf σ₁.disk pb (fun i =>
                      if off % BSIZE ≤ i ∧
                          i < off % BSIZE +
                            min (a :: as).length (BSIZE - off % BSIZE) then
                        (a :: as).getD (i - off % BSIZE) 0
                      else (if off % BSIZE = 0 ∧
                          min (a :: as).length (BSIZE - off % BSIZE) = BSIZE
                        then zeroBlk else σ₁.disk pb) i),
                    freemap := σ₁.freemap, sbSize := σ₁.sbSize,
                    ninodes := σ₁.ninodes, itable := σ₁.itable,
                    onlink := σ₁.onlink,
                    tlogged := if (!wb && ut) = true then σ₁.tlogged ++ [pb]
                      else σ₁.tlogged,
                    tallocated := σ₁.tallocated, tfreed := σ₁.tfreed }
                  B.wf (off / BSIZE) hbn hpb
                  (fun i =>
                    if off % BSIZE ≤ i ∧
                        i < off % BSIZE +
                          min (a :: as).length (BSIZE - off % BSIZE) then
                      (a :: as).getD (i - off % BSIZE) 0
                    else (if off % BSIZE = 0 ∧
                        min (a :: as).length (BSIZE - off % BSIZE) = BSIZE
                      then zeroBlk else σ₁.disk pb) i)
                  rfl (by rw [B.mapped]) rfl rfl
              have hlen2 : (List.drop
                  (min (a :: as).length (BSIZE - off % BSIZE))
                  (a :: as)).length ≤ n := by
                rw [List.length_drop]
                simp only [List.length_cons] at hlen ⊢
                simp only [hB] at hmodB ⊢
                omega
              have IH := ih _ (List.drop
                  (min (a :: as).length (BSIZE - off % BSIZE)) (a :: as))
                (off + min (a :: as).length (BSIZE - off % BSIZE)) ut wb
                k2 σ₃ ok2 hlen2 hwf2 heq2
              obtain ⟨⟨IHq, IHt⟩, IHle, IHoklen, IHfull⟩ := IH
              rw [List.length_drop] at IHle
              refine ⟨⟨B.quiet.trans ((⟨IHq.inum_eq, IHq.typ_eq,
                  IHq.size_eq, IHq.nlink_eq, IHq.dir_eq, IHq.dirOffset_eq,
                  IHq.itable_eq, IHq.onlink_eq, IHq.sb_eq, IHq.nin_eq⟩ :
                  Quiet σ₁ σ₃)),
                IHt.trans B.tfr⟩, ?_, ?_, ?_⟩
              · simp only [List.length_cons] at hmle IHle ⊢
                omega
              · intro hok2
                have hk2 := IHoklen hok2
                rw [List.length_drop] at hk2
                simp only [List.length_cons] at hmle hk2 ⊢
                omega
              · intro hklen
                have hk2len : k2 = (List.drop
                    (min (a :: as).length (BSIZE - off % BSIZE))
                    (a :: as)).length := by
                  rw [List.length_drop]
                  simp only [List.length_cons] at hmle hklen ⊢
                  omega
                obtain ⟨IHwf, IHmono, IHframe, IHcontent, IHlm, IHcov⟩ :=
                  IHfull hk2len
                refine ⟨IHwf, ?_, ?_, ?_, ?_, ?_⟩
                · intro x hx
                  exact IHmono x (B.mono x hx)
                · -- frame: bytes outside [off, off+k) are untouched
                  intro j hj
                  have hstep1 : fileByte σ₃ j =
                      fileByte _ j := IHframe j (by
                    rcases hj with hj | hj
                    · exact Or.inl (by omega)
                    · exact Or.inr (by omega))
                  rw [hstep1]
                  by_cases hjb : j / BSIZE = off / BSIZE
                  · have h2 := hin2 j hjb
                    rw [h2]
                    by_cases hskip : off % BSIZE = 0 ∧
                        min (a :: as).length (BSIZE - off % BSIZE) = BSIZE
                    · exfalso
                      obtain ⟨ho0, hmB⟩ := hskip
                      simp only [hB] at hjb hj ho0 hmB
                      omega
                    · have hrange : ¬ (off % BSIZE ≤ j % BSIZE ∧
                          j % BSIZE < off % BSIZE +
                            min (a :: as).length (BSIZE - off % BSIZE)) := by
                        simp only [hB] at hjb hj hmle2 ⊢
                        omega
                      rw [if_neg hrange, if_neg hskip]
                      have hz : (!decide (off % BSIZE = 0 ∧
                          min (a :: as).length (BSIZE - off % BSIZE) = BSIZE))
                          = true := by
                        rw [decide_eq_false hskip]; rfl
                      by_cases hold : logicalMap σ (off / BSIZE) = 0
                      · rw [B.holeZero hold hz]
                        rw [fileByte_eq, hjb, if_pos hold]
                        rfl
                      · obtain ⟨hσeq, hpbeq⟩ := B.oldSame hold
                        subst hσeq
                        rw [fileByte_eq, hjb, if_neg hold, hpbeq]
                  · exact (hout2 j hjb).trans (B.fb_out j hjb)
                · -- content: byte i of the write lands at off+i
                  intro i hi
                  by_cases him : i <
                      min (a :: as).length (BSIZE - off % BSIZE)
                  · have hfr := IHframe (off + i) (Or.inl (by omega))
                    rw [hfr]
                    have hmodeq : (off + i) % BSIZE = off % BSIZE + i := by
                      simp only [hB] at him hmodB hmle2 ⊢
                      omega
                    have hdiv : (off + i) / BSIZE = off / BSIZE := by
                      simp only [hB] at him hmodB hmle2 ⊢
                      omega
                    have h2 := hin2 (off + i) hdiv
                    rw [h2, hmodeq]
                    rw [if_pos ⟨Nat.le_add_right _ _, by omega⟩]
                    rw [Nat.add_sub_cancel_left]
                  · have hi2 : i - min (a :: as).length (BSIZE - off % BSIZE)
                        < k2 := by omega
                    have h3 := IHcontent _ hi2
                    have hoff : off + min (a :: as).length
                        (BSIZE - off % BSIZE) +
                        (i - min (a :: as).length (BSIZE - off % BSIZE)) =
                        off + i := by omega
                    rw [hoff] at h3
                    rw [h3]
                    have h4 : (List.drop
                        (min (a :: as).length (BSIZE - off % BSIZE))
                        (a :: as)).getD
                        (i - min (a :: as).length (BSIZE - off % BSIZE)) 0 =
                        (a :: as).getD
                        (min (a :: as).length (BSIZE - off % BSIZE) +
                          (i - min (a :: as).length (BSIZE - off % BSIZE)))
                        0 := by
                      simp [List.getD, List.getElem?_drop]
                    rw [h4]
                    have hmi : min (a :: as).length (BSIZE - off % BSIZE) +
                        (i - min (a :: as).length (BSIZE - off % BSIZE)) =
                        i := by omega
                    rw [hmi]
                · -- every block already mapped stays mapped
                  intro q hq
                  have hq1 : logicalMap σ₁ q ≠ 0 := by
                    by_cases hqb : q = off / BSIZE
                    · rw [hqb, B.mapped]; exact B.pbne
                    · rw [B.mapFrame q hqb]; exact hq
                  refine IHlm q ?_
                  rw [hlm2 q]; exact hq1
                · -- every block the write covered is mapped afterwards
                  intro i hi
                  by_cases him : i <
                      min (a :: as).length (BSIZE - off % BSIZE)
                  · have hdiv : (off + i) / BSIZE = off / BSIZE := by
                      simp only [hB] at him hmodB hmle2 ⊢
                      omega
                    rw [hdiv]
                    refine IHlm (off / BSIZE) ?_
                    rw [hlm2, B.mapped]; exact B.pbne
                  · have hi2 : i - min (a :: as).length (BSIZE - off % BSIZE)
                        < k2 := by omega
                    have h3 := IHcov _ hi2
                    have hoff : off + min (a :: as).length
                        (BSIZE - off % BSIZE) +
                        (i - min (a :: as).length (BSIZE - off % BSIZE)) =
                        off + i := by omega
                    rw [hoff] at h3
                    exact h3

/-- When the logical block is already mapped, bmap takes the lookup-only
paths: it returns the mapped physical block and leaves the state untouched. -/
theorem bmap_of_mapped (σ : St) (bn : Nat) (u z : Bool)
    (hlm : logicalMap σ bn ≠ 0) :
    bmap σ bn u z = .ok (logicalMap σ bn) σ := by
  by_cases h1 : bn < NDIRECT
  · have hd := logicalMap_dir σ bn h1
    unfold bmap
    rw [if_pos h1]
    rw [if_neg (show ¬ σ.ip.addrs bn = 0 by rw [← hd]; exact hlm), hd]
  · by_cases h2 : bn - NDIRECT < NINDIRECT
    · have hd := logicalMap_ind σ bn h1 h2
      have hroot : ¬ σ.ip.addrs NDIRECT = 0 := by
        intro h0
        rw [hd, if_neg (by simp [h0])] at hlm
        exact hlm rfl
      have hent : ¬ u32At (σ.disk (σ.ip.addrs NDIRECT)) (bn - NDIRECT) = 0 := by
        rw [hd, if_pos hroot] at hlm
        exact hlm
      have hval : logicalMap σ bn =
          u32At (σ.disk (σ.ip.addrs NDIRECT)) (bn - NDIRECT) := by
        rw [hd, if_pos hroot]
      unfold bmap
      rw [if_neg h1]
      simp only [if_pos h2]
      rw [if_neg hroot]
      simp only []
      rw [if_neg hent, hval]
    · have h3 : bn - NDIRECT - NINDIRECT < NINDIRECT * NINDIRECT := by
        by_contra h3
        refine hlm ?_
        unfold logicalMap
        rw [if_neg h1, if_neg h2, if_neg h3]
      have hd := logicalMap_dbl σ bn h1 h2 h3
      have hcond : σ.ip.addrs (NDIRECT + 1) ≠ 0 ∧
          (bn - NDIRECT - NINDIRECT) / NINDIRECT < NINDIRECT ∧
          (bn - NDIRECT - NINDIRECT) % NINDIRECT < NINDIRECT := by
        by_contra hc
        rw [hd] at hlm
        simp only [blockOfRole] at hlm
        rw [if_neg hc] at hlm
        exact hlm rfl
      have hl1 : ¬ u32At (σ.disk (σ.ip.addrs (NDIRECT + 1)))
          ((bn - NDIRECT - NINDIRECT) / NINDIRECT) = 0 := by
        intro h0
        rw [hd] at hlm
        simp only [blockOfRole] at hlm
        rw [if_pos hcond, if_neg (by simp [h0])] at hlm
        exact hlm rfl
      have hent : ¬ u32At (σ.disk (u32At (σ.disk (σ.ip.addrs (NDIRECT + 1)))
          ((bn - NDIRECT - NINDIRECT) / NINDIRECT)))
          ((bn - NDIRECT - NINDIRECT) % NINDIRECT) = 0 := by
        rw [hd] at hlm
        simp only [blockOfRole] at hlm
        rw [if_pos hcond, if_pos hl1] at hlm
        exact hlm
      have hval : logicalMap σ bn =
          u32At (σ.disk (u32At (σ.disk (σ.ip.addrs (NDIRECT + 1)))
            ((bn - NDIRECT - NINDIRECT) / NINDIRECT)))
          ((bn - NDIRECT - NINDIRECT) % NINDIRECT) := by
        rw [hd]
        simp only [blockOfRole]
        rw [if_pos hcond, if_pos hl1]
      have hdroot : ¬ σ.ip.addrs (NDIRECT + 1) = 0 := hcond.1
      unfold bmap
      rw [if_neg h1]
      simp only [if_neg h2, if_neg (show ¬ bn - NDIRECT - NINDIRECT ≥
        NINDIRECT * NINDIRECT from by omega)]
      rw [if_neg hdroot]
      simp only []
      rw [if_neg hl1]
      simp only []
      rw [if_neg hent, hval]

/-- When every block the read covers is already mapped, the readi loop
succeeds without touching the state and returns the logical file bytes. -/
theorem readLoop_total (N : Nat) : ∀ (σ : St) (off n : Nat), n ≤ N →
    (∀ j, j < n → logicalMap σ ((off + j) / BSIZE) ≠ 0) →
    readLoop σ off n =
      some ((List.range n).map (fun j => fileByte σ (off + j)), σ) := by
  induction N with
  | zero =>
      intro σ off n hn hcov
      have h0 : n = 0 := by omega
      subst h0
      rw [readLoop]
      simp
  | succ N ih =>
      intro σ off n hn hcov
      by_cases hn0 : n = 0
      · subst hn0
        rw [readLoop]
        simp
      · rw [readLoop]
        rw [dif_neg hn0]
        have hb0 : logicalMap σ (off / BSIZE) ≠ 0 := by
          have := hcov 0 (by omega)
          simpa using this
        rw [bmap_of_mapped σ (off / BSIZE) false true hb0]
        simp only []
        have hmodB : off % BSIZE < BSIZE := Nat.mod_lt _ (by decide)
        have hrec := ih σ (off + min n (BSIZE - off % BSIZE))
          (n - min n (BSIZE - off % BSIZE))
          (by omega)
          (by
            intro j hj
            have := hcov (min n (BSIZE - off % BSIZE) + j) (by omega)
            rw [← Nat.add_assoc] at this
            exact this)
        rw [hrec]
        simp only []
        have hbytes : (List.range (min n (BSIZE - off % BSIZE))).map
            (fun i => σ.disk (logicalMap σ (off / BSIZE)) (off % BSIZE + i)) =
            (List.range (min n (BSIZE - off % BSIZE))).map
            (fun j => fileByte σ (off + j)) := by
          refine List.map_congr_left (fun i hi => ?_)
          rw [List.mem_range] at hi
          have hB : BSIZE = 4096 := rfl
          have hdiv : (off + i) / BSIZE = off / BSIZE := by
            simp only [hB] at hi hmodB ⊢
            omega
          have hmodeq : (off + i) % BSIZE = off % BSIZE + i := by
            simp only [hB] at hi hmodB ⊢
            omega
          rw [fileByte_eq, hdiv, if_neg hb0, hmodeq]
        have hsplit : (List.range n).map (fun j => fileByte σ (off + j)) =
            (List.range (min n (BSIZE - off % BSIZE))).map
              (fun j => fileByte σ (off + j)) ++
            (List.range (n - min n (BSIZE - off % BSIZE))).map
              (fun j => fileByte σ
                (off + min n (BSIZE - off % BSIZE) + j)) := by
          conv_lhs => rw [show n = min n (BSIZE - off % BSIZE) +
            (n - min n (BSIZE - off % BSIZE)) from by omega]
          rw [List.range_add, List.map_append, List.map_map]
          refine congrArg _ ?_
          refine List.map_congr_left (fun j hj => ?_)
          show fileByte σ (off + (min n (BSIZE - off % BSIZE) + j)) = _
          rw [← Nat.add_assoc]
        rw [hsplit, hbytes]

theorem readLoop_zero (σ : St) (off : Nat) :
    readLoop σ off 0 = some ([], σ) := by
  rw [readLoop]
  rfl

set_option maxRecDepth 8000 in
/-- Postconditions of any successful readi loop: the logical contents are
unchanged (bmap zeroes any block it allocates for a hole), already-mapped
blocks stay mapped, every covered block is mapped afterwards, and the bytes
returned are the logical file bytes. -/
theorem readLoop_spec (N : Nat) : ∀ (σ : St) (off n : Nat)
    (dst : List Nat) (σ' : St), n ≤ N → WF σ →
    readLoop σ off n = some (dst, σ') →
    WF σ' ∧ Quiet σ σ' ∧
    (∀ j, fileByte σ' j = fileByte σ j) ∧
    (∀ q, logicalMap σ q ≠ 0 → logicalMap σ' q ≠ 0) ∧
    (∀ j, j < n → logicalMap σ' ((off + j) / BSIZE) ≠ 0) ∧
    dst = (List.range n).map (fun j => fileByte σ (off + j)) := by
  induction N with
  | zero =>
      intro σ off n dst σ' hn hw h
      have h0 : n = 0 := by omega
      subst h0
      rw [readLoop_zero] at h
      simp only [Option.some.injEq, Prod.mk.injEq] at h
      obtain ⟨hd, hσ⟩ := h
      subst hd; subst hσ
      exact ⟨hw, Quiet.refl σ, fun j => rfl, fun q hq => hq,
        fun j hj => absurd hj (by omega), by simp⟩
  | succ N ih =>
      intro σ off n dst σ' hn hw h
      by_cases hn0 : n = 0
      · subst hn0
        rw [readLoop_zero] at h
        simp only [Option.some.injEq, Prod.mk.injEq] at h
        obtain ⟨hd, hσ⟩ := h
        subst hd; subst hσ
        exact ⟨hw, Quiet.refl σ, fun j => rfl, fun q hq => hq,
          fun j hj => absurd hj (by omega), by simp⟩
      · rw [readLoop] at h
        rw [dif_neg hn0] at h
        split at h
        · simp at h
        · simp at h
        · rename_i pb σ₁ heq
          simp only [] at h
          split at h
          · simp at h
          · rename_i rest σ₂ heq2
            simp only [Option.some.injEq, Prod.mk.injEq] at h
            obtain ⟨hd, hσ⟩ := h
            subst hσ
            have B := bmap_ok σ (off / BSIZE) false true pb σ₁ hw heq
            have hmodB : off % BSIZE < BSIZE := Nat.mod_lt _ (by decide)
            have hfb1 : ∀ j, fileByte σ₁ j = fileByte σ j := B.fb_all rfl
            obtain ⟨IHwf, IHq, IHfb, IHlm, IHcov, IHdst⟩ :=
              ih σ₁ (off + min n (BSIZE - off % BSIZE))
                (n - min n (BSIZE - off % BSIZE)) rest _ (by omega)
                B.wf heq2
            have hpb1 : logicalMap σ₁ (off / BSIZE) ≠ 0 := by
              rw [B.mapped]; exact B.pbne
            refine ⟨IHwf, B.quiet.trans IHq,
              fun j => (IHfb j).trans (hfb1 j), ?_, ?_, ?_⟩
            · intro q hq
              refine IHlm q ?_
              by_cases hqb : q = off / BSIZE
              · rw [hqb]; exact hpb1
              · rw [B.mapFrame q hqb]; exact hq
            · intro j hj
              by_cases hjm : j < min n (BSIZE - off % BSIZE)
              · have hB : BSIZE = 4096 := rfl
                have hdiv : (off + j) / BSIZE = off / BSIZE := by
                  simp only [hB] at hjm hmodB ⊢
                  omega
                rw [hdiv]
                exact IHlm (off / BSIZE) hpb1
              · have h3 := IHcov (j - min n (BSIZE - off % BSIZE)) (by omega)
                rw [show off + min n (BSIZE - off % BSIZE) +
                  (j - min n (BSIZE - off % BSIZE)) = off + j from by omega]
                  at h3
                exact h3
            · subst hd
              have hbytes : (List.range (min n (BSIZE - off % BSIZE))).map
                  (fun i => σ₁.disk pb (off % BSIZE + i)) =
                  (List.range (min n (BSIZE - off % BSIZE))).map
                  (fun j => fileByte σ (off + j)) := by
                refine List.map_congr_left (fun i hi => ?_)
                rw [List.mem_range] at hi
                have hB : BSIZE = 4096 := rfl
                have hdiv : (off + i) / BSIZE = off / BSIZE := by
                  simp only [hB] at hi hmodB ⊢
                  omega
                have hmodeq : (off + i) % BSIZE = off % BSIZE + i := by
                  simp only [hB] at hi hmodB ⊢
                  omega
                rw [← hfb1 (off + i), fileByte_eq, hdiv, if_neg hpb1,
                  hmodeq, B.mapped]
              have hrest : (List.range
                  (n - min n (BSIZE - off % BSIZE))).map
                  (fun j => fileByte σ₁
                    (off + min n (BSIZE - off % BSIZE) + j)) =
                  (List.range (n - min n (BSIZE - off % BSIZE))).map
                  (fun j => fileByte σ
                    (off + min n (BSIZE - off % BSIZE) + j)) := by
                refine List.map_congr_left (fun j hj => ?_)
                exact hfb1 _
              have hsplit : (List.range n).map
                  (fun j => fileByte σ (off + j)) =
                  (List.range (min n (BSIZE - off % BSIZE))).map
                    (fun j => fileByte σ (off + j)) ++
                  (List.range (n - min n (BSIZE - off % BSIZE))).map
                    (fun j => fileByte σ
                      (off + min n (BSIZE - off % BSIZE) + j)) := by
                conv_lhs => rw [show n = min n (BSIZE - off % BSIZE) +
                  (n - min n (BSIZE - off % BSIZE)) from by omega]
                rw [List.range_add, List.map_append, List.map_map]
                refine congrArg _ ?_
                refine List.map_congr_left (fun j hj => ?_)
                show fileByte σ (off + (min n (BSIZE - off % BSIZE) + j)) = _
                rw [← Nat.add_assoc]
              rw [IHdst, hsplit, hbytes, hrest]

theorem takePad_length (n : Nat) (l : List Nat) : (takePad n l).length = n := by
  simp [takePad]

theorem takePad_getD (n i : Nat) (l : List Nat) (hi : i < n) :
    (takePad n l).getD i 0 = l.getD i 0 := by
  simp [takePad, List.getD, List.getElem?_map, List.getElem?_range, hi]

theorem takePad_self (l : List Nat) : takePad l.length l = l := by
  apply List.ext_getElem
  · simp [takePad]
  · intro i h1 h2
    simp [takePad, List.getD, List.getElem?_eq_getElem h2]

theorem blockOfRole_σ0 (r : Role) : blockOfRole σ0 r = 0 := by
  cases r <;> simp [blockOfRole, σ0]

theorem WF_σ0 : WF σ0 := by
  refine ⟨?_, ?_, rfl, ?_⟩
  · intro r1 r2 hne _
    exact absurd (blockOfRole_σ0 r1) hne
  · intro r hne
    exact absurd (blockOfRole_σ0 r) hne
  · decide

theorem blockOfRole_σhole (r : Role) : blockOfRole σhole r = 0 := by
  cases r <;> simp [blockOfRole, σhole, σ0]

theorem WF_σhole : WF σhole := by
  refine ⟨?_, ?_, rfl, ?_⟩
  · intro r1 r2 hne _
    exact absurd (blockOfRole_σhole r1) hne
  · intro r hne
    exact absurd (blockOfRole_σhole r) hne
  · decide

theorem WF_σfull : WF σfull := by
  refine ⟨?_, ?_, rfl, ?_⟩
  · intro r1 r2 hne _
    refine absurd ?_ hne
    cases r1 <;> simp [blockOfRole, σfull, σ0]
  · intro r _
    rfl
  · decide

/-- update_size sets the in-memory size, flushes it into the inode-table
slot, and logs the inode block when a transaction is given. -/
theorem update_size_spec (σ : St) (sz : Nat) (u : Bool) :
    (update_size σ sz u).ip.size = sz ∧
    ((update_size σ sz u).itable σ.ip.inum).size = sz ∧
    (update_size σ sz true).tlogged = σ.tlogged ++ [IBLOCK σ.ip.inum] := by
  refine ⟨rfl, ?_, rfl⟩
  show (updf σ.itable σ.ip.inum
    { typ := σ.ip.typ, major := σ.ip.major, minor := σ.ip.minor,
      nlink := σ.ip.nlink, size := sz, gen := σ.ip.gen,
      addrs := σ.ip.addrs } σ.ip.inum).size = sz
  rw [updf_self]

/-- C8: writei never changes the inode's size field or the inode-table
image, whatever it writes and wherever the write ends; setting the size and
flushing the inode is done by update_size, which also logs the inode block
into the transaction. -/
theorem writei_size_frame (σ : St) (src : List Nat) (off n : Nat)
    (ut wb : Bool) (r : Int) (σ' : St) (hw : WF σ)
    (h : writei σ src off n ut wb = some (r, σ')) :
    σ'.ip.size = σ.ip.size ∧ σ'.itable = σ.itable ∧
    (∀ sz u, (update_size σ' sz u).ip.size = sz ∧
      ((update_size σ' sz u).itable σ'.ip.inum).size = sz ∧
      (update_size σ' sz true).tlogged =
        σ'.tlogged ++ [IBLOCK σ'.ip.inum]) := by
  unfold writei at h
  split_ifs at h with h1 h2 h3
  · simp only [Option.some.injEq, Prod.mk.injEq] at h
    obtain ⟨-, hσ⟩ := h
    subst hσ
    exact ⟨rfl, rfl, fun sz u => update_size_spec _ sz u⟩
  · simp only [Option.some.injEq, Prod.mk.injEq] at h
    obtain ⟨-, hσ⟩ := h
    subst hσ
    exact ⟨rfl, rfl, fun sz u => update_size_spec _ sz u⟩
  · simp only [] at h
    split at h
    · exact absurd h (by simp)
    · rename_i k σw ok heqW
      simp only [Option.some.injEq, Prod.mk.injEq] at h
      obtain ⟨-, hσ⟩ := h
      subst hσ
      obtain ⟨⟨q, -⟩, -, -, -⟩ :=
        writeLoop_spec _ σ _ off ut wb k σw ok (Nat.le_refl _) hw heqW
      exact ⟨q.size_eq, q.itable_eq, fun sz u => update_size_spec σw sz u⟩
  · simp only [] at h
    split at h
    · exact absurd h (by simp)
    · rename_i k σw ok heqW
      simp only [Option.some.injEq, Prod.mk.injEq] at h
      obtain ⟨-, hσ⟩ := h
      subst hσ
      obtain ⟨⟨q, -⟩, -, -, -⟩ :=
        writeLoop_spec _ σ _ off ut wb k σw ok (Nat.le_refl _) hw heqW
      exact ⟨q.size_eq, q.itable_eq, fun sz u => update_size_spec σw sz u⟩

theorem writei_size_frame_witness :
    c8σ.ip.size = σ0.ip.size ∧ c8σ.itable = σ0.itable ∧
    (∀ sz u, (update_size c8σ sz u).ip.size = sz ∧
      ((update_size c8σ sz u).itable c8σ.ip.inum).size = sz ∧
      (update_size c8σ sz true).tlogged =
        c8σ.tlogged ++ [IBLOCK c8σ.ip.inum]) :=
  writei_size_frame σ0 [7] 0 1 true false 1 c8σ WF_σ0 (by
    simp +decide [c8σ, writei, writeLoop, bmap, balloc, bzero, takePad, σ0,
      updf, T_FILE, T_DEV, T_FREE, MAXFILE, BSIZE, U32, NDIRECT, NINDIRECT,
      zeroBlk, List.range_succ, List.range_zero])

/-- C2 (amended): a writei of the bytes src at offset off that reports
writing all of src, followed by an update_size covering the written range
(as the callers do after a write), makes readi of the same range return
exactly src, with no further state change. -/
theorem write_read_roundtrip (σ : St) (src : List Nat) (off : Nat)
    (ut wb u : Bool) (σ₁ : St) (sz : Nat) (hw : WF σ)
    (hov : off + src.length < U32)
    (h : writei σ src off src.length ut wb = some ((src.length : Int), σ₁))
    (hsz : off + src.length ≤ sz) :
    readi (update_size σ₁ sz u) off src.length =
      some ((src.length : Int), src, update_size σ₁ sz u) := by
  have hU : U32 = 4294967296 := rfl
  have hMB : MAXFILE * BSIZE = 4299202560 := rfl
  unfold writei at h
  by_cases hdev : σ.ip.typ = T_DEV
  · rw [if_pos hdev] at h
    simp only [Option.some.injEq, Prod.mk.injEq] at h
    obtain ⟨hr, -⟩ := h
    exfalso
    omega
  · rw [if_neg hdev] at h
    have hovm : ¬ ((off + src.length) % U32 < off) := by
      rw [Nat.mod_eq_of_lt hov]
      omega
    rw [if_neg hovm] at h
    have hclamp : ¬ (off + src.length > MAXFILE * BSIZE) := by omega
    rw [if_neg hclamp] at h
    simp only [] at h
    split at h
    · exact absurd h (by simp)
    · rename_i k σw ok heqW
      simp only [Option.some.injEq, Prod.mk.injEq] at h
      obtain ⟨hr, hσw⟩ := h
      subst hσw
      have hk : k = src.length := by
        by_cases hc : (!ok) = true ∧ k = 0
        · rw [if_pos hc] at hr
          omega
        · rw [if_neg hc] at hr
          exact_mod_cast hr
      obtain ⟨⟨q, -⟩, -, -, hfull⟩ :=
        writeLoop_spec _ σ _ off ut wb k σw ok (Nat.le_refl _) hw heqW
      have hklen : k = (takePad src.length src).length := by
        rw [takePad_length]
        exact hk
      obtain ⟨hwfw, -, -, hcontent, -, hcov⟩ := hfull hklen
      have hs2 : (update_size σw sz u).ip.size = sz := rfl
      have ht2 : (update_size σw sz u).ip.typ = σ.ip.typ := q.typ_eq
      unfold readi
      rw [if_neg (show ¬ (update_size σw sz u).ip.typ = T_DEV from by
        rw [ht2]; exact hdev)]
      rw [if_neg (show ¬ (off > (update_size σw sz u).ip.size ∨
          (off + src.length) % U32 < off) from by
        rw [hs2]
        push_neg
        exact ⟨by omega, by rw [Nat.mod_eq_of_lt hov]; omega⟩)]
      rw [if_neg (show ¬ (off + src.length > (update_size σw sz u).ip.size)
        from by rw [hs2]; omega)]
      simp only []
      have hcov2 : ∀ j, j < src.length →
          logicalMap (update_size σw sz u) ((off + j) / BSIZE) ≠ 0 := by
        intro j hj
        exact hcov j (by rw [hk]; exact hj)
      rw [readLoop_total src.length (update_size σw sz u) off src.length
        (Nat.le_refl _) hcov2]
      simp only [Option.some.injEq, Prod.mk.injEq]
      refine ⟨trivial, ?_, trivial⟩
      apply List.ext_getElem
      · simp
      · intro i h1 h2
        have hi : i < src.length := by simpa using h1
        have hmap : fileByte (update_size σw sz u) (off + i) = src.getD i 0 := by
          have hc1 : fileByte σw (off + i) =
              (takePad src.length src).getD i 0 :=
            hcontent i (by rw [hk]; exact hi)
          rw [takePad_getD src.length i src hi] at hc1
          exact hc1
        simp only [List.getElem_map, List.getElem_range]
        rw [hmap]
        simp [List.getD, List.getElem?_eq_getElem h2]

theorem write_read_roundtrip_witness :
    readi (update_size c2σ 8 true) 5 3 =
      some ((3 : Int), [3, 1, 4], update_size c2σ 8 true) :=
  write_read_roundtrip σ0 [3, 1, 4] 5 true false true c2σ 8 WF_σ0
    (by decide)
    (by
      simp +decide [c2σ, writei, writeLoop, bmap, balloc, bzero, takePad, σ0,
        updf, T_FILE, T_DEV, T_FREE, MAXFILE, BSIZE, U32, NDIRECT, NINDIRECT,
        zeroBlk, List.range_succ, List.range_zero])
    (by decide)

/-- C6 (amended): readi returns -1 exactly on a device inode, an offset past
the size, or u32 overflow of off+n, and otherwise returns the clamped byte
count; writei returns -1 on a device inode or u32 overflow (an offset at or
beyond MAXFILE*BSIZE always overflows, so that branch of the claim is
subsumed), but also returns -1 out of the blue when the disk runs out of
blocks before the first byte, as the σfull run shows. -/
theorem readi_writei_error_cases :
    (∀ σ off n, σ.ip.typ = T_DEV → readi σ off n = some (-1, [], σ)) ∧
    (∀ σ off n, σ.ip.typ ≠ T_DEV →
      (off > σ.ip.size ∨ (off + n) % U32 < off) →
      readi σ off n = some (-1, [], σ)) ∧
    (∀ σ off n r dst σ', σ.ip.typ ≠ T_DEV →
      ¬ (off > σ.ip.size ∨ (off + n) % U32 < off) →
      readi σ off n = some (r, dst, σ') →
      r = ((if off + n > σ.ip.size then σ.ip.size - off else n : Nat) : Int)) ∧
    (∀ σ src off n ut wb, σ.ip.typ = T_DEV →
      writei σ src off n ut wb = some (-1, σ)) ∧
    (∀ σ src off n ut wb, σ.ip.typ ≠ T_DEV → (off + n) % U32 < off →
      writei σ src off n ut wb = some (-1, σ)) ∧
    (σfull.ip.typ ≠ T_DEV ∧ ¬ ((0 + 1) % U32 < 0) ∧
      (writei σfull [7] 0 1 false false).map Prod.fst = some (-1)) := by
  refine ⟨?_, ?_, ?_, ?_, ?_, ?_, ?_, ?_⟩
  · intro σ off n hd
    unfold readi
    rw [if_pos hd]
  · intro σ off n hd hr
    unfold readi
    rw [if_neg hd, if_pos hr]
  · intro σ off n r dst σ' hd hr h
    unfold readi at h
    rw [if_neg hd, if_neg hr] at h
    simp only [] at h
    split at h
    · simp at h
    · rename_i dst0 σr heqR
      simp only [Option.some.injEq, Prod.mk.injEq] at h
      obtain ⟨h1, -, -⟩ := h
      exact h1.symm
  · intro σ src off n ut wb hd
    unfold writei
    rw [if_pos hd]
  · intro σ src off n ut wb hd hr
    unfold writei
    rw [if_neg hd, if_pos hr]
  · decide
  · decide
  · simp +decide [σfull, σ0, writei, writeLoop, bmap, balloc, bzero, takePad,
      updf, T_FILE, T_DEV, T_FREE, MAXFILE, BSIZE, U32, NDIRECT, NINDIRECT,
      zeroBlk, List.range_succ, List.range_zero]

theorem readi_writei_error_cases_witness :
    readi σdev 0 1 = some (-1, [], σdev) ∧
    readi σhole 9 1 = some (-1, [], σhole) ∧
    c6p.1 = ((if 2 + 10 > σhole.ip.size then σhole.ip.size - 2
      else 10 : Nat) : Int) ∧
    writei σdev [7] 0 1 false false = some (-1, σdev) ∧
    writei σ0 [7] 4294967295 1 false false = some (-1, σ0) :=
  ⟨readi_writei_error_cases.1 σdev 0 1 (by decide),
   readi_writei_error_cases.2.1 σhole 9 1 (by decide) (Or.inl (by decide)),
   readi_writei_error_cases.2.2.1 σhole 2 10 c6p.1 c6p.2.1 c6p.2.2
     (by decide) (by decide)
     (by
       simp +decide [c6p, readi, readLoop, readLoop_zero, bmap, balloc,
         bzero, σhole, σ0, updf, T_FILE, T_DEV, T_FREE, MAXFILE, BSIZE, U32,
         NDIRECT, NINDIRECT, zeroBlk, List.range_succ, List.range_zero]),
   readi_writei_error_cases.2.2.2.1 σdev [7] 0 1 false false (by decide),
   readi_writei_error_cases.2.2.2.2.1 σ0 [7] 4294967295 1 false false
     (by decide) (by decide)⟩

/-- C10: readi is not read-only on the block map: when the clamped read range
covers a logical block that is a hole, a successful readi leaves that block
mapped (bmap allocated a fresh zeroed block and installed its number),
although readi passes no transaction. -/
theorem readi_allocates (σ : St) (off n : Nat) (r : Int) (dst : List Nat)
    (σ' : St) (j : Nat) (hw : WF σ)
    (hdev : σ.ip.typ ≠ T_DEV)
    (hrange : ¬ (off > σ.ip.size ∨ (off + n) % U32 < off))
    (hj : j < (if off + n > σ.ip.size then σ.ip.size - off else n))
    (hhole : logicalMap σ ((off + j) / BSIZE) = 0)
    (h : readi σ off n = some (r, dst, σ')) :
    logicalMap σ' ((off + j) / BSIZE) ≠ 0 := by
  unfold readi at h
  rw [if_neg hdev, if_neg hrange] at h
  simp only [] at h
  split at h
  · simp at h
  · rename_i dst0 σr heqR
    simp only [Option.some.injEq, Prod.mk.injEq] at h
    obtain ⟨-, -, hσ⟩ := h
    subst hσ
    obtain ⟨-, -, -, -, hcov, -⟩ :=
      readLoop_spec _ σ off _ dst0 σr (Nat.le_refl _) hw heqR
    exact hcov j hj

theorem readi_allocates_witness :
    logicalMap σhole ((0 + 0) / BSIZE) = 0 ∧
    logicalMap c10σ ((0 + 0) / BSIZE) ≠ 0 :=
  ⟨by decide,
   readi_allocates σhole 0 1 1 [0] c10σ 0 WF_σhole (by decide) (by decide)
     (by decide) (by decide)
     (by
       simp +decide [c10σ, readi, readLoop, readLoop_zero, bmap, balloc,
         bzero, σhole, σ0, updf, T_FILE, T_DEV, T_FREE, MAXFILE, BSIZE, U32,
         NDIRECT, NINDIRECT, zeroBlk, List.range_succ, List.range_zero])⟩

/-- C1 (code bug): because of the semicolon after the if in dirlink, the
insert into the in-memory index runs and succeeds for an absent name, but
return -1 is executed unconditionally: dirlink reports failure, and the rest
of its body (advancing dir_offset, the nlink updates, the entry flush) is
dead code — the returned state differs from the input only in the index. -/
theorem dirlink_bug (σ : St) (name : List Nat) (inum : Nat)
    (incLink ut : Bool) (idx : DirIdx)
    (hidx : σ.ip.dir = some idx)
    (habsent : dirLookupIdx idx (nameKey name) = none) :
    dirlink σ name inum incLink ut =
      some (-1,
        { σ with ip :=
            { σ.ip with
              dir := some ((nameKey name, ⟨inum, σ.ip.dirOffset⟩) :: idx) } })
    := by
  unfold dirlink dir_init
  rw [hidx]
  simp only []
  have hg : σ.ip.dir.getD [] = idx := by rw [hidx]; rfl
  rw [hg]
  unfold dirInsertIdx
  rw [habsent]

theorem dirlink_bug_witness :
    dirlink σdir [97] 5 true true =
      some (-1,
        { σdir with ip :=
            { σdir.ip with
              dir := some ((nameKey [97], ⟨5, σdir.ip.dirOffset⟩) ::
                ([] : DirIdx)) } }) :=
  dirlink_bug σdir [97] 5 true true [] rfl rfl

/-- C9: dirunlink of a name absent from the in-memory index fails with -1
and returns the state unchanged: no index, dir_offset, size, nlink, disk or
inode-table modification. -/
theorem dirunlink_absent (σ : St) (name : List Nat) (inum : Nat)
    (decLink ut : Bool) (idx : DirIdx)
    (hidx : σ.ip.dir = some idx)
    (habsent : dirLookupIdx idx (nameKey name) = none) :
    dirunlink σ name inum decLink ut = some (-1, σ) := by
  unfold dirunlink dir_init
  rw [hidx]
  simp only []
  have hg : σ.ip.dir.getD [] = idx := by rw [hidx]; rfl
  rw [hg]
  unfold dirRemoveIdx
  rw [habsent]

theorem dirunlink_absent_witness :
    dirunlink σdir [97] 5 true true = some (-1, σdir) :=
  dirunlink_absent σdir [97] 5 true true [] rfl rfl

theorem or_mask (b : Nat) : b ||| (BPB - 1) = BPB * (b / BPB) + (BPB - 1) := by
  have hBPB : BPB = 32768 := rfl
  rw [hBPB]
  have h2 : (32768 : Nat) = 2 ^ 15 := by norm_num
  rw [h2]
  apply Nat.eq_of_testBit_eq
  intro j
  rw [Nat.testBit_or]
  conv_lhs => rw [show b = 2 ^ 15 * (b / 2 ^ 15) + b % 2 ^ 15 from by omega]
  rw [Nat.testBit_mul_pow_two_add _
    (show b % 2 ^ 15 < 2 ^ 15 from Nat.mod_lt _ (by norm_num)) j]
  rw [show (2:Nat) ^ 15 - 1 = 32767 from by norm_num]
  rw [Nat.testBit_mul_pow_two_add _ (show (32767 : Nat) < 2 ^ 15 from by
    norm_num) j]
  have h15 : (32767 : Nat) = 2 ^ 15 - 1 := by norm_num
  have ht : (32767 : Nat).testBit j = decide (j < 15) := by
    rw [h15, Nat.testBit_two_pow_sub_one]
  rw [ht]
  by_cases hj : j < 15
  · rw [if_pos hj, if_pos hj]
    simp [hj]
  · rw [if_neg hj, if_neg hj]
    simp [hj]

theorem le_ormask_iff (b x : Nat) (hbx : b ≤ x) :
    (x ≤ b ||| (BPB - 1)) ↔ x / BPB = b / BPB := by
  rw [or_mask]
  have hBPB : BPB = 32768 := rfl
  rw [hBPB]
  omega

theorem and_pow_ne (x k : Nat) : x &&& 2 ^ k ≠ 0 ↔ x.testBit k = true := by
  rw [Nat.and_two_pow]
  rcases h : x.testBit k <;> simp [h]

theorem testBit_and_mask (x k j : Nat) (hk : k < 8) (hj : j < 8) :
    (x &&& (255 - 2 ^ k)).testBit j = (x.testBit j && !decide (j = k)) := by
  rw [Nat.testBit_and]
  congr 1
  interval_cases k <;> interval_cases j <;> decide

theorem ballocFlip_spec (blk : Blk) (bi : Nat) (alloc : Bool) :
    (ballocFlip blk bi alloc = none ↔
      (blk (bi / 8)).testBit (bi % 8) = alloc) ∧
    (∀ blk', ballocFlip blk bi alloc = some blk' →
      blk' = updf blk (bi / 8)
        (if alloc then blk (bi / 8) ||| 2 ^ (bi % 8)
         else blk (bi / 8) &&& (255 - 2 ^ (bi % 8)))) := by
  have hand := and_pow_ne (blk (bi / 8)) (bi % 8)
  cases alloc with
  | false =>
      unfold ballocFlip
      simp only [Bool.false_eq_true, if_false]
      by_cases h0 : blk (bi / 8) &&& 2 ^ (bi % 8) = 0
      · have hb : (blk (bi / 8)).testBit (bi % 8) = false := by
          rcases hbit : (blk (bi / 8)).testBit (bi % 8)
          · rfl
          · exact absurd (hand.mpr hbit) (by simp [h0])
        rw [if_pos h0]
        exact ⟨by simp [hb], fun blk' hblk => absurd hblk (by simp)⟩
      · have hb : (blk (bi / 8)).testBit (bi % 8) = true := hand.mp h0
        rw [if_neg h0]
        refine ⟨by simp [hb], fun blk' hblk => ?_⟩
        injection hblk with h
        exact h.symm
  | true =>
      unfold ballocFlip
      simp only [if_true]
      by_cases h0 : blk (bi / 8) &&& 2 ^ (bi % 8) = 0
      · have hb : (blk (bi / 8)).testBit (bi % 8) = false := by
          rcases hbit : (blk (bi / 8)).testBit (bi % 8)
          · rfl
          · exact absurd (hand.mpr hbit) (by simp [h0])
        rw [if_neg (fun hc => hc h0)]
        refine ⟨by simp [hb], fun blk' hblk => ?_⟩
        injection hblk with h
        exact h.symm
      · have hb : (blk (bi / 8)).testBit (bi % 8) = true := hand.mp h0
        rw [if_pos h0]
        exact ⟨by simp [hb], fun blk' hblk => absurd hblk (by simp)⟩

theorem flipRun_spec (run : List Nat) : ∀ (blk : Blk) (alloc : Bool),
    ((run.map (fun b => b % BPB)).Nodup) →
    ((flipRun blk run alloc = none ↔
      ∃ b ∈ run, (blk (b % BPB / 8)).testBit (b % BPB % 8) = alloc) ∧
     ∀ blk', flipRun blk run alloc = some blk' →
      (∀ b ∈ run, (blk' (b % BPB / 8)).testBit (b % BPB % 8) = alloc) ∧
      (∀ y, (∀ b ∈ run, y ≠ b % BPB / 8) → blk' y = blk y) ∧
      (∀ y j, j < 8 → (∀ b ∈ run, ¬ (y = b % BPB / 8 ∧ j = b % BPB % 8)) →
        (blk' y).testBit j = (blk y).testBit j)) := by
  induction run with
  | nil =>
      intro blk alloc _
      refine ⟨by simp [flipRun], fun blk' h => ?_⟩
      unfold flipRun at h
      injection h with h
      subst h
      exact ⟨by simp, fun y _ => rfl, fun y j _ _ => rfl⟩
  | cons b rest ih =>
      intro blk alloc hnd
      rw [List.map_cons, List.nodup_cons] at hnd
      obtain ⟨hb_notin, hnd'⟩ := hnd
      obtain ⟨bf_none, bf_some⟩ := ballocFlip_spec blk (b % BPB) alloc
      cases hbf : ballocFlip blk (b % BPB) alloc with
      | none =>
          have hbit : (blk (b % BPB / 8)).testBit (b % BPB % 8) = alloc :=
            bf_none.mp hbf
          have heq : flipRun blk (b :: rest) alloc = none := by
            unfold flipRun
            rw [hbf]
          rw [heq]
          refine ⟨⟨fun _ => ⟨b, List.mem_cons_self _ _, hbit⟩, fun _ => rfl⟩,
            fun blk' hsome => absurd hsome (by simp)⟩
      | some blk1 =>
          have hb1 := bf_some blk1 hbf
          have hne : ¬ ((blk (b % BPB / 8)).testBit (b % BPB % 8) = alloc) := by
            intro hc
            rw [bf_none.mpr hc] at hbf
            exact absurd hbf (by simp)
          have hbitprev : (blk (b % BPB / 8)).testBit (b % BPB % 8) =
              !alloc := Bool.eq_not_of_ne hne
          have hkb8 : b % BPB % 8 < 8 := Nat.mod_lt _ (by decide)
          have hnew_kb : (blk1 (b % BPB / 8)).testBit (b % BPB % 8) =
              alloc := by
            rw [hb1, updf_self]
            cases alloc
            · simp only [Bool.false_eq_true, if_false]
              rw [testBit_and_mask _ _ _ hkb8 hkb8]
              simp
            · simp only [if_true]
              simp [Nat.testBit_or]
          have hnew_other : ∀ j, j < 8 → j ≠ b % BPB % 8 →
              (blk1 (b % BPB / 8)).testBit j =
              (blk (b % BPB / 8)).testBit j := by
            intro j hj8 hjne
            rw [hb1, updf_self]
            cases alloc
            · simp only [Bool.false_eq_true, if_false]
              rw [testBit_and_mask _ _ _ hkb8 hj8]
              simp [hjne]
            · simp only [if_true]
              simp [Nat.testBit_or, Nat.testBit_two_pow_of_ne (Ne.symm hjne)]
          have hother_byte : ∀ y, y ≠ b % BPB / 8 → blk1 y = blk y := by
            intro y hy
            rw [hb1, updf_ne _ _ _ _ hy]
          have hbi_ne : ∀ b' ∈ rest, b' % BPB ≠ b % BPB := by
            intro b' hb' hc
            exact hb_notin (by rw [← hc]; exact List.mem_map_of_mem _ hb')
          have hsame_rest : ∀ b' ∈ rest,
              (blk1 (b' % BPB / 8)).testBit (b' % BPB % 8) =
              (blk (b' % BPB / 8)).testBit (b' % BPB % 8) := by
            intro b' hb'
            by_cases hy : b' % BPB / 8 = b % BPB / 8
            · have hk : b' % BPB % 8 ≠ b % BPB % 8 := by
                have := hbi_ne b' hb'
                omega
              rw [hy]
              exact hnew_other _ (Nat.mod_lt _ (by decide)) hk
            · rw [hother_byte _ hy]
          have heq : flipRun blk (b :: rest) alloc = flipRun blk1 rest alloc := by
            conv_lhs => unfold flipRun
            rw [hbf]
          obtain ⟨ih_none, ih_some⟩ := ih blk1 alloc hnd'
          rw [heq]
          constructor
          · rw [ih_none]
            constructor
            · rintro ⟨b', hb', hbit⟩
              exact ⟨b', List.mem_cons_of_mem _ hb',
                by rw [← hsame_rest b' hb']; exact hbit⟩
            · rintro ⟨b', hb', hbit⟩
              rcases List.mem_cons.mp hb' with h1 | h1
              · subst h1
                rw [hbitprev] at hbit
                exact absurd hbit (by cases alloc <;> simp)
              · exact ⟨b', h1, by rw [hsame_rest b' h1]; exact hbit⟩
          · intro blk' hrun
            obtain ⟨ihf, ihfr, ihpf⟩ := ih_some blk' hrun
            refine ⟨?_, ?_, ?_⟩
            · intro b' hb'
              rcases List.mem_cons.mp hb' with h1 | h1
              · subst h1
                rw [ihpf (b' % BPB / 8) (b' % BPB % 8) hkb8
                  (by
                    intro b'' hb''
                    rintro ⟨hy, hk⟩
                    have := hbi_ne b'' hb''
                    omega)]
                exact hnew_kb
              · exact ihf b' h1
            · intro y hy
              rw [ihfr y (fun b'' hb'' => hy b'' (List.mem_cons_of_mem _ hb''))]
              exact hother_byte y (hy b (List.mem_cons_self _ _))
            · intro y j hj8 hnt
              rw [ihpf y j hj8
                (fun b'' hb'' => hnt b'' (List.mem_cons_of_mem _ hb''))]
              by_cases hy : y = b % BPB / 8
              · subst hy
                have hk : j ≠ b % BPB % 8 := by
                  intro hc
                  exact hnt b (List.mem_cons_self _ _) ⟨rfl, hc⟩
                exact hnew_other j hj8 hk
              · rw [hother_byte y hy]

theorem dropWhile_all_not (p : Nat → Bool)
    (hmono : ∀ x y, x ≤ y → p y = true → p x = true) :
    ∀ l : List Nat, l.Pairwise (· ≤ ·) → ∀ x ∈ l.dropWhile p, p x = false := by
  intro l
  induction l with
  | nil => intro _ x hx; simp at hx
  | cons a t ih =>
      intro hp x hx
      rw [List.pairwise_cons] at hp
      obtain ⟨ha, ht⟩ := hp
      rw [List.dropWhile_cons] at hx
      by_cases hpa : p a = true
      · rw [if_pos hpa] at hx
        exact ih ht x hx
      · rw [if_neg hpa] at hx
        rcases List.mem_cons.mp hx with h1 | h1
        · subst h1
          exact (Bool.not_eq_true _).mp hpa
        · rcases hpx : p x
          · rfl
          · exact absurd (hmono a x (ha x h1) hpx) hpa

set_option maxRecDepth 8000 in
/-- Specification of the outer loop of balloc_free_on_disk over a sorted
duplicate-free block list: it fails exactly when some listed block's bit is
already in the target state; on success it flips exactly the listed bits,
logs each affected bitmap block exactly once, and touches nothing else. -/
theorem ballocOnDiskGo_spec (L : Nat) : ∀ (σ : St) (l : List Nat)
    (alloc : Bool) (N : Nat),
    l.length ≤ L → σ.ninodes = N → l.Pairwise (· ≤ ·) → l.Nodup →
    ((ballocOnDiskGo σ l alloc = none ↔
      ∃ b ∈ l, (σ.disk (BBLOCK b N) (b % BPB / 8)).testBit (b % BPB % 8)
        = alloc) ∧
     ∀ σ', ballocOnDiskGo σ l alloc = some σ' →
      σ'.ninodes = N ∧ σ'.ip = σ.ip ∧ σ'.freemap = σ.freemap ∧
      σ'.itable = σ.itable ∧ σ'.sbSize = σ.sbSize ∧ σ'.onlink = σ.onlink ∧
      σ'.tallocated = σ.tallocated ∧ σ'.tfreed = σ.tfreed ∧
      (∃ bbs : List Nat, σ'.tlogged = σ.tlogged ++ bbs ∧ bbs.Nodup ∧
        (∀ x, x ∈ bbs ↔ ∃ b ∈ l, x = BBLOCK b N)) ∧
      (∀ b ∈ l, (σ'.disk (BBLOCK b N) (b % BPB / 8)).testBit (b % BPB % 8)
        = alloc) ∧
      (∀ p y, (∀ b ∈ l, ¬ (p = BBLOCK b N ∧ y = b % BPB / 8)) →
        σ'.disk p y = σ.disk p y) ∧
      (∀ p y j, j < 8 →
        (∀ b ∈ l, ¬ (p = BBLOCK b N ∧ y = b % BPB / 8 ∧ j = b % BPB % 8)) →
        (σ'.disk p y).testBit j = (σ.disk p y).testBit j)) := by
  induction L with
  | zero =>
      intro σ l alloc N hlen hN hpw hnd
      have hl : l = [] := List.length_eq_zero.mp (Nat.le_zero.mp hlen)
      subst hl
      refine ⟨by simp [ballocOnDiskGo], fun σ' h => ?_⟩
      unfold ballocOnDiskGo at h
      injection h with h
      subst h
      exact ⟨hN, rfl, rfl, rfl, rfl, rfl, rfl, rfl,
        ⟨[], by simp, List.nodup_nil, by simp⟩, by simp,
        fun p y _ => rfl, fun p y j _ _ => rfl⟩
  | succ L ih =>
      intro σ l alloc N hlen hN hpw hnd
      cases l with
      | nil =>
          refine ⟨by simp [ballocOnDiskGo], fun σ' h => ?_⟩
          unfold ballocOnDiskGo at h
          injection h with h
          subst h
          exact ⟨hN, rfl, rfl, rfl, rfl, rfl, rfl, rfl,
            ⟨[], by simp, List.nodup_nil, by simp⟩, by simp,
            fun p y _ => rfl, fun p y j _ _ => rfl⟩
      | cons b rest₀ =>
          subst hN
          rw [List.pairwise_cons] at hpw
          obtain ⟨hble, hpw'⟩ := hpw
          rw [List.nodup_cons] at hnd
          obtain ⟨hbni, hnd'⟩ := hnd
          -- the run sharing b's bitmap block, and the remainder
          have hrun_div : ∀ x ∈ b :: rest₀.takeWhile
              (fun x => decide (x ≤ b ||| (BPB - 1))), x / BPB = b / BPB := by
            intro x hx
            rcases List.mem_cons.mp hx with h1 | h1
            · rw [h1]
            · have hxle : x ≤ b ||| (BPB - 1) := by
                have := List.mem_takeWhile_imp h1
                simpa using this
              have hbx : b ≤ x :=
                hble x ((List.takeWhile_sublist _).subset h1)
              exact (le_ormask_iff b x hbx).mp hxle
          have hrest_div : ∀ x ∈ rest₀.dropWhile
              (fun x => decide (x ≤ b ||| (BPB - 1))),
              b / BPB < x / BPB := by
            intro x hx
            have hfalse := dropWhile_all_not
              (fun x => decide (x ≤ b ||| (BPB - 1)))
              (fun u v huv hv => by
                simp only [decide_eq_true_eq] at hv ⊢
                omega)
              rest₀ hpw' x hx
            simp only [decide_eq_false_iff_not] at hfalse
            have hbx : b ≤ x :=
              hble x ((List.dropWhile_sublist _).subset hx)
            have hne : ¬ (x / BPB = b / BPB) :=
              fun hc => hfalse ((le_ormask_iff b x hbx).mpr hc)
            have hge : b / BPB ≤ x / BPB := Nat.div_le_div_right hbx
            omega
          have hrun_sub : (b :: rest₀.takeWhile
              (fun x => decide (x ≤ b ||| (BPB - 1)))).Sublist (b :: rest₀) :=
            (List.takeWhile_sublist _).cons₂ b
          have hrun_nodup : (b :: rest₀.takeWhile
              (fun x => decide (x ≤ b ||| (BPB - 1)))).Nodup :=
            (List.nodup_cons.mpr ⟨hbni, hnd'⟩).sublist hrun_sub
          have hrun_map_nodup : ((b :: rest₀.takeWhile
              (fun x => decide (x ≤ b ||| (BPB - 1)))).map
              (fun x => x % BPB)).Nodup := by
            refine hrun_nodup.map_on ?_
            intro x hx y hy hxy
            have hx' := hrun_div x hx
            have hy' := hrun_div y hy
            have hBPB : BPB = 32768 := rfl
            simp only [hBPB] at hx' hy' hxy
            omega
          have hbb_run : ∀ x ∈ b :: rest₀.takeWhile
              (fun x => decide (x ≤ b ||| (BPB - 1))),
              BBLOCK x σ.ninodes = BBLOCK b σ.ninodes := by
            intro x hx
            unfold BBLOCK
            rw [hrun_div x hx]
          have hbb_rest : ∀ x ∈ rest₀.dropWhile
              (fun x => decide (x ≤ b ||| (BPB - 1))),
              BBLOCK x σ.ninodes ≠ BBLOCK b σ.ninodes := by
            intro x hx
            have := hrest_div x hx
            unfold BBLOCK
            omega
          have hsplit : ∀ x, x ∈ b :: rest₀ ↔
              (x ∈ b :: rest₀.takeWhile
                (fun x => decide (x ≤ b ||| (BPB - 1))) ∨
               x ∈ rest₀.dropWhile
                (fun x => decide (x ≤ b ||| (BPB - 1)))) := by
            intro x
            constructor
            · intro hx
              rcases List.mem_cons.mp hx with h1 | h1
              · exact Or.inl (by rw [h1]; exact List.mem_cons_self _ _)
              · conv at h1 => rw [← List.takeWhile_append_dropWhile
                  (fun x => decide (x ≤ b ||| (BPB - 1))) rest₀]
                rcases List.mem_append.mp h1 with h2 | h2
                · exact Or.inl (List.mem_cons_of_mem _ h2)
                · exact Or.inr h2
            · intro hx
              rcases hx with h1 | h1
              · exact hrun_sub.subset h1
              · exact List.mem_cons_of_mem _
                  ((List.dropWhile_sublist _).subset h1)
          obtain ⟨fr_none, fr_some⟩ := flipRun_spec
            (b :: rest₀.takeWhile (fun x => decide (x ≤ b ||| (BPB - 1))))
            (σ.disk (BBLOCK b σ.ninodes)) alloc hrun_map_nodup
          cases hfr : flipRun (σ.disk (BBLOCK b σ.ninodes))
              (b :: rest₀.takeWhile (fun x => decide (x ≤ b ||| (BPB - 1))))
              alloc with
          | none =>
              have heqgo : ballocOnDiskGo σ (b :: rest₀) alloc = none := by
                conv_lhs => unfold ballocOnDiskGo
                simp only []
                rw [hfr]
              rw [heqgo]
              obtain ⟨x, hx, hxbit⟩ := fr_none.mp hfr
              refine ⟨⟨fun _ => ⟨x, (hsplit x).mpr (Or.inl hx), ?_⟩,
                fun _ => rfl⟩, fun σ' hsome => absurd hsome (by simp)⟩
              rw [hbb_run x hx]
              exact hxbit
          | some blk' =>
              obtain ⟨hfbits, hffr, hfpf⟩ := fr_some blk' hfr
              have hnorun : ∀ x ∈ b :: rest₀.takeWhile
                  (fun x => decide (x ≤ b ||| (BPB - 1))),
                  ¬ ((σ.disk (BBLOCK b σ.ninodes) (x % BPB / 8)).testBit
                    (x % BPB % 8) = alloc) := by
                intro x hx hc
                rw [fr_none.mpr ⟨x, hx, hc⟩] at hfr
                exact absurd hfr (by simp)
              have heqgo : ballocOnDiskGo σ (b :: rest₀) alloc =
                  ballocOnDiskGo
                    { σ with
                        disk := updf σ.disk (BBLOCK b σ.ninodes) blk',
                        tlogged := σ.tlogged ++ [BBLOCK b σ.ninodes] }
                    (rest₀.dropWhile (fun x => decide (x ≤ b ||| (BPB - 1))))
                    alloc := by
                conv_lhs => unfold ballocOnDiskGo
                simp only []
                rw [hfr]
              have hlen' : (rest₀.dropWhile
                  (fun x => decide (x ≤ b ||| (BPB - 1)))).length ≤ L := by
                have := ((List.dropWhile_sublist
                  (fun x => decide (x ≤ b ||| (BPB - 1)))).length_le :
                  (rest₀.dropWhile _).length ≤ rest₀.length)
                simp only [List.length_cons] at hlen
                omega
              obtain ⟨ih_none, ih_some⟩ := ih
                { σ with
                    disk := updf σ.disk (BBLOCK b σ.ninodes) blk',
                    tlogged := σ.tlogged ++ [BBLOCK b σ.ninodes] }
                (rest₀.dropWhile (fun x => decide (x ≤ b ||| (BPB - 1))))
                alloc σ.ninodes hlen' rfl
                (hpw'.sublist (List.dropWhile_sublist _))
                (hnd'.sublist (List.dropWhile_sublist _))
              have hσ₁rest : ∀ x ∈ rest₀.dropWhile
                  (fun x => decide (x ≤ b ||| (BPB - 1))),
                  updf σ.disk (BBLOCK b σ.ninodes) blk' (BBLOCK x σ.ninodes) =
                  σ.disk (BBLOCK x σ.ninodes) := by
                intro x hx
                exact updf_ne _ _ _ _ (hbb_rest x hx)
              rw [heqgo]
              constructor
              · rw [ih_none]
                constructor
                · rintro ⟨x, hx, hxbit⟩
                  refine ⟨x, (hsplit x).mpr (Or.inr hx), ?_⟩
                  rw [← hσ₁rest x hx]
                  exact hxbit
                · rintro ⟨x, hx, hxbit⟩
                  rcases (hsplit x).mp hx with h1 | h1
                  · rw [hbb_run x h1] at hxbit
                    exact absurd hxbit (hnorun x h1)
                  · refine ⟨x, h1, ?_⟩
                    show (updf σ.disk (BBLOCK b σ.ninodes) blk' (BBLOCK x σ.ninodes)
                      (x % BPB / 8)).testBit (x % BPB % 8) = alloc
                    rw [hσ₁rest x h1]
                    exact hxbit
              · intro σ' hsome
                obtain ⟨ihN, ihip, ihfm, ihit, ihsb, ihol, ihta, ihtf,
                  ⟨bbs', hbbs'1, hbbs'2, hbbs'3⟩, ihbits, ihfr2, ihpf2⟩ :=
                  ih_some σ' hsome
                refine ⟨ihN, ihip, ihfm, ihit, ihsb, ihol, ihta, ihtf,
                  ⟨BBLOCK b σ.ninodes :: bbs', ?_, ?_, ?_⟩, ?_, ?_, ?_⟩
                · rw [hbbs'1]
                  show (σ.tlogged ++ [BBLOCK b σ.ninodes]) ++ bbs' = _
                  rw [List.append_assoc]
                  rfl
                · refine List.nodup_cons.mpr ⟨?_, hbbs'2⟩
                  intro hmem
                  obtain ⟨x, hx, hxeq⟩ := (hbbs'3 _).mp hmem
                  exact hbb_rest x hx hxeq.symm
                · intro x
                  rw [List.mem_cons, hbbs'3 x]
                  constructor
                  · rintro (h1 | ⟨y, hy, hyeq⟩)
                    · exact ⟨b, List.mem_cons_self _ _, h1.trans rfl⟩
                    · exact ⟨y, (hsplit y).mpr (Or.inr hy), hyeq⟩
                  · rintro ⟨y, hy, hyeq⟩
                    rcases (hsplit y).mp hy with h1 | h1
                    · exact Or.inl (by rw [hyeq, hbb_run y h1])
                    · exact Or.inr ⟨y, h1, hyeq⟩
                · intro x hx
                  rcases (hsplit x).mp hx with h1 | h1
                  · -- x in the run: its bit survives the later iterations
                    rw [hbb_run x h1]
                    have hx8 : x % BPB % 8 < 8 := Nat.mod_lt _ (by decide)
                    rw [ihpf2 (BBLOCK b σ.ninodes) (x % BPB / 8) (x % BPB % 8) hx8
                      (by
                        intro z hz
                        rintro ⟨hzp, -, -⟩
                        exact hbb_rest z hz hzp.symm)]
                    show (updf σ.disk (BBLOCK b σ.ninodes) blk' (BBLOCK b σ.ninodes)
                      (x % BPB / 8)).testBit (x % BPB % 8) = alloc
                    rw [updf_self]
                    exact hfbits x h1
                  · exact ihbits x h1
                · intro p y hpy
                  rw [ihfr2 p y (fun z hz hc =>
                    hpy z ((hsplit z).mpr (Or.inr hz)) hc)]
                  by_cases hp : p = BBLOCK b σ.ninodes
                  · subst hp
                    show updf σ.disk (BBLOCK b σ.ninodes) blk' (BBLOCK b σ.ninodes) y = _
                    rw [updf_self]
                    refine hffr y ?_
                    intro z hz hc
                    exact hpy z ((hsplit z).mpr (Or.inl hz))
                      ⟨(hbb_run z hz).symm, hc⟩
                  · show updf σ.disk (BBLOCK b σ.ninodes) blk' p y = _
                    rw [updf_ne _ _ _ _ hp]
                · intro p y j hj8 hpyj
                  rw [ihpf2 p y j hj8 (fun z hz hc =>
                    hpyj z ((hsplit z).mpr (Or.inr hz)) hc)]
                  by_cases hp : p = BBLOCK b σ.ninodes
                  · subst hp
                    show (updf σ.disk (BBLOCK b σ.ninodes) blk' (BBLOCK b σ.ninodes)
                      y).testBit j = _
                    rw [updf_self]
                    refine hfpf y j hj8 ?_
                    intro z hz
                    rintro ⟨hcy, hcj⟩
                    exact hpyj z ((hsplit z).mpr (Or.inl hz))
                      ⟨(hbb_run z hz).symm, hcy, hcj⟩
                  · show (updf σ.disk (BBLOCK b σ.ninodes) blk' p y).testBit j = _
                    rw [updf_ne _ _ _ _ hp]

/-- C7: balloc_free_on_disk sorts the blocks, flips for each listed block
exactly its bit in the on-disk bitmap image (set when alloc, cleared
otherwise) leaving every other bit, byte and block untouched, logs each
distinct affected bitmap block exactly once, and panics exactly when some
listed block's bit is already in the target state. -/
theorem balloc_free_on_disk_spec (σ : St) (blocks : List Nat) (alloc : Bool)
    (hnd : blocks.Nodup) :
    ((balloc_free_on_disk σ blocks alloc = none ↔
      ∃ b ∈ blocks, (σ.disk (BBLOCK b σ.ninodes) (b % BPB / 8)).testBit
        (b % BPB % 8) = alloc) ∧
     ∀ σ', balloc_free_on_disk σ blocks alloc = some σ' →
      σ'.ip = σ.ip ∧ σ'.freemap = σ.freemap ∧ σ'.itable = σ.itable ∧
      (∃ bbs : List Nat, σ'.tlogged = σ.tlogged ++ bbs ∧ bbs.Nodup ∧
        (∀ x, x ∈ bbs ↔ ∃ b ∈ blocks, x = BBLOCK b σ.ninodes)) ∧
      (∀ b ∈ blocks, (σ'.disk (BBLOCK b σ.ninodes) (b % BPB / 8)).testBit
        (b % BPB % 8) = alloc) ∧
      (∀ p y, (∀ b ∈ blocks, ¬ (p = BBLOCK b σ.ninodes ∧ y = b % BPB / 8)) →
        σ'.disk p y = σ.disk p y) ∧
      (∀ p y j, j < 8 →
        (∀ b ∈ blocks, ¬ (p = BBLOCK b σ.ninodes ∧ y = b % BPB / 8 ∧
          j = b % BPB % 8)) →
        (σ'.disk p y).testBit j = (σ.disk p y).testBit j)) := by
  have hperm : (List.insertionSort (· ≤ ·) blocks).Perm blocks :=
    List.perm_insertionSort (· ≤ ·) blocks
  have hmem : ∀ x, x ∈ List.insertionSort (· ≤ ·) blocks ↔ x ∈ blocks :=
    fun x => hperm.mem_iff
  have hsorted : (List.insertionSort (· ≤ ·) blocks).Pairwise (· ≤ ·) :=
    List.sorted_insertionSort (· ≤ ·) blocks
  have hnd' : (List.insertionSort (· ≤ ·) blocks).Nodup :=
    hperm.nodup_iff.mpr hnd
  obtain ⟨go_none, go_some⟩ := ballocOnDiskGo_spec
    (List.insertionSort (· ≤ ·) blocks).length σ
    (List.insertionSort (· ≤ ·) blocks) alloc σ.ninodes
    (Nat.le_refl _) rfl hsorted hnd'
  unfold balloc_free_on_disk
  constructor
  · rw [go_none]
    constructor
    · rintro ⟨b, hb, h⟩
      exact ⟨b, (hmem b).mp hb, h⟩
    · rintro ⟨b, hb, h⟩
      exact ⟨b, (hmem b).mpr hb, h⟩
  · intro σ' h
    obtain ⟨-, ihip, ihfm, ihit, -, -, -, -, ⟨bbs, h1, h2, h3⟩,
      hbits, hfr, hpf⟩ := go_some σ' h
    refine ⟨ihip, ihfm, ihit, ⟨bbs, h1, h2, fun x => ?_⟩,
      fun b hb => hbits b ((hmem b).mpr hb),
      fun p y hpy => hfr p y (fun b hb => hpy b ((hmem b).mp hb)),
      fun p y j hj8 hpyj =>
        hpf p y j hj8 (fun b hb => hpyj b ((hmem b).mp hb))⟩
    rw [h3 x]
    constructor
    · rintro ⟨b, hb, hbe⟩
      exact ⟨b, (hmem b).mp hb, hbe⟩
    · rintro ⟨b, hb, hbe⟩
      exact ⟨b, (hmem b).mpr hb, hbe⟩

theorem balloc_free_on_disk_spec_witness :
    (c7σ.disk (BBLOCK 4 σ0.ninodes) (4 % BPB / 8)).testBit (4 % BPB % 8)
      = true ∧
    (c7σ.disk (BBLOCK 5 σ0.ninodes) (5 % BPB / 8)).testBit (5 % BPB % 8)
      = true := by
  have hrun : balloc_free_on_disk σ0 [4, 5] true = some c7σ := by
    simp +decide [c7σ, balloc_free_on_disk, ballocOnDiskGo, flipRun,
      ballocFlip, σ0, updf, zeroBlk, BBLOCK, BPB, BSIZE, IPB,
      List.insertionSort, List.orderedInsert]
  have H := (balloc_free_on_disk_spec σ0 [4, 5] true (by decide)).2 c7σ hrun
  exact ⟨H.2.2.2.2.1 4 (by decide), H.2.2.2.2.1 5 (by decide)⟩

theorem commitGo_once (blocks : List TransactionDiskblock) :
    ∀ dirty : Nat → Bool,
    (commitGo blocks dirty).1.Nodup ∧
    (∀ b, b ∈ (commitGo blocks dirty).1 ↔
      b ∈ blocks.map TransactionDiskblock.blocknum ∧ dirty b = true) := by
  induction blocks with
  | nil =>
      intro dirty
      exact ⟨List.nodup_nil, fun b => by simp [commitGo]⟩
  | cons hd rest ih =>
      intro dirty
      by_cases hd1 : dirty hd.blocknum = true
      · have hgo : commitGo (hd :: rest) dirty =
            (hd.blocknum :: (commitGo rest (updf dirty hd.blocknum false)).1,
             (commitGo rest (updf dirty hd.blocknum false)).2) := by
          conv_lhs => unfold commitGo
          rw [if_pos hd1]
        obtain ⟨ihn, ihm⟩ := ih (updf dirty hd.blocknum false)
        rw [hgo]
        constructor
        · refine List.nodup_cons.mpr ⟨?_, ihn⟩
          intro hmem
          have h2 := (ihm hd.blocknum).mp hmem
          rw [updf_self] at h2
          exact absurd h2.2 (by simp)
        · intro b
          by_cases hb : b = hd.blocknum
          · subst hb
            simp [hd1]
          · simp only [List.mem_cons, List.map_cons]
            constructor
            · intro hmem
              rcases hmem with h1 | h1
              · exact absurd h1 hb
              · have h2 := (ihm b).mp h1
                rw [updf_ne _ _ _ _ hb] at h2
                exact ⟨Or.inr h2.1, h2.2⟩
            · rintro ⟨hmem, hdy⟩
              rcases hmem with h1 | h1
              · exact absurd h1 hb
              · refine Or.inr ((ihm b).mpr ⟨h1, ?_⟩)
                rw [updf_ne _ _ _ _ hb]
                exact hdy
      · have hgo : commitGo (hd :: rest) dirty = commitGo rest dirty := by
          conv_lhs => unfold commitGo
          rw [if_neg hd1]
        have hd0 : dirty hd.blocknum = false := by
          revert hd1
          cases dirty hd.blocknum <;> simp
        obtain ⟨ihn, ihm⟩ := ih dirty
        rw [hgo]
        refine ⟨ihn, fun b => ?_⟩
        rw [ihm b]
        by_cases hb : b = hd.blocknum
        · subst hb
          simp [hd0]
        · simp [List.mem_cons, hb]

/-- C4 (amended): add_block is a plain append — a second add_block for the
same blocknum leaves both snapshots in the transaction, with no
last-writer-wins replacement — and commit_transaction writes each distinct
block number at most once: exactly the logged block numbers whose buffers
are still dirty at commit. -/
theorem transaction_commit_once (t : Transaction) (dirty : Nat → Bool)
    (d1 d2 : Blk) (ts1 ts2 : Nat) :
    ((t.add_block ⟨5, d1, ts1⟩).add_block ⟨5, d2, ts2⟩).blocks.map
      TransactionDiskblock.blocknum =
      t.blocks.map TransactionDiskblock.blocknum ++ [5, 5] ∧
    (t.commit_transaction dirty).1.Nodup ∧
    (∀ b, b ∈ (t.commit_transaction dirty).1 ↔
      b ∈ t.blocks.map TransactionDiskblock.blocknum ∧ dirty b = true) := by
  refine ⟨?_, (commitGo_once t.blocks dirty).1,
    (commitGo_once t.blocks dirty).2⟩
  simp [Transaction.add_block]

/-- Counterexample to C2 as stated: without the caller's update_size, readi
right after the write clamps against the stale size 0 and returns -1, not
the written bytes. -/
theorem c2_counterexample :
    readi c2σ 5 3 = some (-1, [], c2σ) ∧ c2σ.ip.size = 0 := by
  constructor
  · simp +decide [c2σ, readi, writei, writeLoop, bmap, balloc, bzero,
      takePad, σ0, updf, T_FILE, T_DEV, T_FREE, MAXFILE, BSIZE, U32, NDIRECT,
      NINDIRECT, zeroBlk, List.range_succ, List.range_zero]
  · simp +decide [c2σ, writei, writeLoop, bmap, balloc, bzero,
      takePad, σ0, updf, T_FILE, T_DEV, T_FREE, MAXFILE, BSIZE, U32, NDIRECT,
      NINDIRECT, zeroBlk, List.range_succ, List.range_zero]

/-- Counterexample to C4 as stated: two add_block calls for blocknum 5 leave
two snapshots in the transaction — no last-writer-wins replacement. -/
theorem c4_counterexample :
    (((⟨0, [], []⟩ : Transaction).add_block ⟨5, zeroBlk, 0⟩).add_block
      ⟨5, zeroBlk, 1⟩).blocks.map TransactionDiskblock.blocknum = [5, 5] ∧
    ¬ ((((⟨0, [], []⟩ : Transaction).add_block ⟨5, zeroBlk, 0⟩).add_block
      ⟨5, zeroBlk, 1⟩).blocks.map TransactionDiskblock.blocknum).Nodup := by
  exact ⟨rfl, by decide⟩

/-- Counterexample to C6 as stated: on a full disk, writei returns -1 with
no device-type mismatch, no u32 overflow and an offset far below
MAXFILE*BSIZE. -/
theorem c6_counterexample :
    (writei σfull [7] 0 1 false false).map Prod.fst = some (-1) ∧
    σfull.ip.typ ≠ T_DEV ∧ ¬ ((0 + 1) % U32 < 0) ∧
    ¬ (0 + 1 > MAXFILE * BSIZE) := by
  refine ⟨?_, by decide, by decide, by decide⟩
  simp +decide [σfull, σ0, writei, writeLoop, bmap, balloc, bzero, takePad,
    updf, T_FILE, T_DEV, T_FREE, MAXFILE, BSIZE, U32, NDIRECT, NINDIRECT,
    zeroBlk, List.range_succ, List.range_zero]

theorem namexGo_skip1 (look : Nat → List Char → Option Nat)
    (typeOf : Nat → Nat) (ip : Nat) (path : List Char) (parent : Bool)
    (path' nm : List Char)
    (hsk : skipelem path = (1, path', some nm)) :
    namexGo look typeOf ip path parent =
      (if typeOf ip = T_FREE then none
       else if typeOf ip ≠ T_DIR then some none
       else if parent ∧ path' = [] then some (some ip)
       else match look ip nm with
         | none => some none
         | some nxt => namexGo look typeOf nxt path' parent) := by
  conv_lhs => unfold namexGo
  split
  · rename_i path2 nm2 heq
    rw [hsk] at heq
    injection heq with h1 h2
    injection h2 with h2 h3
    injection h3 with h3
    subst h2
    subst h3
    rfl
  · rename_i r a b hno heq
    rw [hsk] at heq
    injection heq with h1 h2
    injection h2 with h2 h3
    exact absurd (hno nm h1.symm h3.symm) (fun hc => hc)

theorem namexGo_skipr (look : Nat → List Char → Option Nat)
    (typeOf : Nat → Nat) (ip : Nat) (path : List Char) (parent : Bool)
    (r : Int) (a : List Char)
    (hsk : skipelem path = (r, a, none)) :
    namexGo look typeOf ip path parent =
      (if r = -1 ∨ parent then some none else some (some ip)) := by
  conv_lhs => unfold namexGo
  split
  · rename_i path2 nm2 heq
    rw [hsk] at heq
    injection heq with h1 h2
    injection h2 with h2 h3
    exact absurd h3 (by simp)
  · rename_i r2 a2 b2 hno heq
    rw [hsk] at heq
    injection heq with h1 h2
    injection h2 with h2 h3
    subst h1
    rfl

theorem skipelem_zero (path : List Char) (h1 : path.dropWhile isSlash = []) :
    skipelem path = (0, path, none) := by
  unfold skipelem
  rw [if_pos h1]

theorem skipelem_long (path : List Char)
    (h2 : ((path.dropWhile isSlash).takeWhile notSlash).length > DIRSIZ) :
    skipelem path = (-1, path, none) := by
  have h1 : path.dropWhile isSlash ≠ [] := by
    intro hc
    rw [hc] at h2
    simp at h2
  unfold skipelem
  rw [if_neg h1, if_pos h2]

theorem skipelem_ok (path : List Char)
    (h1 : path.dropWhile isSlash ≠ [])
    (h2 : ¬ ((path.dropWhile isSlash).takeWhile notSlash).length > DIRSIZ) :
    skipelem path = (1,
      ((path.dropWhile isSlash).dropWhile notSlash).dropWhile isSlash,
      some ((path.dropWhile isSlash).takeWhile notSlash)) := by
  unfold skipelem
  rw [if_neg h1, if_neg h2]

theorem dropWhile_idem (p : Char → Bool) (l : List Char) :
    (l.dropWhile p).dropWhile p = l.dropWhile p := by
  cases hd : l.dropWhile p with
  | nil => rfl
  | cons a t =>
      have ha : p a = false := by
        have hne : l.dropWhile p ≠ [] := by rw [hd]; simp
        have hh := List.head_dropWhile_not p l hne
        have hhd : (l.dropWhile p).head hne = a := by
          simp [List.head_eq_iff_head?_eq_some, hd]
        rwa [hhd] at hh
      rw [List.dropWhile_cons, if_neg (by simp [ha])]

theorem components_dropSlash (l : List Char) :
    components (l.dropWhile isSlash) = components l := by
  conv_lhs => rw [components]
  conv_rhs => rw [components]
  simp only [dropWhile_idem]

theorem components_nil_of_slash (l : List Char)
    (h1 : l.dropWhile isSlash = []) : components l = [] := by
  rw [components]
  rw [dif_pos h1]

theorem skipelem_comp (path path' nm : List Char)
    (h : skipelem path = (1, path', some nm)) :
    components path = nm :: components path' ∧ nm.length ≤ DIRSIZ := by
  unfold skipelem at h
  by_cases h1 : path.dropWhile isSlash = []
  · rw [if_pos h1] at h
    exact absurd h (by simp)
  · rw [if_neg h1] at h
    by_cases h2 : ((path.dropWhile isSlash).takeWhile notSlash).length > DIRSIZ
    · rw [if_pos h2] at h
      exact absurd h (by simp)
    · rw [if_neg h2] at h
      simp only [Prod.mk.injEq] at h
      obtain ⟨-, hp, hnm⟩ := h
      injection hnm with hnm
      constructor
      · rw [components, dif_neg h1, hnm, ← hp, components_dropSlash]
      · rw [← hnm]
        omega

theorem namexGo_success_short (L : Nat) :
    ∀ (look : Nat → List Char → Option Nat) (typeOf : Nat → Nat)
    (ip : Nat) (path : List Char) (parent : Bool) (x : Nat),
    path.length ≤ L →
    namexGo look typeOf ip path parent = some (some x) →
    ∀ c ∈ components path, c.length ≤ DIRSIZ := by
  induction L with
  | zero =>
      intro look typeOf ip path parent x hlen h c hc
      have hp : path = [] := List.length_eq_zero.mp (Nat.le_zero.mp hlen)
      subst hp
      rw [components_nil_of_slash [] rfl] at hc
      simp at hc
  | succ L ih =>
      intro look typeOf ip path parent x hlen h c hc
      by_cases h1 : path.dropWhile isSlash = []
      · rw [components_nil_of_slash path h1] at hc
        simp at hc
      · by_cases h2 : ((path.dropWhile isSlash).takeWhile notSlash).length >
            DIRSIZ
        · rw [namexGo_skipr look typeOf ip path parent (-1) path
            (skipelem_long path h2), if_pos (Or.inl rfl)] at h
          exact absurd h (by simp)
        · have hsk := skipelem_ok path h1 h2
          rw [namexGo_skip1 look typeOf ip path parent _ _ hsk] at h
          obtain ⟨hcomp, hT⟩ := skipelem_comp path _ _ hsk
          rw [hcomp] at hc
          rcases List.mem_cons.mp hc with hc1 | hc1
          · rw [hc1]
            exact hT
          · by_cases hfree : typeOf ip = T_FREE
            · rw [if_pos hfree] at h
              exact absurd h (by simp)
            · rw [if_neg hfree] at h
              by_cases hdir : typeOf ip ≠ T_DIR
              · rw [if_pos hdir] at h
                exact absurd h (by simp)
              · rw [if_neg hdir] at h
                by_cases hpar : parent = true ∧
                    ((path.dropWhile isSlash).dropWhile
                      notSlash).dropWhile isSlash = []
                · rw [if_pos hpar] at h
                  rw [components_nil_of_slash _
                    (by rw [hpar.2]; rfl)] at hc1
                  simp at hc1
                · rw [if_neg hpar] at h
                  cases hlk : look ip
                      ((path.dropWhile isSlash).takeWhile notSlash) with
                  | none =>
                      rw [hlk] at h
                      exact absurd h (by simp)
                  | some nxt =>
                      rw [hlk] at h
                      refine ih look typeOf nxt _ parent x ?_ h c hc1
                      have := skipelem_shrinks path _ _ hsk
                      omega

/-- C5 (amended): a path that namex resolves has every component within
DIRSIZ bytes; a leading component longer than DIRSIZ makes namex fail
(skipelem's -1, the NameTooLong case); a component of exactly DIRSIZ bytes
is accepted by the lexer.  But an empty path (or one of only slashes) is not
Invalid as claimed: nameiparent fails on it, while namei returns the start
inode — the root for an absolute path and the cwd otherwise. -/
theorem namex_lexer_spec (look : Nat → List Char → Option Nat)
    (typeOf : Nat → Nat) (root cwd : Nat) :
    (∀ ip path parent x,
      namexGo look typeOf ip path parent = some (some x) →
      ∀ c ∈ components path, c.length ≤ DIRSIZ) ∧
    (∀ path parent,
      ((path.dropWhile isSlash).takeWhile notSlash).length > DIRSIZ →
      namex look typeOf root cwd path parent = some none) ∧
    (∀ path, path.dropWhile isSlash = [] →
      nameiparent look typeOf root cwd path = some none ∧
      namei look typeOf root cwd path =
        some (some (if path.head? = some '/' then root else cwd))) ∧
    (∀ path, ((path.dropWhile isSlash).takeWhile notSlash).length = DIRSIZ →
      skipelem path = (1,
        ((path.dropWhile isSlash).dropWhile notSlash).dropWhile isSlash,
        some ((path.dropWhile isSlash).takeWhile notSlash))) := by
  refine ⟨?_, ?_, ?_, ?_⟩
  · intro ip path parent x h
    exact namexGo_success_short path.length look typeOf ip path parent x
      (Nat.le_refl _) h
  · intro path parent h2
    unfold namex
    rw [namexGo_skipr _ _ _ _ _ (-1) path (skipelem_long path h2),
      if_pos (Or.inl rfl)]
  · intro path h1
    constructor
    · unfold nameiparent namex
      rw [namexGo_skipr _ _ _ _ _ 0 path (skipelem_zero path h1),
        if_pos (Or.inr rfl)]
    · unfold namei namex
      rw [namexGo_skipr _ _ _ _ _ 0 path (skipelem_zero path h1),
        if_neg (by decide)]
  · intro path hlen
    refine skipelem_ok path ?_ (by omega)
    intro hc
    rw [hc] at hlen
    exact absurd hlen (by decide)

theorem namex_lexer_spec_witness :
    (∀ c ∈ components ['a'], c.length ≤ DIRSIZ) ∧
    namex (fun _ _ => none) (fun _ => T_DIR) 1 7
      ['a','a','a','a','a','a','a','a','a','a','a','a','a'] false =
      some none ∧
    nameiparent (fun _ _ => none) (fun _ => T_DIR) 1 7 [] = some none ∧
    skipelem ['a','a','a','a','a','a','a','a','a','a','a','a'] =
      (1, [], some ['a','a','a','a','a','a','a','a','a','a','a','a']) := by
  have hrun : namexGo (fun _ _ => some 3) (fun _ => T_DIR) 5 ['a'] false =
      some (some 3) := by
    rw [namexGo_skip1 _ _ _ _ _ [] ['a'] (by decide)]
    rw [if_neg (by decide), if_neg (by decide), if_neg (by decide)]
    show namexGo (fun _ _ => some 3) (fun _ => T_DIR) 3 [] false =
      some (some 3)
    rw [namexGo_skipr _ _ _ _ _ 0 [] (by decide), if_neg (by decide)]
  refine ⟨?_, ?_, ?_, ?_⟩
  · exact (namex_lexer_spec (fun _ _ => some 3) (fun _ => T_DIR) 1 5).1
      5 ['a'] false 3 hrun
  · exact (namex_lexer_spec (fun _ _ => none) (fun _ => T_DIR) 1 7).2.1
      _ false (by decide)
  · exact ((namex_lexer_spec (fun _ _ => none) (fun _ => T_DIR) 1 7).2.2.1
      [] rfl).1
  · exact (namex_lexer_spec (fun _ _ => none) (fun _ => T_DIR) 1 7).2.2.2
      _ (by decide)

/-- Counterexample to C5 as stated: namei of the empty path is not Invalid —
it succeeds and returns the cwd inode. -/
theorem c5_counterexample :
    namei (fun _ _ => none) (fun _ => T_DIR) 1 7 [] = some (some 7) := by
  unfold namei namex
  rw [if_neg (by decide)]
  rw [namexGo_skipr _ _ _ _ _ 0 [] (by decide), if_neg (by decide)]

theorem logicalMap_zero_of_addrs (σ : St)
    (hz : ∀ i, i < NDIRECT + 2 → σ.ip.addrs i = 0) :
    ∀ bn, logicalMap σ bn = 0 := by
  intro bn
  have hND : σ.ip.addrs NDIRECT = 0 := hz NDIRECT (by omega)
  have hND1 : σ.ip.addrs (NDIRECT + 1) = 0 := hz (NDIRECT + 1) (by omega)
  by_cases h1 : bn < NDIRECT
  · rw [logicalMap_dir σ bn h1]
    exact hz bn (by omega)
  · by_cases h2 : bn - NDIRECT < NINDIRECT
    · rw [logicalMap_ind σ bn h1 h2]
      rw [if_neg (by simp [hND])]
    · by_cases h3 : bn - NDIRECT - NINDIRECT < NINDIRECT * NINDIRECT
      · rw [logicalMap_dbl σ bn h1 h2 h3]
        simp only [blockOfRole]
        rw [if_neg (by simp [hND1])]
      · unfold logicalMap
        rw [if_neg h1, if_neg h2, if_neg h3]

theorem ite_none_some {α : Type} (C : Prop) [Decidable C] (E : α) (z : α)
    (h : (if C then none else some E) = some z) : ¬ C ∧ E = z := by
  by_cases hc : C
  · rw [if_pos hc] at h
    exact absurd h (by simp)
  · rw [if_neg hc] at h
    injection h with h
    exact ⟨hc, h⟩

/-- C3 (amended): itrunc acts only when offset < ip.size (otherwise it
returns at once, leaving even the size untouched); on the acting path it
always ends with ip.size = offset; and a full truncation itrunc(ip, 0, t),
when it passes its final assertion, leaves size 0, an all-zero address
array, and hence an empty logical block map — every data block has been cut
loose from the inode. -/
theorem itrunc_spec (σ : St) (offset : Nat) (u : Bool) :
    (σ.ip.size ≤ offset ∨ offset ≥ MAXFILE * BSIZE →
      itrunc σ offset u = some σ) ∧
    (∀ σ', offset < σ.ip.size → σ.ip.size ≤ U32 →
      itrunc σ offset u = some σ' → σ'.ip.size = offset) ∧
    (∀ σ', itrunc σ 0 u = some σ' → 0 < σ.ip.size →
      σ'.ip.size = 0 ∧ (∀ i, i < NDIRECT + 2 → σ'.ip.addrs i = 0) ∧
      ∀ bn, logicalMap σ' bn = 0) := by
  refine ⟨?_, ?_, ?_⟩
  · intro h
    unfold itrunc
    rw [if_pos h]
  · intro σ' hlt hU h
    have hMB : MAXFILE * BSIZE = 4299202560 := rfl
    have hU32 : U32 = 4294967296 := rfl
    unfold itrunc at h
    rw [if_neg (by push_neg; omega)] at h
    simp only [] at h
    obtain ⟨-, hE⟩ := ite_none_some _ _ _ h
    rw [← hE]
  · intro σ' h h0
    have hMB : MAXFILE * BSIZE = 4299202560 := rfl
    unfold itrunc at h
    rw [if_neg (by push_neg; omega)] at h
    simp only [] at h
    obtain ⟨hnc, hE⟩ := ite_none_some _ _ _ h
    push_neg at hnc
    have hz := hnc trivial
    rw [← hE]
    refine ⟨rfl, fun i hi => hz i hi, ?_⟩
    exact logicalMap_zero_of_addrs _ (fun i hi => hz i hi)

set_option maxHeartbeats 2000000 in
theorem itrunc_spec_witness :
    itrunc σhole 100 true = some σhole ∧
    c3σ.ip.size = 0 ∧ (∀ i, i < NDIRECT + 2 → c3σ.ip.addrs i = 0) ∧
    (∀ bn, logicalMap c3σ bn = 0) := by
  have hrun : itrunc σhole 0 true = some c3σ := by
    simp +decide [c3σ, itrunc, truncDirect, truncIndirect, truncDbl, truncD1,
      truncEntries, bfree, σhole, σ0, updf, u32At, zeroBlk, BLOCKROUNDUP,
      T_FILE, T_DEV, T_FREE, MAXFILE, BSIZE, U32, NDIRECT, NINDIRECT]
  obtain ⟨h1, h2, h3⟩ := itrunc_spec σhole 0 true
  obtain ⟨ha, hb, hc⟩ := h3 c3σ hrun (by decide)
  exact ⟨(itrunc_spec σhole 100 true).1 (Or.inl (by decide)), ha, hb, hc⟩

/-- Counterexample to C3 as stated: for an offset at or above the current
size, itrunc returns immediately and does not set ip.size = offset. -/
theorem c3_counterexample :
    itrunc σhole 100 true = some σhole ∧ σhole.ip.size = 5 ∧
    ¬ (σhole.ip.size = 100) := by
  refine ⟨?_, rfl, by decide⟩
  unfold itrunc
  rw [if_pos (Or.inl (by decide))]
